import Mathlib

/-!
Verification of the semantic validator and variable-resolution protocol of a
workflow-to-pipeline translator.

The embedding follows two Python sources:
  * `src/translator/validator.py` — `WorkflowValidator` (topological ordering
    by Kahn's algorithm, scope analysis, structural/config validation);
  * `output/.../graph.py` — the generated runtime's variable resolution
    (`_resolve_params`, `_resolve_param_variable`, `_resolve_template`).

Python strings are modelled as `List Char` (sequences of code points, compared
lexicographically by code point, exactly as CPython compares `str`).  Python
exceptions are modelled with `Except`; `dict` values appearing in node configs
and runtime state are modelled by the inductive `PyVal`.
-/

namespace LGT

/-- A Python string: a sequence of code points. -/
abbrev Str := List Char

/-- CPython `<` on strings: lexicographic comparison by code point. -/
def strLt : Str → Str → Bool
  | [], [] => false
  | [], _ :: _ => true
  | _ :: _, [] => false
  | a :: as, b :: bs => if a < b then true else if b < a then false else strLt as bs

/-- CPython `<=` on strings (total order, so `s <= t ↔ ¬ t < s`). -/
def strLe (s t : Str) : Bool := !(strLt t s)

/-! ## Data model (`src/translator/models/skill.py`) -/

/-- Values that can appear in a Python `Dict[str, Any]` config / state.
Floats are not modelled (no claim inspects a float's value; the validator
only ever recurses into `dict`/`list`/`str` leaves). -/
inductive PyVal where
  | none
  | bool (b : Bool)
  | int (n : Int)
  | str (s : Str)
  | list (xs : List PyVal)
  | dict (kvs : List (Str × PyVal))

/-- `NodeOutputModel`: an output declaration `{name, type}`. -/
structure NodeOutput where
  name : Str
  type : Str
deriving DecidableEq

/-- `NodeConfigModel`: the fixed field set of a node config.  `temperature`
is `Optional[float]`; the validator never inspects its value (it is neither a
string nor a container), so it is modelled as an opaque optional number. -/
structure NodeConfig where
  function_name : Option Str := Option.none
  function_params : Option (List (Str × PyVal)) := some []
  model : Option Str := Option.none
  prompt_template : Option Str := Option.none
  temperature : Option Int := Option.none
  component_type : Option Str := Option.none
  template : Option (List (Str × PyVal)) := Option.none

/-- `NodeModel`: a workflow node.  `outputs` is `Optional[List[...]]` with
default `[]`; `None` and `[]` are both falsy in `if node.outputs:`, so both
are modelled as `[]`. -/
structure Node where
  id : Str
  type : Str
  config : NodeConfig
  outputs : List NodeOutput := []

/-- `EdgeModel`: a directed edge between node ids. -/
structure Edge where
  source_node : Str
  target_node : Str
deriving DecidableEq

/-- `ParameterModel`: a declared pipeline input (the validator only reads
`name`). -/
structure Parameter where
  name : Str
  type : Str := []
  required : Bool := true
  default : Option PyVal := Option.none

/-- `WorkflowModel`: nodes plus edges. -/
structure Workflow where
  nodes : List Node
  edges : List Edge

/-- The part of `SkillYAML` the validator reads: `skill.inputs.parameters`
and `skill.workflow`. -/
structure Skill where
  parameters : List Parameter
  workflow : Workflow

/-- Python exceptions raised by the validator. -/
inductive PyErr where
  | keyError (k : Str)
  | valueError (msg : Str)
deriving DecidableEq

/-! ## Topological ordering (`WorkflowValidator._get_topological_order`)

```
in_degree = {node.id: 0 for node in self.workflow.nodes}
adj_list = {node.id: [] for node in self.workflow.nodes}
for edge in self.edges:
    adj_list[edge.source_node].append(edge.target_node)
    in_degree[edge.target_node] += 1
queue = [node_id for node_id, degree in in_degree.items() if degree == 0]
result = []
while queue:
    queue.sort()
    node_id = queue.pop(0)
    result.append(node_id)
    for neighbor in adj_list[node_id]:
        in_degree[neighbor] -= 1
        if in_degree[neighbor] == 0:
            queue.append(neighbor)
if len(result) != len(self.workflow.nodes):
    raise ValueError("Cycle detected in workflow graph")
return result
```
-/

/-- Key list of a Python dict comprehension over a list of keys: first
occurrence wins, insertion order preserved. -/
def pyDictKeys (l : List Str) : List Str :=
  l.foldl (fun acc x => if x ∈ acc then acc else acc ++ [x]) []

/-- The node-id list of a workflow. -/
def nodeIds (w : Workflow) : List Str := w.nodes.map (·.id)

/-- The `for edge in self.edges` loop: build the adjacency map and in-degree
map.  `adj_list[edge.source_node]` / `in_degree[edge.target_node]` raise
`KeyError` when the endpoint is not a dict key (i.e. not a node id). -/
def addEdges (keys : List Str) :
    List Edge → (Str → List Str) → (Str → Int) →
    Except PyErr ((Str → List Str) × (Str → Int))
  | [], adj, deg => .ok (adj, deg)
  | e :: es, adj, deg =>
    if e.source_node ∈ keys then
      let adj' := fun x => if x = e.source_node then adj x ++ [e.target_node] else adj x
      if e.target_node ∈ keys then
        addEdges keys es adj' (fun x => if x = e.target_node then deg x + 1 else deg x)
      else .error (.keyError e.target_node)
    else .error (.keyError e.source_node)

/-- `queue.sort()`: CPython's stable ascending sort, modelled by stable
insertion sort under `strLe` (stability + sortedness + permutation determine
the result uniquely, so any stable sort is extensionally the same). -/
def sortQueue (q : List Str) : List Str :=
  List.insertionSort (fun a b => strLe a b = true) q

/-- The inner `for neighbor in adj_list[node_id]` loop: decrement each
neighbor's in-degree and enqueue it when the count reaches exactly 0. -/
def processNeighbors : List Str → (Str → Int) → List Str → ((Str → Int) × List Str)
  | [], deg, queue => (deg, queue)
  | v :: vs, deg, queue =>
    let d := deg v - 1
    let deg' := fun x => if x = v then d else deg x
    let queue' := if d = 0 then queue ++ [v] else queue
    processNeighbors vs deg' queue'

/-- The `while queue` loop of Kahn's algorithm.  Each iteration removes one
element from the queue and appends it to the result; a node is enqueued at
most once (its counter reaches exactly 0 at most once), so `fuel = number of
dict keys` always suffices: when fuel runs out the queue is already empty. -/
def kahnLoop (adj : Str → List Str) :
    Nat → (Str → Int) → List Str → List Str → List Str
  | 0, _, _, result => result
  | fuel + 1, deg, queue, result =>
    match sortQueue queue with
    | [] => result
    | u :: rest =>
      kahnLoop adj fuel (processNeighbors (adj u) deg rest).1
        (processNeighbors (adj u) deg rest).2 (result ++ [u])

/-- `WorkflowValidator._get_topological_order`. -/
def getTopologicalOrder (w : Workflow) : Except PyErr (List Str) := do
  let keys := pyDictKeys (nodeIds w)
  let (adj, deg) ← addEdges keys w.edges (fun _ => []) (fun _ => 0)
  let queue := keys.filter (fun k => deg k = 0)
  let result := kahnLoop adj keys.length deg queue []
  if result.length = w.nodes.length then pure result
  else .error (.valueError "Cycle detected in workflow graph".toList)

/-! ## Output-name inference (`WorkflowValidator._infer_output_name`) -/

/-- Python `s.split(c)` for a single-character separator. -/
def splitOnChar (c : Char) : Str → List Str
  | [] => [[]]
  | x :: xs =>
    let r := splitOnChar c xs
    if x = c then [] :: r
    else
      match r with
      | [] => [[x]]
      | y :: ys => (x :: y) :: ys

/-- Python `'_'.join(parts)`. -/
def joinUnderscore : List Str → Str
  | [] => []
  | [s] => s
  | s :: rest => s ++ '_' :: joinUnderscore rest

/-- The fixed verb-substitution table `transforms` in `_infer_output_name`. -/
def transforms (v : Str) : Option Str :=
  if v = "enrich".toList then some "enriched".toList
  else if v = "summarize".toList then some "summarized".toList
  else if v = "process".toList then some "processed".toList
  else if v = "transform".toList then some "transformed".toList
  else Option.none

/-- `WorkflowValidator._infer_output_name`. -/
def inferOutputName (node_id : Str) : Str :=
  match splitOnChar '_' node_id with
  | [] => node_id
  | verb :: rest =>
    if rest.length ≥ 1 then
      match transforms verb with
      | some v => v ++ '_' :: joinUnderscore rest
      | Option.none => node_id
    else node_id

/-! ## Kahn invariant machinery -/

/-- Number of edges into `v` whose source is not yet in `processed`
("remaining in-degree" at an intermediate state of Kahn's algorithm). -/
def remDeg (edges : List Edge) (processed : List Str) (v : Str) : Nat :=
  edges.countP (fun e => decide (e.target_node = v ∧ e.source_node ∉ processed))

/-- Number of edges from `u` to `v` (with multiplicity). -/
def cntEdges (edges : List Edge) (u v : Str) : Nat :=
  edges.countP (fun e => decide (e.source_node = u ∧ e.target_node = v))

/-! ### The loop invariant -/

/-- Invariant of the `while queue` loop of Kahn's algorithm. -/
structure KahnInv (edges : List Edge) (keys : List Str) (deg : Str → Int)
    (queue result : List Str) : Prop where
  keys_nodup : keys.Nodup
  edges_valid : ∀ e ∈ edges, e.source_node ∈ keys ∧ e.target_node ∈ keys
  result_nodup : result.Nodup
  queue_nodup : queue.Nodup
  result_sub : ∀ x ∈ result, x ∈ keys
  deg_eq : ∀ v, deg v = (remDeg edges result v : Int)
  queue_iff : ∀ v, v ∈ queue ↔ (v ∈ keys ∧ v ∉ result ∧ remDeg edges result v = 0)
  result_closed : ∀ v ∈ result, remDeg edges result v = 0
  prec : ∀ i : Fin result.length, ∀ e ∈ edges, e.target_node = result.get i →
      e.source_node ∈ result.take i
  greedy : ∀ i : Fin result.length,
      ∀ v, v ∈ keys → v ∉ result.take i → remDeg edges (result.take i) v = 0 →
        strLe (result.get i) v = true

/-- What holds of the final `result` list when the loop exits. -/
structure KahnDone (edges : List Edge) (keys : List Str) (f : List Str) : Prop where
  nodup : f.Nodup
  sub : ∀ x ∈ f, x ∈ keys
  prec : ∀ i : Fin f.length, ∀ e ∈ edges, e.target_node = f.get i →
      e.source_node ∈ f.take i
  greedy : ∀ i : Fin f.length,
      ∀ v, v ∈ keys → v ∉ f.take i → remDeg edges (f.take i) v = 0 →
        strLe (f.get i) v = true
  exhausted : ∀ v ∈ keys, v ∉ f → remDeg edges f v ≠ 0

/-! ### Acyclicity, cycles, and consequences of the loop postcondition -/

/-- An edge from `a` to `b` exists in the edge list. -/
def HasEdge (edges : List Edge) (a b : Str) : Prop :=
  ∃ e ∈ edges, e.source_node = a ∧ e.target_node = b

/-- A directed path from `a` to `b` whose intermediate vertices are `p`. -/
def IsPath (edges : List Edge) : Str → Str → List Str → Prop
  | a, b, [] => HasEdge edges a b
  | a, b, x :: xs => HasEdge edges a x ∧ IsPath edges x b xs

/-- The workflow's edge set contains a directed cycle. -/
def HasCycle (w : Workflow) : Prop := ∃ a p, IsPath w.edges a a p

/-- Index of the first occurrence of `a` (the list's length when absent). -/
def idxOf (a : Str) : List Str → Nat
  | [] => 0
  | x :: xs => if x = a then 0 else idxOf a xs + 1

/-- The workflow graph is acyclic: some duplicate-free enumeration of its
node ids places every edge's source strictly before its target. -/
def IsDag (w : Workflow) : Prop :=
  ∃ L : List Str, L.Nodup ∧ (∀ x, x ∈ L ↔ x ∈ nodeIds w) ∧
    ∀ e ∈ w.edges, idxOf e.source_node L < idxOf e.target_node L

/-! ## Scope analysis (`WorkflowValidator._build_outputs_map`) -/

instance : Inhabited Node := ⟨{ id := [], type := [], config := {} }⟩

/-- `self.nodes[node_id]`: the Python dict `{node.id: node for node in nodes}`
(later duplicates overwrite earlier ones, so lookup returns the last
occurrence; in validated graphs ids are unique and the id is always found). -/
def getNode (nodes : List Node) (i : Str) : Node :=
  (nodes.reverse.find? (fun n => n.id == i)).getD default

/-- Output names a node contributes to the visible set: its declared output
names, or the single inferred name when it declares none. -/
def outputNames (n : Node) : List Str :=
  match n.outputs with
  | [] => [inferOutputName n.id]
  | outs => outs.map (·.name)

/-- `set.add`: Python sets of strings modelled as insertion-ordered
duplicate-free lists. -/
def setAdd (s : List Str) (x : Str) : List Str := if x ∈ s then s else s ++ [x]

def setAddMany (s : List Str) (xs : List Str) : List Str := xs.foldl setAdd s

/-- The `for node_id in topo_order` loop of `_build_outputs_map`: record the
current visible set as the node's scope, then add the node's output names. -/
def outputsLoop (nodes : List Node) : List Str → List Str → List (Str × List Str) →
    List (Str × List Str)
  | [], _, acc => acc
  | nid :: rest, available, acc =>
      outputsLoop nodes rest (setAddMany available (outputNames (getNode nodes nid)))
        (acc ++ [(nid, available)])

/-- `WorkflowValidator._build_outputs_map`: the bare `except` around the
topological sort makes the map stay empty whenever ordering fails. -/
def buildOutputsMap (sk : Skill) : List (Str × List Str) :=
  match getTopologicalOrder sk.workflow with
  | .error _ => []
  | .ok order =>
      outputsLoop sk.workflow.nodes order
        (setAddMany [] (sk.parameters.map (·.name))) []

/-! ## Concrete example graphs (used to witness the theorems) -/

def fcConfig : NodeConfig := { function_name := some "fn".toList }

def mkNode (i : String) : Node :=
  { id := i.toList, type := "function_call".toList, config := fcConfig }

/-- The five-node chain from the specification's test properties. -/
def wfChain : Workflow :=
  { nodes := [mkNode "generate_embedding", mkNode "vector_search", mkNode "enrich_results",
      mkNode "summarize_findings", mkNode "display_results"],
    edges := [⟨"generate_embedding".toList, "vector_search".toList⟩,
      ⟨"vector_search".toList, "enrich_results".toList⟩,
      ⟨"enrich_results".toList, "summarize_findings".toList⟩,
      ⟨"summarize_findings".toList, "display_results".toList⟩] }

/-- A two-node cyclic workflow. -/
def skCyclic : Skill :=
  { parameters := [],
    workflow :=
      { nodes := [mkNode "a", mkNode "b"],
        edges := [⟨"a".toList, "b".toList⟩, ⟨"b".toList, "a".toList⟩] } }

/-- Recursive form of the `_build_outputs_map` loop (no accumulator). -/
def scopeList (nodes : List Node) : List Str → List Str → List (Str × List Str)
  | [], _ => []
  | nid :: rest, avail =>
      (nid, avail) ::
        scopeList nodes rest (setAddMany avail (outputNames (getNode nodes nid)))

/-- A small acyclic skill used to witness the scope-map facts. -/
def skScope : Skill :=
  { parameters := [{ name := "query".toList, type := "string".toList }],
    workflow :=
      { nodes := [mkNode "fetch_data", mkNode "process_data"],
        edges := [⟨"fetch_data".toList, "process_data".toList⟩] } }

def chainOrder : List Str := ["fetch_data".toList, "process_data".toList]

/-! ## Structural & config validation (`WorkflowValidator.validate`) -/

/-- One entry of the validator's error list.  Each constructor models one of
the f-strings in `validator.py` and carries exactly the interpolated data. -/
inductive VErr where
  | duplicateIds (dups : List Str)
  | danglingSource (s : Str)
  | danglingTarget (s : Str)
  | cyclicWorkflow (msg : Str)
  | cannotValidateVars (msg : Str)
  | undefinedVariable (node : Str) (var : Str) (available : List Str)
  | missingFunctionName (node : Str)
  | missingPromptTemplate (node : Str)
  | missingComponentType (node : Str)
deriving DecidableEq

/-- Python `\w` word characters (ASCII letters, digits, underscore; the
alphabet the system's ids and templates use). -/
def isWordChar (c : Char) : Bool := c.isAlphanum || c = '_'

/-- `re.findall(r'\{\{(\w+)\}\}', s)`: scan left to right for
non-overlapping `{{name}}` tokens, collecting the group matches in order.
(`\w+` is greedy and a maximal word run not followed by `}}` cannot match
even after backtracking, because every shorter non-empty prefix is followed
by a word character.)  The fuel argument only bounds recursion depth — every
recursive call shortens the string, so `s.length` units always suffice. -/
def findTokensGo : Nat → Str → List Str
  | 0, _ => []
  | fuel + 1, s =>
    match s with
    | '{' :: '{' :: rest =>
      match rest.dropWhile isWordChar with
      | '}' :: '}' :: r =>
        if rest.takeWhile isWordChar = [] then findTokensGo fuel ('{' :: rest)
        else rest.takeWhile isWordChar :: findTokensGo fuel r
      | _ => findTokensGo fuel ('{' :: rest)
    | _ :: cs => findTokensGo fuel cs
    | [] => []

def findTokens (s : Str) : List Str := findTokensGo s.length s

/-- `_search_dict_for_variables`: recurse through dict values and list items,
collecting `{{name}}` tokens from string leaves. -/
def searchObj : PyVal → List Str
  | .str s => findTokens s
  | .list [] => []
  | .list (x :: xs) => searchObj x ++ searchObj (.list xs)
  | .dict [] => []
  | .dict ((_, v) :: kvs) => searchObj v ++ searchObj (.dict kvs)
  | _ => []

def optStrVal : Option Str → PyVal
  | some s => .str s
  | Option.none => .none

def optDictVal : Option (List (Str × PyVal)) → PyVal
  | some d => .dict d
  | Option.none => .none

/-- `node.config.model_dump()`: the full field dict of `NodeConfigModel`
(unset optional fields dump as `None`; `temperature` is numeric, never a
string or container, so the variable search ignores it). -/
def configDump (c : NodeConfig) : PyVal :=
  .dict [("function_name".toList, optStrVal c.function_name),
         ("function_params".toList, optDictVal c.function_params),
         ("model".toList, optStrVal c.model),
         ("prompt_template".toList, optStrVal c.prompt_template),
         ("temperature".toList,
           match c.temperature with
           | some n => .int n
           | Option.none => .none),
         ("component_type".toList, optStrVal c.component_type),
         ("template".toList, optDictVal c.template)]

/-- `_extract_variables`: the tokens found in a node's config as a Python
set, modelled as the first-occurrence-deduplicated list. -/
def extractVariables (n : Node) : List Str :=
  pyDictKeys (searchObj (configDump n.config))

/-- Python truthiness of an `Optional[str]` field (`None` and `""` falsy). -/
def truthyOptStr : Option Str → Bool
  | some s => !s.isEmpty
  | Option.none => false

/-- `_validate_node_configs`. -/
def validateNodeConfigs (nodes : List Node) : List VErr :=
  nodes.flatMap (fun n =>
    if n.type = "function_call".toList then
      if truthyOptStr n.config.function_name then [] else [.missingFunctionName n.id]
    else if n.type = "llm_call".toList then
      if truthyOptStr n.config.prompt_template then [] else [.missingPromptTemplate n.id]
    else if n.type = "visualizer".toList then
      if truthyOptStr n.config.component_type then [] else [.missingComponentType n.id]
    else [])

/-- `self.available_outputs.get(node_id, set())`. -/
def lookupScope (om : List (Str × List Str)) (nid : Str) : List Str :=
  match om.find? (fun p => p.1 == nid) with
  | some p => p.2
  | Option.none => []

/-- Python `sorted()` on strings (stable ascending sort, the same order as
`list.sort()`). -/
def sortStrs (l : List Str) : List Str := sortQueue l

/-- The per-node loop of `_validate_variable_references`. -/
def varErrs (nodes : List Node) (om : List (Str × List Str)) (order : List Str) : List VErr :=
  order.flatMap (fun nid =>
    ((extractVariables (getNode nodes nid)).filter
        (fun v => decide (v ∉ lookupScope om nid))).map
      (fun v => .undefinedVariable nid v (sortStrs (lookupScope om nid))))

/-- `_validate_variable_references`: a cyclic workflow turns into the single
"cannot validate" entry (the `except ValueError`); a `KeyError` from dangling
edges would propagate (it never does, because `validate` has already raised
by the time this runs). -/
def validateVariableReferences (sk : Skill) (om : List (Str × List Str)) :
    Except PyErr (List VErr) :=
  match getTopologicalOrder sk.workflow with
  | .error (.valueError msg) => .ok [.cannotValidateVars msg]
  | .error (.keyError k) => .error (.keyError k)
  | .ok order => .ok (varErrs sk.workflow.nodes om order)

/-- `WorkflowValidator.validate`.  `_build_graph` only builds lists and
cannot raise, so the `except Exception` at validator.py:49-51 is dead code;
the `KeyError` a dangling edge causes inside `_get_topological_order` is
caught nowhere (only `ValueError` is) and propagates out of `validate`. -/
def validate (sk : Skill) : Except PyErr (Bool × List VErr) := do
  let node_ids := nodeIds sk.workflow
  let dups := node_ids.filter (fun nid => node_ids.countP (fun x => decide (x = nid)) > 1)
  let e1 : List VErr := if dups.isEmpty then [] else [.duplicateIds (pyDictKeys dups)]
  let e2 : List VErr := sk.workflow.edges.flatMap (fun e =>
    (if e.source_node ∈ node_ids then [] else [VErr.danglingSource e.source_node]) ++
    (if e.target_node ∈ node_ids then [] else [VErr.danglingTarget e.target_node]))
  let e3 : List VErr ←
    match getTopologicalOrder sk.workflow with
    | .ok _ => pure []
    | .error (.valueError msg) => pure [VErr.cyclicWorkflow msg]
    | .error (.keyError k) => throw (.keyError k)
  let om := buildOutputsMap sk
  let e4 ← validateVariableReferences sk om
  let e5 := validateNodeConfigs sk.workflow.nodes
  let errs := e1 ++ e2 ++ e3 ++ e4 ++ e5
  pure (errs.isEmpty, errs)

/-- A workflow with an edge whose source names no node. -/
def skDangling : Skill :=
  { parameters := [],
    workflow := { nodes := [mkNode "a"], edges := [⟨"ghost".toList, "a".toList⟩] } }

/-- A `function_call` node with no `function_name` (all config fields unset). -/
def mkBareNode (i : String) : Node :=
  { id := i.toList, type := "function_call".toList, config := {} }

/-- Cyclic workflow whose nodes also miss their required config fields. -/
def skC7cex : Skill :=
  { parameters := [],
    workflow := { nodes := [mkBareNode "a", mkBareNode "b"],
                  edges := [⟨"a".toList, "b".toList⟩, ⟨"b".toList, "a".toList⟩] } }

/-- The literal text of the placeholder token for a name (`"{{" + w + "}}"`). -/
def tokStr (w : Str) : Str := '{' :: '{' :: (w ++ ['}', '}'])

/-- A node whose `function_params` reference an undefined variable. -/
def nodeWithVar : Node :=
  { id := "use_data".toList, type := "function_call".toList,
    config := { function_name := some "fn".toList,
                function_params := some [("x".toList, .str (tokStr "undefined_var".toList))] } }

def skVar : Skill :=
  { parameters := [],
    workflow := { nodes := [mkNode "fetch_data", nodeWithVar],
                  edges := [⟨"fetch_data".toList, "use_data".toList⟩] } }

def uerr : VErr :=
  VErr.undefinedVariable "use_data".toList "undefined_var".toList ["fetch_data".toList]

/-! ## Runtime variable resolution (generated `graph.py`)

`_resolve_params` / `_resolve_param_variable` implement structured-mode
resolution; `_resolve_template` implements string-safe resolution. -/

/-- The runtime state map threaded through the pipeline (a Python dict). -/
abbrev PyState := List (Str × PyVal)

/-- Key lookup in the state dict (`k in state` / `state[k]`). -/
def stateGet (state : PyState) (k : Str) : Option PyVal :=
  (state.find? (fun p => p.1 == k)).map (·.2)

/-- `state.get(k)`: Python yields `None` both for an absent key and for a
stored `None`. -/
def pyGet (state : PyState) (k : Str) : PyVal :=
  (stateGet state k).getD .none

/-- The runtime `ValueError` raised on an unresolvable variable, carrying
the variable name and `list(state.keys())`. -/
inductive RErr where
  | unbound (var : Str) (available : List Str)
deriving DecidableEq

def hexChar (n : Nat) : Char :=
  Char.ofNat (if n < 10 then 48 + n else 87 + n)

/-- Decimal rendering of a natural number.  Fuel-structural: `n / 10`
strictly decreases, so `n + 1` units always suffice. -/
def natStrGo : Nat → Nat → Str
  | 0, _ => []
  | fuel + 1, n =>
    if n < 10 then [Char.ofNat ('0'.toNat + n)]
    else natStrGo fuel (n / 10) ++ [Char.ofNat ('0'.toNat + n % 10)]

def natStr (n : Nat) : Str := natStrGo (n + 1) n

/-- Python `str(int)`. -/
def intStr : Int → Str
  | .ofNat n => natStr n
  | .negSucc n => '-' :: natStr (n + 1)

/-- CPython `repr` of a string: single-quoted, or double-quoted when the
text contains a single quote but no double quote; backslash, the chosen
quote, newline, CR and tab are escaped, other control characters rendered
`\xNN`. -/
def pyReprStr (s : Str) : Str :=
  let q : Char := if '\'' ∈ s ∧ '"' ∉ s then '"' else '\''
  q :: (s.flatMap (fun c =>
    if c = '\\' then ['\\', '\\']
    else if c = q then ['\\', q]
    else if c = '\n' then ['\\', 'n']
    else if c = '\r' then ['\\', 'r']
    else if c = '\t' then ['\\', 't']
    else if c.toNat < 0x20 ∨ c.toNat = 0x7f then
      ['\\', 'x', hexChar (c.toNat / 16), hexChar (c.toNat % 16)]
    else [c])) ++ [q]

mutual

/-- CPython `repr` of a value (what `str` falls back to for containers). -/
def pyRepr : PyVal → Str
  | .none => "None".toList
  | .bool true => "True".toList
  | .bool false => "False".toList
  | .int n => intStr n
  | .str s => pyReprStr s
  | .list [] => ['[', ']']
  | .list (x :: xs) => '[' :: (pyRepr x ++ pyReprListTail xs) ++ [']']
  | .dict [] => ['{', '}']
  | .dict ((k, v) :: kvs) =>
      '{' :: (pyReprStr k ++ ':' :: ' ' :: (pyRepr v ++ pyReprDictTail kvs)) ++ ['}']

def pyReprListTail : List PyVal → Str
  | [] => []
  | x :: xs => ',' :: ' ' :: (pyRepr x ++ pyReprListTail xs)

def pyReprDictTail : List (Str × PyVal) → Str
  | [] => []
  | (k, v) :: kvs => ',' :: ' ' :: (pyReprStr k ++ ':' :: ' ' :: (pyRepr v ++ pyReprDictTail kvs))

end

/-- Python `str(value)` (identity on strings, `repr` for containers). -/
def pyStr : PyVal → Str
  | .none => "None".toList
  | .bool true => "True".toList
  | .bool false => "False".toList
  | .int n => intStr n
  | .str s => s
  | .list xs => pyRepr (.list xs)
  | .dict kvs => pyRepr (.dict kvs)

/-- `re.fullmatch(r'\{\{(\w+)\}\}', s)`: the whole string is exactly one
token; yields the captured name. -/
def wholeToken : Str → Option Str
  | '{' :: '{' :: rest =>
    if rest.takeWhile isWordChar = [] then Option.none
    else if rest.dropWhile isWordChar = ['}', '}'] then some (rest.takeWhile isWordChar)
    else Option.none
  | _ => Option.none

/-- The `re.sub` fallback of `_resolve_param_variable` for strings that are
not exactly one token: each `{{name}}` becomes `str(state.get(name))`,
raising when `state.get(name)` is `None`.  Fuel-structural like
`findTokensGo`; `s.length` units suffice. -/
def resolveSubStrGo (state : PyState) : Nat → Str → Except RErr Str
  | 0, _ => .ok []
  | fuel + 1, s =>
    match s with
    | '{' :: '{' :: rest =>
      match rest.dropWhile isWordChar with
      | '}' :: '}' :: r =>
        if rest.takeWhile isWordChar = [] then
          (resolveSubStrGo state fuel ('{' :: rest)).map (fun t => '{' :: t)
        else
          match pyGet state (rest.takeWhile isWordChar) with
          | .none => .error (.unbound (rest.takeWhile isWordChar) (state.map (·.1)))
          | v => (resolveSubStrGo state fuel r).map (fun t => pyStr v ++ t)
      | _ => (resolveSubStrGo state fuel ('{' :: rest)).map (fun t => '{' :: t)
    | c :: cs => (resolveSubStrGo state fuel cs).map (fun t => c :: t)
    | [] => .ok []

def resolveSubStr (state : PyState) (s : Str) : Except RErr Str :=
  resolveSubStrGo state s.length s

/-- `_resolve_param_variable`: a whole-token string resolves to the stored
object itself (raising iff the name is not a state key); anything else goes
through the stringifying `re.sub` fallback. -/
def resolveParamVariable (template_str : Str) (state : PyState) : Except RErr PyVal :=
  match wholeToken template_str with
  | Option.none => (resolveSubStr state template_str).map .str
  | some w =>
    match stateGet state w with
    | Option.none => .error (.unbound w (state.map (·.1)))
    | some v => .ok v

/-- Python `'{{' in value`. -/
def hasDoubleBrace : Str → Bool
  | c1 :: c2 :: rest => (c1 = '{' && c2 = '{') || hasDoubleBrace (c2 :: rest)
  | _ => false

/-- The list comprehension inside `_resolve_params`. -/
def resolveElems (state : PyState) : List PyVal → Except RErr (List PyVal)
  | [] => .ok []
  | x :: rest => do
    let rx ←
      match x with
      | .str s => if hasDoubleBrace s then resolveParamVariable s state else pure x
      | _ => pure x
    let rrest ← resolveElems state rest
    pure (rx :: rrest)

/-- `_resolve_params`. -/
def resolveParams (params : List (Str × PyVal)) (state : PyState) :
    Except RErr (List (Str × PyVal)) :=
  match params with
  | [] => .ok []
  | (key, value) :: rest => do
    let rv ←
      match value with
      | .str s => if hasDoubleBrace s then resolveParamVariable s state else pure value
      | .list xs => (resolveElems state xs).map .list
      | _ => pure value
    let rrest ← resolveParams rest state
    pure ((key, rv) :: rrest)

/-- JSON string-content escaping as `json.dumps` performs it
(`ensure_ascii=False`): quote, backslash, and control characters escaped
(shorthands for `\b \f \n \r \t`, `\u00XX` otherwise). -/
def jsonEscChar (c : Char) : Str :=
  if c = '"' then ['\\', '"']
  else if c = '\\' then ['\\', '\\']
  else if c = '\n' then ['\\', 'n']
  else if c = '\r' then ['\\', 'r']
  else if c = '\t' then ['\\', 't']
  else if c.toNat = 8 then ['\\', 'b']
  else if c.toNat = 12 then ['\\', 'f']
  else if c.toNat < 0x20 then
    ['\\', 'u', '0', '0', hexChar (c.toNat / 16), hexChar (c.toNat % 16)]
  else [c]

def jsonEscape (s : Str) : Str := s.flatMap jsonEscChar

mutual

/-- `json.dumps(v, ensure_ascii=False)` with the default separators `", "`
and `": "`.  Floats are outside the model; ints cover the numbers the
claims exercise. -/
def jsonStr : PyVal → Str
  | .none => "null".toList
  | .bool true => "true".toList
  | .bool false => "false".toList
  | .int n => intStr n
  | .str s => '"' :: (jsonEscape s ++ ['"'])
  | .list [] => ['[', ']']
  | .list (x :: xs) => '[' :: (jsonStr x ++ jsonListTail xs) ++ [']']
  | .dict [] => ['{', '}']
  | .dict ((k, v) :: kvs) =>
      '{' :: ('"' :: (jsonEscape k ++ ['"', ':', ' ']) ++ (jsonStr v ++ jsonDictTail kvs)) ++ ['}']

def jsonListTail : List PyVal → Str
  | [] => []
  | x :: xs => ',' :: ' ' :: (jsonStr x ++ jsonListTail xs)

def jsonDictTail : List (Str × PyVal) → Str
  | [] => []
  | (k, v) :: kvs =>
      ',' :: ' ' :: ('"' :: (jsonEscape k ++ ['"', ':', ' ']) ++ (jsonStr v ++ jsonDictTail kvs))

end

/-- Step 1 of `_resolve_template`'s replacer: `value_str` (containers and
numbers/booleans via `json.dumps`, everything else via `str`). -/
def resolveValueStr : PyVal → Str
  | .dict kvs => jsonStr (.dict kvs)
  | .list xs => jsonStr (.list xs)
  | .int n => jsonStr (.int n)
  | .bool b => jsonStr (.bool b)
  | v => pyStr v

/-- One global single-character `str.replace`. -/
def replChar (c : Char) (r : Str) (s : Str) : Str :=
  s.flatMap (fun x => if x = c then r else [x])

/-- Step 2: the five sequential replaces of `_resolve_template`, in source
order — backslash, double quote, newline, carriage return, tab. -/
def escapeChain (s : Str) : Str :=
  replChar '\t' ['\\', 't']
    (replChar '\r' ['\\', 'r']
      (replChar '\n' ['\\', 'n']
        (replChar '"' ['\\', '"']
          (replChar '\\' ['\\', '\\'] s))))

/-- The full replacer of `_resolve_template`. -/
def safeStr (v : PyVal) : Str := escapeChain (resolveValueStr v)

/-- The `re.sub` scan of `_resolve_template` (fuel-structural as above). -/
def resolveTemplateGo (state : PyState) : Nat → Str → Except RErr Str
  | 0, _ => .ok []
  | fuel + 1, s =>
    match s with
    | '{' :: '{' :: rest =>
      match rest.dropWhile isWordChar with
      | '}' :: '}' :: r =>
        if rest.takeWhile isWordChar = [] then
          (resolveTemplateGo state fuel ('{' :: rest)).map (fun t => '{' :: t)
        else
          match pyGet state (rest.takeWhile isWordChar) with
          | .none => .error (.unbound (rest.takeWhile isWordChar) (state.map (·.1)))
          | v => (resolveTemplateGo state fuel r).map (fun t => safeStr v ++ t)
      | _ => (resolveTemplateGo state fuel ('{' :: rest)).map (fun t => '{' :: t)
    | c :: cs => (resolveTemplateGo state fuel cs).map (fun t => c :: t)
    | [] => .ok []

/-- `_resolve_template`. -/
def resolveTemplate (template : Str) (state : PyState) : Except RErr Str :=
  resolveTemplateGo state template.length template

/-- A concrete run-time state binding `xs` to the list `[1, 2]`. -/
def st8 : PyState := [("xs".toList, .list [.int 1, .int 2])]

/-! ### A strict JSON value parser, modelling `json.loads`

`json.loads` is Python standard-library code, not part of this repository,
so the parser below is modelled from the documented strict behaviour of the
`json` module on the value grammar this program emits: literals
`null`/`true`/`false`, integers, double-quoted strings whose bodies may use
the shorthand escapes (raw control characters below U+0020 are rejected, as
`json.loads` rejects them in strict mode), arrays and objects with optional
whitespace between tokens.  `\uXXXX` escapes, floats and duplicate object
keys fall outside the fragment exercised by the claims and are not
modelled. -/

def wsChar (c : Char) : Bool := c = ' ' || c = '\t' || c = '\n' || c = '\r'

def dropWs (s : Str) : Str := s.dropWhile wsChar

/-- The JSON shorthand string escapes. -/
def unescC : Char → Option Char
  | 'n' => some '\n'
  | 't' => some '\t'
  | 'r' => some '\r'
  | 'b' => some (Char.ofNat 8)
  | 'f' => some (Char.ofNat 12)
  | '"' => some '"'
  | '/' => some '/'
  | '\\' => some '\\'
  | _ => Option.none

/-- Parse a JSON string body after the opening quote, rejecting raw
control characters as `json.loads` does in strict mode. -/
def scanJStr : Str → Option (Str × Str)
  | [] => Option.none
  | '"' :: rest => some ([], rest)
  | '\\' :: c :: rest =>
    match unescC c with
    | Option.none => Option.none
    | some e => (scanJStr rest).map (fun p => (e :: p.1, p.2))
  | c :: rest =>
    if c.toNat < 0x20 then Option.none
    else (scanJStr rest).map (fun p => (c :: p.1, p.2))

def decNum (l : Str) : Nat := l.foldl (fun a c => a * 10 + (c.toNat - 48)) 0

def natTok (s : Str) : Option (Nat × Str) :=
  if s.takeWhile Char.isDigit = [] then Option.none
  else some (decNum (s.takeWhile Char.isDigit), s.dropWhile Char.isDigit)

def intTok : Str → Option (Int × Str)
  | '-' :: rest => (natTok rest).map (fun p => (-(p.1 : Int), p.2))
  | s => (natTok s).map (fun p => ((p.1 : Int), p.2))

mutual

def loadVal : Nat → Str → Option (PyVal × Str)
  | 0, _ => Option.none
  | fuel + 1, s =>
    match dropWs s with
    | 'n' :: 'u' :: 'l' :: 'l' :: r => some (.none, r)
    | 't' :: 'r' :: 'u' :: 'e' :: r => some (.bool true, r)
    | 'f' :: 'a' :: 'l' :: 's' :: 'e' :: r => some (.bool false, r)
    | '"' :: r => (scanJStr r).map (fun p => (.str p.1, p.2))
    | '[' :: r =>
      match dropWs r with
      | ']' :: r2 => some (.list [], r2)
      | _ => (loadArr fuel r).map (fun p => (.list p.1, p.2))
    | '\x7b' :: r =>
      match dropWs r with
      | '\x7d' :: r2 => some (.dict [], r2)
      | _ => (loadObj fuel r).map (fun p => (.dict p.1, p.2))
    | s2 => (intTok s2).map (fun p => (.int p.1, p.2))

def loadArr : Nat → Str → Option (List PyVal × Str)
  | 0, _ => Option.none
  | fuel + 1, s =>
    match loadVal fuel s with
    | Option.none => Option.none
    | some (v, r) =>
      match dropWs r with
      | ',' :: r2 => (loadArr fuel r2).map (fun p => (v :: p.1, p.2))
      | ']' :: r2 => some ([v], r2)
      | _ => Option.none

def loadObj : Nat → Str → Option (List (Str × PyVal) × Str)
  | 0, _ => Option.none
  | fuel + 1, s =>
    match dropWs s with
    | '"' :: r =>
      match scanJStr r with
      | Option.none => Option.none
      | some (k, r1) =>
        match dropWs r1 with
        | ':' :: r2 =>
          match loadVal fuel r2 with
          | Option.none => Option.none
          | some (v, r3) =>
            match dropWs r3 with
            | ',' :: r4 => (loadObj fuel r4).map (fun p => ((k, v) :: p.1, p.2))
            | '\x7d' :: r4 => some ([(k, v)], r4)
            | _ => Option.none
        | _ => Option.none
    | _ => Option.none

end

/-- `json.loads`: parse one value, allow trailing whitespace only.  The
fuel `s.length + 1` suffices because every recursive call follows at least
one consumed input character. -/
def jsonParse (s : Str) : Option PyVal :=
  match loadVal (s.length + 1) s with
  | some (v, r) => if dropWs r = [] then some v else Option.none
  | Option.none => Option.none

/-- A character is clean when it is printable (`≥ U+0020`) or one of the
three escaped whitespace characters; only such characters survive the
five-replace escape of `_resolve_template` in JSON-valid form. -/
def cleanChar (c : Char) : Bool :=
  decide (0x20 ≤ c.toNat) || c = '\n' || c = '\r' || c = '\t'

def cleanStr (s : Str) : Bool := s.all cleanChar

mutual

/-- A value is clean when every string inside it (keys included) is made of
clean characters and every mapping inside it has distinct keys — the domain
on which `json.dumps` output uses only the shorthand escapes and `dict`
round-trips preserve the association list. -/
def cleanVal : PyVal → Bool
  | .none => true
  | .bool _ => true
  | .int _ => true
  | .str s => cleanStr s
  | .list xs => cleanValL xs
  | .dict kvs => decide ((kvs.map (fun p => p.1)).Nodup) && cleanValD kvs

def cleanValL : List PyVal → Bool
  | [] => true
  | x :: xs => cleanVal x && cleanValL xs

def cleanValD : List (Str × PyVal) → Bool
  | [] => true
  | (k, v) :: kvs => cleanStr k && cleanVal v && cleanValD kvs

end

/-- A state binding `v` to a string holding a raw backspace character. -/
def st9 : PyState := [("v".toList, .str [Char.ofNat 8])]

/-! ## Order properties of the string comparison -/

theorem strLt_irrefl (s : Str) : strLt s s = false := by
  induction s with
  | nil => rfl
  | cons c cs ih => simp [strLt, ih]

theorem strLt_trans : ∀ {a b c : Str}, strLt a b = true → strLt b c = true → strLt a c = true
  | [], _ :: _, _ :: _, _, _ => rfl
  | x :: xs, y :: ys, z :: zs, hab, hbc => by
    simp only [strLt] at hab hbc ⊢
    by_cases hxy : x < y
    · by_cases hyz : y < z
      · simp [lt_trans hxy hyz]
      · by_cases hzy : z < y
        · simp [hyz, hzy] at hbc
        · have : y = z := le_antisymm (not_lt.mp hzy) (not_lt.mp hyz)
          subst this; simp [hxy]
    · by_cases hyx : y < x
      · simp [hxy, hyx] at hab
      · have : x = y := le_antisymm (not_lt.mp hyx) (not_lt.mp hxy)
        subst this
        by_cases hyz : x < z
        · simp [hyz]
        · by_cases hzy : z < x
          · simp [hyz, hzy] at hbc
          · have : x = z := le_antisymm (not_lt.mp hzy) (not_lt.mp hyz)
            subst this
            simp only [lt_irrefl, if_false] at hab hbc ⊢
            exact strLt_trans hab hbc

theorem strLt_trichotomy (a b : Str) : strLt a b = true ∨ a = b ∨ strLt b a = true := by
  induction a generalizing b with
  | nil => cases b with
    | nil => exact Or.inr (Or.inl rfl)
    | cons y ys => exact Or.inl rfl
  | cons x xs ih =>
    cases b with
    | nil => exact Or.inr (Or.inr rfl)
    | cons y ys =>
      rcases lt_trichotomy x y with h | h | h
      · exact Or.inl (by simp [strLt, h])
      · subst h
        rcases ih ys with h' | h' | h'
        · exact Or.inl (by simp [strLt, h'])
        · exact Or.inr (Or.inl (by rw [h']))
        · exact Or.inr (Or.inr (by simp [strLt, h']))
      · exact Or.inr (Or.inr (by simp [strLt, h]))

theorem strLt_asymm {a b : Str} (h : strLt a b = true) : strLt b a = false := by
  by_contra hc
  have hba : strLt b a = true := by
    cases hh : strLt b a with
    | false => exact absurd hh hc
    | true => rfl
  have := strLt_trans h hba
  rw [strLt_irrefl] at this
  exact Bool.false_ne_true this

theorem strLe_refl (s : Str) : strLe s s = true := by
  simp [strLe, strLt_irrefl]

theorem strLe_total (a b : Str) : strLe a b = true ∨ strLe b a = true := by
  rcases strLt_trichotomy a b with h | h | h
  · exact Or.inl (by simp [strLe, strLt_asymm h])
  · exact Or.inl (by simp [h, strLe, strLt_irrefl])
  · exact Or.inr (by simp [strLe, strLt_asymm h])

theorem strLe_antisymm {a b : Str} (h1 : strLe a b = true) (h2 : strLe b a = true) : a = b := by
  simp only [strLe, Bool.not_eq_true'] at h1 h2
  rcases strLt_trichotomy a b with h | h | h
  · rw [h] at h2; exact absurd h2 (by simp)
  · exact h
  · rw [h] at h1; exact absurd h1 (by simp)

theorem strLe_trans {a b c : Str} (h1 : strLe a b = true) (h2 : strLe b c = true) :
    strLe a c = true := by
  simp only [strLe, Bool.not_eq_true'] at h1 h2 ⊢
  by_contra hc
  have hca : strLt c a = true := by
    cases hh : strLt c a with
    | false => exact absurd hh hc
    | true => rfl
  rcases strLt_trichotomy a b with h | h | h
  · have := strLt_trans hca h
    rw [this] at h2; exact absurd h2 (by simp)
  · subst h; rw [hca] at h2; exact absurd h2 (by simp)
  · rw [h] at h1; exact absurd h1 (by simp)

instance : IsTotal Str (fun a b => strLe a b = true) := ⟨strLe_total⟩

instance : IsTrans Str (fun a b => strLe a b = true) := ⟨fun _ _ _ => strLe_trans⟩

theorem sortQueue_perm (q : List Str) : (sortQueue q).Perm q :=
  List.perm_insertionSort _ q

theorem sortQueue_sorted (q : List Str) :
    List.Sorted (fun a b => strLe a b = true) (sortQueue q) :=
  List.sorted_insertionSort _ q

theorem countP_add_countP {α : Type} (p q r : α → Bool) (l : List α)
    (h : ∀ x ∈ l, (if p x then 1 else 0) + (if q x then 1 else 0) = (if r x then (1 : Nat) else 0)) :
    l.countP p + l.countP q = l.countP r := by
  induction l with
  | nil => simp
  | cons a l ih =>
    simp only [List.countP_cons]
    have ha := h a (by simp)
    have hl := ih (fun x hx => h x (by simp [hx]))
    omega

theorem remDeg_nil (edges : List Edge) (v : Str) :
    remDeg edges [] v = edges.countP (fun e => decide (e.target_node = v)) := by
  unfold remDeg
  apply List.countP_congr
  intro e _
  simp

theorem remDeg_append_single (edges : List Edge) (r : List Str) (u v : Str) (hu : u ∉ r) :
    remDeg edges (r ++ [u]) v + cntEdges edges u v = remDeg edges r v := by
  apply countP_add_countP
  intro e _
  by_cases ht : e.target_node = v
  · by_cases hs : e.source_node = u
    · have h1 : ¬ (e.target_node = v ∧ e.source_node ∉ r ++ [u]) := by
        rintro ⟨-, hmem⟩; exact hmem (by simp [hs])
      have h3 : e.target_node = v ∧ e.source_node ∉ r := ⟨ht, by rw [hs]; exact hu⟩
      simp [h1, h3, hs, ht, hu]
    · by_cases hr : e.source_node ∈ r
      · have h1 : ¬ (e.target_node = v ∧ e.source_node ∉ r ++ [u]) := by
          rintro ⟨-, hmem⟩; exact hmem (by simp [hr])
        have h2 : ¬ (e.source_node = u ∧ e.target_node = v) := fun ⟨h, _⟩ => hs h
        have h3 : ¬ (e.target_node = v ∧ e.source_node ∉ r) := fun ⟨_, h⟩ => h hr
        simp only [decide_eq_true_eq, if_neg h1, if_neg h2, if_neg h3]
      · have h1 : e.target_node = v ∧ e.source_node ∉ r ++ [u] := ⟨ht, by simp [hr, hs]⟩
        have h2 : ¬ (e.source_node = u ∧ e.target_node = v) := fun ⟨h, _⟩ => hs h
        have h3 : e.target_node = v ∧ e.source_node ∉ r := ⟨ht, hr⟩
        simp only [decide_eq_true_eq, if_pos h1, if_neg h2, if_pos h3]
  · have h1 : ¬ (e.target_node = v ∧ e.source_node ∉ r ++ [u]) := fun ⟨h, _⟩ => ht h
    have h2 : ¬ (e.source_node = u ∧ e.target_node = v) := fun ⟨_, h⟩ => ht h
    have h3 : ¬ (e.target_node = v ∧ e.source_node ∉ r) := fun ⟨h, _⟩ => ht h
    simp only [decide_eq_true_eq, if_neg h1, if_neg h2, if_neg h3]

theorem remDeg_le_of_append (edges : List Edge) (r : List Str) (u v : Str) (hu : u ∉ r) :
    remDeg edges (r ++ [u]) v ≤ remDeg edges r v := by
  have := remDeg_append_single edges r u v hu
  omega

/-- Characterization of the inner neighbor-processing loop: final in-degrees
drop by the edge multiplicity, and the nodes appended to the queue are exactly
those whose counter crossed zero during the traversal. -/
theorem processNeighbors_spec (ns : List Str) (deg : Str → Int) (queue : List Str) :
    (∀ v, (processNeighbors ns deg queue).1 v = deg v - ns.count v) ∧
    ∃ ext, (processNeighbors ns deg queue).2 = queue ++ ext ∧ ext.Nodup ∧
      (∀ v, v ∈ ext ↔ 1 ≤ deg v ∧ deg v ≤ ns.count v) := by
  induction ns generalizing deg queue with
  | nil =>
    refine ⟨fun v => by simp [processNeighbors], [], by simp [processNeighbors], List.nodup_nil,
      fun v => ?_⟩
    simp only [List.count_nil, List.not_mem_nil, false_iff, not_and, Nat.cast_zero]
    intro h1; omega
  | cons n rest ih =>
    set deg1 : Str → Int := fun x => if x = n then deg n - 1 else deg x with hdeg1
    set queue1 : List Str := if deg n - 1 = 0 then queue ++ [n] else queue with hqueue1
    have hstep : processNeighbors (n :: rest) deg queue = processNeighbors rest deg1 queue1 := by
      simp only [processNeighbors]
    obtain ⟨hdeg, ext1, hq, hnd, hext⟩ := ih deg1 queue1
    constructor
    · intro v
      rw [hstep, hdeg v]
      by_cases hv : v = n
      · have hd1 : deg1 v = deg n - 1 := by rw [hdeg1]; simp [hv]
        have hc : (List.count v (n :: rest) : Int) = (List.count v rest : Int) + 1 := by
          rw [List.count_cons]; simp [hv]
        rw [hd1, hc, hv]
        omega
      · have hd1 : deg1 v = deg v := by rw [hdeg1]; simp [hv]
        have hc : (List.count v (n :: rest) : Int) = (List.count v rest : Int) := by
          rw [List.count_cons]; simp [Ne.symm hv]
        rw [hd1, hc]
    · refine ⟨(if deg n - 1 = 0 then [n] else []) ++ ext1, ?_, ?_, ?_⟩
      · rw [hstep, hq, hqueue1]
        by_cases h0 : deg n - 1 = 0 <;> simp [h0]
      · by_cases h0 : deg n - 1 = 0
        · have hn1 : n ∉ ext1 := by
            rw [hext n]
            simp only [hdeg1, if_pos rfl, h0]
            omega
          simp only [if_pos h0, List.singleton_append, List.nodup_cons]
          exact ⟨hn1, hnd⟩
        · simpa [h0] using hnd
      · intro v
        by_cases hv : v = n
        · have hmem : v ∈ (if deg n - 1 = 0 then [n] else []) ++ ext1 ↔
              (deg n - 1 = 0) ∨ v ∈ ext1 := by
            by_cases h0 : deg n - 1 = 0 <;> simp [h0, hv]
          rw [hmem, hext v]
          have hd1 : deg1 v = deg n - 1 := by rw [hdeg1]; simp [hv]
          have hc : (List.count v (n :: rest) : Int) = (List.count v rest : Int) + 1 := by
            rw [List.count_cons]
            simp [hv]
          rw [hd1, hc, hv]
          omega
        · have hmem : v ∈ (if deg n - 1 = 0 then [n] else []) ++ ext1 ↔ v ∈ ext1 := by
            by_cases h0 : deg n - 1 = 0 <;> simp [h0, hv]
          rw [hmem, hext v]
          have hd1 : deg1 v = deg v := by rw [hdeg1]; simp [hv]
          have hc : (List.count v (n :: rest) : Int) = (List.count v rest : Int) := by
            rw [List.count_cons]
            simp [Ne.symm hv]
          rw [hd1, hc]

theorem pyDictKeys_go (l : List Str) :
    ∀ acc : List Str, acc.Nodup →
      (l.foldl (fun acc x => if x ∈ acc then acc else acc ++ [x]) acc).Nodup ∧
      (∀ y, y ∈ l.foldl (fun acc x => if x ∈ acc then acc else acc ++ [x]) acc ↔
        y ∈ acc ∨ y ∈ l) := by
  induction l with
  | nil => intro acc h; simp [h]
  | cons x xs ih =>
    intro acc h
    by_cases hx : x ∈ acc
    · have := ih acc h
      simp only [List.foldl_cons, if_pos hx]
      refine ⟨this.1, fun y => ?_⟩
      rw [this.2 y]
      constructor
      · rintro (hy | hy)
        · exact Or.inl hy
        · exact Or.inr (by simp [hy])
      · rintro (hy | hy)
        · exact Or.inl hy
        · rcases List.mem_cons.mp hy with hy | hy
          · exact Or.inl (hy ▸ hx)
          · exact Or.inr hy
    · have hnd : (acc ++ [x]).Nodup := by
        rw [List.nodup_append]
        exact ⟨h, List.nodup_singleton x, by simpa using hx⟩
      have := ih (acc ++ [x]) hnd
      simp only [List.foldl_cons, if_neg hx]
      refine ⟨this.1, fun y => ?_⟩
      rw [this.2 y]
      simp only [List.mem_append, List.mem_singleton, List.mem_cons]
      tauto

theorem pyDictKeys_nodup (l : List Str) : (pyDictKeys l).Nodup :=
  (pyDictKeys_go l [] List.nodup_nil).1

theorem pyDictKeys_mem (l : List Str) (y : Str) : y ∈ pyDictKeys l ↔ y ∈ l := by
  rw [pyDictKeys, (pyDictKeys_go l [] List.nodup_nil).2 y]
  simp

theorem pyDictKeys_go_of_nodup :
    ∀ (l acc : List Str), l.Nodup → (∀ x ∈ l, x ∉ acc) →
      l.foldl (fun acc x => if x ∈ acc then acc else acc ++ [x]) acc = acc ++ l := by
  intro l
  induction l with
  | nil => intro acc _ _; simp
  | cons x xs ih =>
    intro acc hnd hacc
    rcases List.nodup_cons.mp hnd with ⟨hx, hxs⟩
    simp only [List.foldl_cons, if_neg (hacc x (by simp))]
    rw [ih (acc ++ [x]) hxs ?_]
    · simp
    · intro z hz
      simp only [List.mem_append, List.mem_singleton]
      rintro (hmem | rfl)
      · exact hacc z (by simp [hz]) hmem
      · exact hx hz

theorem pyDictKeys_of_nodup (l : List Str) (h : l.Nodup) : pyDictKeys l = l := by
  simpa using pyDictKeys_go_of_nodup l [] h (by simp)

theorem pyDictKeys_len_go :
    ∀ (l acc : List Str),
      (l.foldl (fun acc x => if x ∈ acc then acc else acc ++ [x]) acc).length ≤
        acc.length + l.length := by
  intro l
  induction l with
  | nil => intro acc; simp
  | cons x xs ih =>
    intro acc
    simp only [List.foldl_cons, List.length_cons]
    by_cases hx : x ∈ acc
    · rw [if_pos hx]
      have := ih acc
      omega
    · rw [if_neg hx]
      have := ih (acc ++ [x])
      rw [List.length_append, List.length_singleton] at this
      omega

theorem pyDictKeys_length_le (l : List Str) : (pyDictKeys l).length ≤ l.length := by
  have := pyDictKeys_len_go l []
  simpa [pyDictKeys] using this

/-- Characterization of the edge-map construction when every endpoint is a
dict key: it succeeds, the adjacency list of `x` collects the targets of
`x`-sourced edges in edge order, and the in-degree of `x` counts the edges
into `x`. -/
theorem addEdges_ok (keys : List Str) :
    ∀ (es : List Edge) (adj0 : Str → List Str) (deg0 : Str → Int),
      (∀ e ∈ es, e.source_node ∈ keys ∧ e.target_node ∈ keys) →
      ∃ adj deg, addEdges keys es adj0 deg0 = .ok (adj, deg) ∧
        (∀ x, adj x = adj0 x ++ (es.filter (fun e => decide (e.source_node = x))).map (·.target_node)) ∧
        (∀ x, deg x = deg0 x + (es.countP (fun e => decide (e.target_node = x)) : Int)) := by
  intro es
  induction es with
  | nil => intro adj0 deg0 _; exact ⟨adj0, deg0, rfl, by simp, by simp⟩
  | cons e es ih =>
    intro adj0 deg0 hval
    obtain ⟨hs, ht⟩ := hval e (by simp)
    obtain ⟨adj, deg, hrun, hadj, hdeg⟩ :=
      ih (fun x => if x = e.source_node then adj0 x ++ [e.target_node] else adj0 x)
        (fun x => if x = e.target_node then deg0 x + 1 else deg0 x)
        (fun e' he' => hval e' (by simp [he']))
    refine ⟨adj, deg, ?_, ?_, ?_⟩
    · rw [addEdges, if_pos hs, if_pos ht]
      exact hrun
    · intro x
      rw [hadj x]
      by_cases hx : x = e.source_node
      · subst hx
        simp [List.filter_cons, List.append_assoc]
      · have hx' : ¬ e.source_node = x := fun h => hx h.symm
        simp [List.filter_cons, hx, hx']
    · intro x
      rw [hdeg x]
      by_cases hx : x = e.target_node
      · subst hx
        simp only [List.countP_cons, decide_eq_true_eq, if_pos rfl]
        push_cast
        ring
      · have hx' : ¬ e.target_node = x := fun h => hx h.symm
        simp only [List.countP_cons, if_neg hx, decide_eq_false hx']
        simp

theorem count_adj (edges : List Edge) (u v : Str) :
    List.count v ((edges.filter (fun e => decide (e.source_node = u))).map (·.target_node)) =
      cntEdges edges u v := by
  rw [List.count_eq_countP, List.countP_map, List.countP_filter, cntEdges]
  apply List.countP_congr
  intro e _
  simp only [Function.comp_apply, Bool.and_eq_true, decide_eq_true_eq, beq_iff_eq]
  constructor
  · rintro ⟨h1, h2⟩; exact ⟨h2, h1⟩
  · rintro ⟨h1, h2⟩; exact ⟨h2, h1⟩

theorem remDeg_pos_exists {edges : List Edge} {r : List Str} {v : Str}
    (h : remDeg edges r v ≠ 0) : ∃ e ∈ edges, e.target_node = v ∧ e.source_node ∉ r := by
  unfold remDeg at h
  obtain ⟨e, he, hp⟩ := List.countP_pos_iff.mp (Nat.pos_of_ne_zero h)
  exact ⟨e, he, by simpa using hp⟩

theorem remDeg_zero_src {edges : List Edge} {r : List Str} {v : Str}
    (h : remDeg edges r v = 0) : ∀ e ∈ edges, e.target_node = v → e.source_node ∈ r := by
  intro e he ht
  have := List.countP_eq_zero.mp h e he
  simp only [decide_eq_true_eq] at this
  by_contra hc
  exact this ⟨ht, hc⟩

/-- One iteration of the `while queue` loop preserves the invariant. -/
theorem kahn_step (edges : List Edge) (keys : List Str) (deg : Str → Int)
    (queue result : List Str) (u : Str) (rest : List Str)
    (inv : KahnInv edges keys deg queue result)
    (hsort : sortQueue queue = u :: rest) :
    KahnInv edges keys
      (processNeighbors ((edges.filter (fun e => decide (e.source_node = u))).map (·.target_node)) deg rest).1
      (processNeighbors ((edges.filter (fun e => decide (e.source_node = u))).map (·.target_node)) deg rest).2
      (result ++ [u]) := by
  set ns := (edges.filter (fun e => decide (e.source_node = u))).map (·.target_node) with hns
  obtain ⟨hdeg', ext, hq', hextnd, hext⟩ := processNeighbors_spec ns deg rest
  have hperm : (u :: rest).Perm queue := hsort ▸ sortQueue_perm queue
  have hqnd : (u :: rest).Nodup := hperm.nodup_iff.mpr inv.queue_nodup
  have hurest : u ∉ rest := (List.nodup_cons.mp hqnd).1
  have hrestnd : rest.Nodup := (List.nodup_cons.mp hqnd).2
  have hqm : ∀ v, v ∈ queue ↔ (v = u ∨ v ∈ rest) := fun v => by
    rw [← hperm.mem_iff]; simp
  have hu := (inv.queue_iff u).mp ((hqm u).mpr (Or.inl rfl))
  obtain ⟨huk, hur, hu0⟩ := hu
  have hcnt : ∀ v, List.count v ns = cntEdges edges u v := fun v => count_adj edges u v
  have hrd : ∀ v, remDeg edges (result ++ [u]) v + cntEdges edges u v = remDeg edges result v :=
    fun v => remDeg_append_single edges result u v hur
  have hsorted := sortQueue_sorted queue
  rw [hsort, List.sorted_cons] at hsorted
  have hule : ∀ b ∈ rest, strLe u b = true := hsorted.1
  have hrest0 : ∀ v ∈ rest, v ∈ keys ∧ v ∉ result ∧ remDeg edges result v = 0 := fun v hv =>
    (inv.queue_iff v).mp ((hqm v).mpr (Or.inr hv))
  have hextiff : ∀ v, v ∈ ext ↔ 1 ≤ remDeg edges result v ∧
      remDeg edges result v ≤ cntEdges edges u v := by
    intro v
    rw [hext v, inv.deg_eq v, hcnt v]
    omega
  have hself : cntEdges edges u u = 0 := by
    by_contra h
    obtain ⟨e, he, hp⟩ := List.countP_pos_iff.mp (Nat.pos_of_ne_zero h)
    simp only [decide_eq_true_eq] at hp
    have := List.countP_eq_zero.mp hu0 e he
    simp only [decide_eq_true_eq] at this
    exact this ⟨hp.2, hp.1 ▸ hur⟩
  have htake_lt : ∀ i : Nat, i ≤ result.length → (result ++ [u]).take i = result.take i := by
    intro i hi
    rw [List.take_append_eq_append_take]
    have : i - result.length = 0 := by omega
    rw [this]
    simp
  refine ⟨inv.keys_nodup, inv.edges_valid, ?_, ?_, ?_, ?_, ?_, ?_, ?_, ?_⟩
  · rw [List.nodup_append]
    refine ⟨inv.result_nodup, List.nodup_singleton u, ?_⟩
    intro a ha hb
    exact hur (by rwa [List.mem_singleton.mp hb] at ha)
  · rw [hq', List.nodup_append]
    refine ⟨hrestnd, hextnd, ?_⟩
    intro a ha hb
    have h1 := (hrest0 a ha).2.2
    have h2 := ((hextiff a).mp hb).1
    omega
  · intro x hx
    rcases List.mem_append.mp hx with hx | hx
    · exact inv.result_sub x hx
    · exact (List.mem_singleton.mp hx) ▸ huk
  · intro v
    rw [hdeg' v, inv.deg_eq v, hcnt v]
    have := hrd v
    omega
  · intro v
    rw [hq', List.mem_append, hextiff v]
    constructor
    · rintro (hv | ⟨h1, h2⟩)
      · obtain ⟨hk, hnr, h0⟩ := hrest0 v hv
        have hvu : v ≠ u := fun h => hurest (h ▸ hv)
        refine ⟨hk, ?_, ?_⟩
        · simp only [List.mem_append, List.mem_singleton]
          rintro (h | h)
          · exact hnr h
          · exact hvu h
        · have := hrd v
          omega
      · obtain ⟨e, he, ht, _⟩ := remDeg_pos_exists (show remDeg edges result v ≠ 0 by omega)
        have hk : v ∈ keys := ht ▸ (inv.edges_valid e he).2
        refine ⟨hk, ?_, ?_⟩
        · simp only [List.mem_append, List.mem_singleton]
          rintro (h | h)
          · have := inv.result_closed v h
            omega
          · subst h
            omega
        · have := hrd v
          omega
    · rintro ⟨hk, hnr', h0'⟩
      have hvu : v ≠ u := fun h => hnr' (by simp [h])
      have hvr : v ∉ result := fun h => hnr' (by simp [h])
      have h := hrd v
      by_cases hc : cntEdges edges u v = 0
      · left
        have h0 : remDeg edges result v = 0 := by omega
        have hq := (inv.queue_iff v).mpr ⟨hk, hvr, h0⟩
        rcases (hqm v).mp hq with h | h
        · exact absurd h hvu
        · exact h
      · right
        constructor <;> omega
  · intro v hv
    rcases List.mem_append.mp hv with hv | hv
    · have h1 := inv.result_closed v hv
      have h2 := remDeg_le_of_append edges result u v hur
      omega
    · rw [List.mem_singleton.mp hv]
      have := hrd u
      omega
  · intro i e he ht
    have hlen : (result ++ [u]).length = result.length + 1 := by simp
    by_cases hlt : i.val < result.length
    · have hget : (result ++ [u]).get i = result.get ⟨i.val, hlt⟩ := by
        simp [List.get_eq_getElem, List.getElem_append_left hlt]
      rw [htake_lt i.val (by omega)]
      exact inv.prec ⟨i.val, hlt⟩ e he (by rw [← hget]; exact ht)
    · have hi : i.val = result.length := by
        have h2 : i.val < result.length + 1 := by simpa using i.isLt
        omega
      have hget : (result ++ [u]).get i = u := by
        simp [List.get_eq_getElem, hi]
      have htk : (result ++ [u]).take i.val = result := by
        rw [hi, List.take_left]
      rw [htk]
      exact remDeg_zero_src hu0 e he (by rw [← hget]; exact ht)
  · intro i v hk hnt h0
    have hlen : (result ++ [u]).length = result.length + 1 := by simp
    by_cases hlt : i.val < result.length
    · have hget : (result ++ [u]).get i = result.get ⟨i.val, hlt⟩ := by
        simp [List.get_eq_getElem, List.getElem_append_left hlt]
      rw [htake_lt i.val (by omega)] at hnt h0
      rw [hget]
      exact inv.greedy ⟨i.val, hlt⟩ v hk hnt h0
    · have hi : i.val = result.length := by
        have h2 : i.val < result.length + 1 := by simpa using i.isLt
        omega
      have hget : (result ++ [u]).get i = u := by
        simp [List.get_eq_getElem, hi]
      have htk : (result ++ [u]).take i.val = result := by
        rw [hi, List.take_left]
      rw [htk] at hnt h0
      rw [hget]
      have hq := (inv.queue_iff v).mpr ⟨hk, hnt, h0⟩
      rcases (hqm v).mp hq with h | h
      · rw [h]
        exact strLe_refl u
      · exact hule v h

theorem kahnLoop_succ (adj : Str → List Str) (fuel : Nat) (deg : Str → Int)
    (queue result : List Str) :
    kahnLoop adj (fuel + 1) deg queue result =
      match sortQueue queue with
      | [] => result
      | u :: rest =>
        kahnLoop adj fuel (processNeighbors (adj u) deg rest).1
          (processNeighbors (adj u) deg rest).2 (result ++ [u]) := rfl

/-- Running the loop with enough fuel from an invariant state appends a tail
after which the algorithm's postcondition `KahnDone` holds. -/
theorem kahnLoop_done (edges : List Edge) (keys : List Str) (adj : Str → List Str)
    (hadj : ∀ x, adj x = (edges.filter (fun e => decide (e.source_node = x))).map (·.target_node)) :
    ∀ (fuel : Nat) (deg : Str → Int) (queue result : List Str),
      KahnInv edges keys deg queue result →
      keys.length ≤ fuel + result.length →
      ∃ tail, kahnLoop adj fuel deg queue result = result ++ tail ∧
        KahnDone edges keys (result ++ tail) := by
  intro fuel
  induction fuel with
  | zero =>
    intro deg queue result inv hlen
    refine ⟨[], by simp [kahnLoop], ?_⟩
    rw [List.append_nil]
    have hsp : result.Subperm keys := (inv.result_nodup).subperm inv.result_sub
    have hperm : result.Perm keys := hsp.perm_of_length_le (by simpa using hlen)
    exact ⟨inv.result_nodup, inv.result_sub, inv.prec, inv.greedy,
      fun v hv hnv => absurd (hperm.mem_iff.mpr hv) hnv⟩
  | succ fuel ih =>
    intro deg queue result inv hlen
    cases hsort : sortQueue queue with
    | nil =>
      have hq : queue = [] := by
        have := sortQueue_perm queue
        rw [hsort] at this
        exact this.symm.eq_nil
      refine ⟨[], ?_, ?_⟩
      · rw [kahnLoop_succ, hsort]
        simp
      · rw [List.append_nil]
        refine ⟨inv.result_nodup, inv.result_sub, inv.prec, inv.greedy, ?_⟩
        intro v hv hnv h0
        have := (inv.queue_iff v).mpr ⟨hv, hnv, h0⟩
        rw [hq] at this
        simp at this
    | cons u rest =>
      have hstep := kahn_step edges keys deg queue result u rest inv hsort
      rw [← hadj u] at hstep
      obtain ⟨tail, hrun, hdone⟩ := ih _ _ _ hstep (by simp; omega)
      refine ⟨u :: tail, ?_, ?_⟩
      · rw [kahnLoop_succ, hsort]
        exact hrun.trans (by simp)
      · have : result ++ u :: tail = (result ++ [u]) ++ tail := by simp
        rw [this]
        exact hdone

/-- The invariant holds at the start of the loop. -/
theorem kahn_init (edges : List Edge) (keys : List Str) (deg : Str → Int)
    (hknd : keys.Nodup)
    (hval : ∀ e ∈ edges, e.source_node ∈ keys ∧ e.target_node ∈ keys)
    (hdeg : ∀ v, deg v = (edges.countP (fun e => decide (e.target_node = v)) : Int)) :
    KahnInv edges keys deg (keys.filter (fun k => decide (deg k = 0))) [] := by
  have hrd : ∀ v, remDeg edges [] v = edges.countP (fun e => decide (e.target_node = v)) :=
    fun v => remDeg_nil edges v
  refine ⟨hknd, hval, List.nodup_nil, hknd.filter _, by simp, ?_, ?_, by simp, ?_, ?_⟩
  · intro v
    rw [hdeg v, hrd v]
  · intro v
    rw [List.mem_filter]
    constructor
    · rintro ⟨hk, h0⟩
      simp only [decide_eq_true_eq] at h0
      refine ⟨hk, by simp, ?_⟩
      rw [hdeg v] at h0
      have := hrd v
      omega
    · rintro ⟨hk, -, h0⟩
      refine ⟨hk, ?_⟩
      simp only [decide_eq_true_eq]
      rw [hdeg v]
      have := hrd v
      omega
  · intro i
    exact absurd i.isLt (by simp)
  · intro i
    exact absurd i.isLt (by simp)

/-- Full characterization of one run of `_get_topological_order` over a graph
whose edges reference only existing nodes. -/
theorem getTopologicalOrder_run (w : Workflow)
    (hval : ∀ e ∈ w.edges, e.source_node ∈ nodeIds w ∧ e.target_node ∈ nodeIds w) :
    ∃ f : List Str, KahnDone w.edges (pyDictKeys (nodeIds w)) f ∧
      (f.length = w.nodes.length → getTopologicalOrder w = .ok f) ∧
      (f.length ≠ w.nodes.length →
        getTopologicalOrder w = .error (.valueError "Cycle detected in workflow graph".toList)) := by
  set keys := pyDictKeys (nodeIds w) with hkeys
  have hknd : keys.Nodup := pyDictKeys_nodup _
  have hvalk : ∀ e ∈ w.edges, e.source_node ∈ keys ∧ e.target_node ∈ keys := by
    intro e he
    obtain ⟨h1, h2⟩ := hval e he
    exact ⟨(pyDictKeys_mem _ _).mpr h1, (pyDictKeys_mem _ _).mpr h2⟩
  obtain ⟨adj, deg, hrun, hadj, hdeg⟩ :=
    addEdges_ok keys w.edges (fun _ => []) (fun _ => 0) hvalk
  have hadj' : ∀ x, adj x =
      (w.edges.filter (fun e => decide (e.source_node = x))).map (·.target_node) := by
    intro x
    rw [hadj x]
    simp
  have hdeg' : ∀ v, deg v = (w.edges.countP (fun e => decide (e.target_node = v)) : Int) := by
    intro v
    rw [hdeg v]
    simp
  have hinit := kahn_init w.edges keys deg hknd hvalk hdeg'
  obtain ⟨tail, hloop, hdone⟩ :=
    kahnLoop_done w.edges keys adj hadj' keys.length deg
      (keys.filter (fun k => decide (deg k = 0))) [] hinit (by simp)
  simp only [List.nil_append] at hloop hdone
  refine ⟨tail, hdone, ?_, ?_⟩
  · intro hl
    rw [getTopologicalOrder, hrun]
    simp only [Except.bind, bind, pure]
    rw [← hkeys]
    have hfilter : keys.filter (fun k => deg k = 0) =
        keys.filter (fun k => decide (deg k = 0)) := rfl
    rw [hfilter, hloop, if_pos hl]
    rfl
  · intro hl
    rw [getTopologicalOrder, hrun]
    simp only [Except.bind, bind, pure]
    rw [← hkeys]
    have hfilter : keys.filter (fun k => deg k = 0) =
        keys.filter (fun k => decide (deg k = 0)) := rfl
    rw [hfilter, hloop, if_neg hl]

theorem idxOf_lt_length {a : Str} : ∀ {l : List Str}, a ∈ l → idxOf a l < l.length := by
  intro l
  induction l with
  | nil => intro h; simp at h
  | cons x xs ih =>
    intro h
    by_cases hx : x = a
    · simp [idxOf, hx]
    · rcases List.mem_cons.mp h with h | h
      · exact absurd h.symm hx
      · simp only [idxOf, if_neg hx, List.length_cons]
        have := ih h
        omega

theorem get_idxOf {a : Str} : ∀ {l : List Str} (h : a ∈ l),
    l.get ⟨idxOf a l, idxOf_lt_length h⟩ = a := by
  intro l
  induction l with
  | nil => intro h; simp at h
  | cons x xs ih =>
    intro h
    by_cases hx : x = a
    · simp [idxOf, hx]
    · rcases List.mem_cons.mp h with h' | h'
      · exact absurd h'.symm hx
      · have hrec := ih h'
        simp only [idxOf, if_neg hx]
        simpa using hrec

theorem idxOf_lt_of_mem_take {a : Str} :
    ∀ {l : List Str} {n : Nat}, a ∈ l.take n → idxOf a l < n := by
  intro l
  induction l with
  | nil => intro n h; simp at h
  | cons x xs ih =>
    intro n h
    cases n with
    | zero => simp at h
    | succ n =>
      rw [List.take_succ_cons] at h
      by_cases hx : x = a
      · simp [idxOf, hx]
      · rcases List.mem_cons.mp h with h' | h'
        · exact absurd h'.symm hx
        · simp only [idxOf, if_neg hx]
          have := ih h'
          omega

theorem idxOf_get_of_nodup : ∀ {l : List Str}, l.Nodup → ∀ i : Fin l.length,
    idxOf (l.get i) l = i.val := by
  intro l
  induction l with
  | nil => intro _ i; exact absurd i.isLt (by simp)
  | cons x xs ih =>
    intro hnd i
    rcases List.nodup_cons.mp hnd with ⟨hx, hxs⟩
    induction i using Fin.cases with
    | zero => simp [idxOf]
    | succ j =>
      have hgj : (x :: xs).get j.succ = xs.get j := by simp
      rw [hgj]
      have hne : x ≠ xs.get j := fun h => hx (h ▸ List.get_mem xs j.val j.isLt)
      simp only [idxOf, if_neg hne]
      rw [ih hxs j]
      simp

theorem nodup_get_not_mem_take {l : List Str} (hnd : l.Nodup) (i : Fin l.length) :
    l.get i ∉ l.take i.val := by
  intro hmem
  have hlt := idxOf_lt_of_mem_take hmem
  rw [idxOf_get_of_nodup hnd i] at hlt
  exact lt_irrefl _ hlt

/-- The precedence property implies the remaining in-degree of the `i`-th
entry relative to the prefix before it is 0. -/
theorem prec_remDeg_take {edges : List Edge} {f : List Str}
    (hprec : ∀ i : Fin f.length, ∀ e ∈ edges, e.target_node = f.get i →
      e.source_node ∈ f.take i) (i : Fin f.length) :
    remDeg edges (f.take i.val) (f.get i) = 0 := by
  apply List.countP_eq_zero.mpr
  intro e he
  simp only [decide_eq_true_eq, not_and, not_not]
  intro ht
  exact hprec i e he ht

theorem KahnDone.idx_lt {edges : List Edge} {keys f : List Str}
    (hd : KahnDone edges keys f) {e : Edge} (he : e ∈ edges)
    (htin : e.target_node ∈ f) :
    e.source_node ∈ f ∧ idxOf e.source_node f < idxOf e.target_node f := by
  have hj : idxOf e.target_node f < f.length := idxOf_lt_length htin
  have hget : f.get ⟨idxOf e.target_node f, hj⟩ = e.target_node := get_idxOf htin
  have hsrc := hd.prec ⟨idxOf e.target_node f, hj⟩ e he hget.symm
  exact ⟨List.take_subset _ _ hsrc, idxOf_lt_of_mem_take hsrc⟩

theorem isPath_mem_keys {edges : List Edge} {keys : List Str}
    (hval : ∀ e ∈ edges, e.source_node ∈ keys ∧ e.target_node ∈ keys) :
    ∀ {p : List Str} {a b : Str}, IsPath edges a b p →
      a ∈ keys ∧ b ∈ keys ∧ ∀ v ∈ p, v ∈ keys := by
  intro p
  induction p with
  | nil =>
    intro a b h
    obtain ⟨e, he, h1, h2⟩ := h
    exact ⟨h1 ▸ (hval e he).1, h2 ▸ (hval e he).2, by simp⟩
  | cons x xs ih =>
    intro a b h
    obtain ⟨⟨e, he, h1, h2⟩, hrest⟩ := h
    obtain ⟨hx, hb, hxs⟩ := ih hrest
    refine ⟨h1 ▸ (hval e he).1, hb, ?_⟩
    intro v hv
    rcases List.mem_cons.mp hv with hv | hv
    · exact hv ▸ hx
    · exact hxs v hv

theorem KahnDone.path_idx_lt {edges : List Edge} {keys f : List Str}
    (hd : KahnDone edges keys f) :
    ∀ {p : List Str} {x y : Str}, IsPath edges x y p → y ∈ f → (∀ v ∈ p, v ∈ f) →
      x ∈ f ∧ idxOf x f < idxOf y f := by
  intro p
  induction p with
  | nil =>
    intro x y h hy _
    obtain ⟨e, he, h1, h2⟩ := h
    have := hd.idx_lt he (h2 ▸ hy)
    exact ⟨h1 ▸ this.1, by rw [← h1, ← h2]; exact this.2⟩
  | cons v vs ih =>
    intro x y h hy hmem
    obtain ⟨⟨e, he, h1, h2⟩, hrest⟩ := h
    obtain ⟨hv, hlt⟩ := ih hrest hy (fun z hz => hmem z (by simp [hz]))
    have := hd.idx_lt he (h2 ▸ hv)
    exact ⟨h1 ▸ this.1, by
      have h3 := this.2
      rw [h1, h2] at h3
      omega⟩

/-- A graph with a directed cycle leaves some cycle vertex out of the final
result list. -/
theorem KahnDone.cycle_missing {edges : List Edge} {keys f : List Str}
    (hd : KahnDone edges keys f) {a : Str} {p : List Str} (hp : IsPath edges a a p) :
    ¬ (a ∈ f ∧ ∀ v ∈ p, v ∈ f) := by
  rintro ⟨ha, hall⟩
  have := hd.path_idx_lt hp ha hall
  exact lt_irrefl _ this.2

/-- On a DAG every key ends up in the final result list. -/
theorem KahnDone.complete {edges : List Edge} {keys f : List Str}
    (hd : KahnDone edges keys f)
    (hval : ∀ e ∈ edges, e.source_node ∈ keys ∧ e.target_node ∈ keys)
    (L : List Str)
    (hLtopo : ∀ e ∈ edges, idxOf e.source_node L < idxOf e.target_node L) :
    ∀ v ∈ keys, v ∈ f := by
  suffices h : ∀ n : Nat, ∀ v ∈ keys, idxOf v L = n → v ∈ f by
    intro v hv
    exact h (idxOf v L) v hv rfl
  intro n
  induction n using Nat.strong_induction_on with
  | _ n ih =>
    intro v hv hidx
    by_contra hnf
    obtain ⟨e, he, ht, hs⟩ := remDeg_pos_exists (hd.exhausted v hv hnf)
    have hsk : e.source_node ∈ keys := (hval e he).1
    have hlt := hLtopo e he
    rw [ht, hidx] at hlt
    exact hs (ih (idxOf e.source_node L) hlt e.source_node hsk rfl)

theorem take_eq_imp_get_eq {edges1 edges2 : List Edge} {keys1 keys2 f1 f2 : List Str}
    (hperm : edges1.Perm edges2) (hkeys : ∀ x, x ∈ keys1 ↔ x ∈ keys2)
    (h1 : KahnDone edges1 keys1 f1) (h2 : KahnDone edges2 keys2 f2)
    {n : Nat} (hn1 : n < f1.length) (hn2 : n < f2.length)
    (htk : f1.take n = f2.take n) :
    f1.get ⟨n, hn1⟩ = f2.get ⟨n, hn2⟩ := by
  have hrd : ∀ r v, remDeg edges1 r v = remDeg edges2 r v := fun r v => hperm.countP_eq _
  set u1 := f1.get ⟨n, hn1⟩ with hu1
  set u2 := f2.get ⟨n, hn2⟩ with hu2
  have m1 : u1 ∈ keys1 := h1.sub u1 (List.get_mem f1 n hn1)
  have m2 : u2 ∈ keys2 := h2.sub u2 (List.get_mem f2 n hn2)
  have nt1 : u1 ∉ f1.take n := nodup_get_not_mem_take h1.nodup ⟨n, hn1⟩
  have nt2 : u2 ∉ f2.take n := nodup_get_not_mem_take h2.nodup ⟨n, hn2⟩
  have r1 : remDeg edges1 (f1.take n) u1 = 0 := prec_remDeg_take h1.prec ⟨n, hn1⟩
  have r2 : remDeg edges2 (f2.take n) u2 = 0 := prec_remDeg_take h2.prec ⟨n, hn2⟩
  have le12 : strLe u1 u2 = true := by
    apply h1.greedy ⟨n, hn1⟩ u2 ((hkeys u2).mpr m2)
    · rw [htk]; exact nt2
    · rw [htk, hrd]; exact r2
  have le21 : strLe u2 u1 = true := by
    apply h2.greedy ⟨n, hn2⟩ u1 ((hkeys u1).mp m1)
    · rw [← htk]; exact nt1
    · rw [← htk, ← hrd]; exact r1
  exact strLe_antisymm le12 le21

/-- The greedy characterization determines the complete result uniquely; in
particular the result is independent of node/edge insertion order. -/
theorem kahnDone_unique {edges1 edges2 : List Edge} {keys1 keys2 f1 f2 : List Str}
    (hperm : edges1.Perm edges2) (hkeys : ∀ x, x ∈ keys1 ↔ x ∈ keys2)
    (hknd1 : keys1.Nodup) (hknd2 : keys2.Nodup)
    (h1 : KahnDone edges1 keys1 f1) (h2 : KahnDone edges2 keys2 f2)
    (hc1 : ∀ v ∈ keys1, v ∈ f1) (hc2 : ∀ v ∈ keys2, v ∈ f2) : f1 = f2 := by
  have hp1 : f1.Perm keys1 := (List.perm_ext_iff_of_nodup h1.nodup hknd1).mpr
    (fun a => ⟨fun h => h1.sub a h, fun h => hc1 a h⟩)
  have hp2 : f2.Perm keys2 := (List.perm_ext_iff_of_nodup h2.nodup hknd2).mpr
    (fun a => ⟨fun h => h2.sub a h, fun h => hc2 a h⟩)
  have hpk : keys1.Perm keys2 := (List.perm_ext_iff_of_nodup hknd1 hknd2).mpr hkeys
  have hlen : f1.length = f2.length := by
    rw [hp1.length_eq, hp2.length_eq, hpk.length_eq]
  have htake : ∀ n, f1.take n = f2.take n := by
    intro n
    induction n with
    | zero => simp
    | succ n ihn =>
      by_cases hn : n < f1.length
      · have hn2 : n < f2.length := by omega
        have hget := take_eq_imp_get_eq hperm hkeys h1 h2 hn hn2 ihn
        rw [← List.take_concat_get f1 n hn, ← List.take_concat_get f2 n hn2, ihn]
        congr 1
      · have h1' : f1.take (n + 1) = f1 := List.take_of_length_le (by omega)
        have h2' : f2.take (n + 1) = f2 := List.take_of_length_le (by omega)
        have h1'' : f1.take n = f1 := List.take_of_length_le (by omega)
        have h2'' : f2.take n = f2 := List.take_of_length_le (by omega)
        rw [h1', h2', ← h1'', ← h2'']
        exact ihn
  have := htake f1.length
  rwa [List.take_length, List.take_of_length_le (by omega)] at this

/-- A run of `_get_topological_order` on a well-formed acyclic graph
succeeds with a complete greedy order. -/
theorem getTopologicalOrder_dag (w : Workflow)
    (hnd : (nodeIds w).Nodup)
    (hval : ∀ e ∈ w.edges, e.source_node ∈ nodeIds w ∧ e.target_node ∈ nodeIds w)
    (hdag : IsDag w) :
    ∃ f, getTopologicalOrder w = .ok f ∧ KahnDone w.edges (nodeIds w) f ∧
      f.Perm (nodeIds w) := by
  obtain ⟨f, hdone, hok, _⟩ := getTopologicalOrder_run w hval
  rw [pyDictKeys_of_nodup _ hnd] at hdone
  obtain ⟨L, hLnd, hLmem, hLtopo⟩ := hdag
  have hcomp : ∀ v ∈ nodeIds w, v ∈ f := hdone.complete hval L hLtopo
  have hperm : f.Perm (nodeIds w) := (List.perm_ext_iff_of_nodup hdone.nodup hnd).mpr
    (fun a => ⟨fun h => hdone.sub a h, fun h => hcomp a h⟩)
  have hlen : f.length = w.nodes.length := by
    rw [hperm.length_eq, nodeIds, List.length_map]
  exact ⟨f, hok hlen, hdone, hperm⟩

theorem countP_eq_one_of_nodup :
    ∀ {l : List Str}, l.Nodup → ∀ {v : Str}, v ∈ l →
      l.countP (fun x => decide (x = v)) = 1 := by
  intro l
  induction l with
  | nil => intro _ v hv; simp at hv
  | cons x xs ih =>
    intro hnd v hv
    rcases List.nodup_cons.mp hnd with ⟨hx, hxs⟩
    rcases List.mem_cons.mp hv with hv' | hv'
    · rw [List.countP_cons]
      have h0 : xs.countP (fun x => decide (x = v)) = 0 := by
        apply List.countP_eq_zero.mpr
        intro a ha
        simp only [decide_eq_true_eq]
        intro hav
        rw [hav, hv'] at ha
        exact hx ha
      rw [h0]
      simp [hv']
    · rw [List.countP_cons, ih hxs hv']
      have : ¬ (x = v) := fun h => hx (h ▸ hv')
      simp [this]

/-- C1: on a well-formed acyclic graph, `_get_topological_order` is pure and
deterministic, returns each node id exactly once, respects every edge, picks
the lexicographically smallest zero-in-degree id at every step, and is
invariant under permuting the node and edge lists. -/
theorem C1_topological_order (w w' : Workflow)
    (hnd : (nodeIds w).Nodup)
    (hval : ∀ e ∈ w.edges, e.source_node ∈ nodeIds w ∧ e.target_node ∈ nodeIds w)
    (hdag : IsDag w)
    (hn : w'.nodes.Perm w.nodes) (he : w'.edges.Perm w.edges) :
    ∃ l : List Str,
      getTopologicalOrder w = .ok l ∧
      getTopologicalOrder w = getTopologicalOrder w ∧
      l.Perm (nodeIds w) ∧ (∀ v ∈ nodeIds w, l.countP (fun x => decide (x = v)) = 1) ∧
      (∀ e ∈ w.edges, idxOf e.source_node l < idxOf e.target_node l) ∧
      (∀ i : Fin l.length,
        (l.get i ∈ nodeIds w ∧ l.get i ∉ l.take i.val ∧
          remDeg w.edges (l.take i.val) (l.get i) = 0) ∧
        ∀ v ∈ nodeIds w, v ∉ l.take i.val → remDeg w.edges (l.take i.val) v = 0 →
          strLe (l.get i) v = true) ∧
      getTopologicalOrder w' = getTopologicalOrder w := by
  obtain ⟨f, hok, hdone, hperm⟩ := getTopologicalOrder_dag w hnd hval hdag
  have hids' : (nodeIds w').Perm (nodeIds w) := by
    simpa [nodeIds] using hn.map (fun n : Node => n.id)
  have hnd' : (nodeIds w').Nodup := hids'.nodup_iff.mpr hnd
  have hval' : ∀ e ∈ w'.edges,
      e.source_node ∈ nodeIds w' ∧ e.target_node ∈ nodeIds w' := by
    intro e hme
    obtain ⟨h1, h2⟩ := hval e (he.mem_iff.mp hme)
    exact ⟨hids'.mem_iff.mpr h1, hids'.mem_iff.mpr h2⟩
  have hdag' : IsDag w' := by
    obtain ⟨L, hLnd, hLmem, hLtopo⟩ := hdag
    exact ⟨L, hLnd, fun x => (hLmem x).trans hids'.mem_iff.symm,
      fun e hme => hLtopo e (he.mem_iff.mp hme)⟩
  obtain ⟨f', hok', hdone', hperm'⟩ := getTopologicalOrder_dag w' hnd' hval' hdag'
  have heq : f' = f := by
    apply kahnDone_unique he (fun x => hids'.mem_iff) hnd' hnd hdone' hdone
    · intro v hv
      exact hperm'.mem_iff.mpr hv
    · intro v hv
      exact hperm.mem_iff.mpr hv
  refine ⟨f, hok, rfl, hperm, ?_, ?_, ?_, by rw [hok', heq, hok]⟩
  · intro v hv
    rw [hperm.countP_eq]
    exact countP_eq_one_of_nodup hnd hv
  · intro e hme
    have htin : e.target_node ∈ f := hperm.mem_iff.mpr (hval e hme).2
    exact (hdone.idx_lt hme htin).2
  · intro i
    refine ⟨⟨?_, ?_, ?_⟩, ?_⟩
    · exact hdone.sub _ (List.get_mem f i.val i.isLt)
    · exact nodup_get_not_mem_take hdone.nodup i
    · exact prec_remDeg_take hdone.prec i
    · intro v hv hnt h0
      exact hdone.greedy i v hv hnt h0

/-- On a well-formed graph containing a directed cycle the ordering raises
the cycle `ValueError`. -/
theorem getTopologicalOrder_cyclic (w : Workflow)
    (hval : ∀ e ∈ w.edges, e.source_node ∈ nodeIds w ∧ e.target_node ∈ nodeIds w)
    (hcyc : HasCycle w) :
    getTopologicalOrder w = .error (.valueError "Cycle detected in workflow graph".toList) := by
  obtain ⟨f, hdone, _, herr⟩ := getTopologicalOrder_run w hval
  set keys := pyDictKeys (nodeIds w) with hkeys
  have hvalk : ∀ e ∈ w.edges, e.source_node ∈ keys ∧ e.target_node ∈ keys := by
    intro e hme
    obtain ⟨h1, h2⟩ := hval e hme
    exact ⟨(pyDictKeys_mem _ _).mpr h1, (pyDictKeys_mem _ _).mpr h2⟩
  obtain ⟨a, p, hp⟩ := hcyc
  obtain ⟨hak, -, hpk⟩ := isPath_mem_keys hvalk hp
  have hmiss : ∃ m, m ∈ keys ∧ m ∉ f := by
    by_cases ha : a ∈ f
    · rcases not_forall.mp (fun hall => hdone.cycle_missing hp ⟨ha, hall⟩) with ⟨v, hv⟩
      rcases not_forall.mp hv with ⟨hvp, hvf⟩
      exact ⟨v, hpk v hvp, hvf⟩
    · exact ⟨a, hak, ha⟩
  obtain ⟨m, hmk, hmf⟩ := hmiss
  have hlt : f.length < keys.length := by
    have hsp : f.Subperm keys := hdone.nodup.subperm hdone.sub
    have hle : f.length ≤ keys.length := hsp.length_le
    rcases lt_or_eq_of_le hle with h | h
    · exact h
    · exfalso
      have hperm : f.Perm keys := hsp.perm_of_length_le (by omega)
      exact hmf (hperm.mem_iff.mpr hmk)
  have hne : f.length ≠ w.nodes.length := by
    have h1 : keys.length ≤ (nodeIds w).length := pyDictKeys_length_le _
    have h2 : (nodeIds w).length = w.nodes.length := by
      rw [nodeIds, List.length_map]
    omega
  exact herr hne

/-- C2: a well-formed graph containing a directed cycle makes
`_get_topological_order` raise the cycle `ValueError` (the ordered count
falls short of the node count), and `_build_outputs_map` leaves the scope
map empty. -/
theorem C2_cycle_no_scopes (sk : Skill)
    (hval : ∀ e ∈ sk.workflow.edges,
      e.source_node ∈ nodeIds sk.workflow ∧ e.target_node ∈ nodeIds sk.workflow)
    (hcyc : HasCycle sk.workflow) :
    getTopologicalOrder sk.workflow =
      .error (.valueError "Cycle detected in workflow graph".toList) ∧
    buildOutputsMap sk = [] := by
  have herr := getTopologicalOrder_cyclic sk.workflow hval hcyc
  refine ⟨herr, ?_⟩
  rw [buildOutputsMap, herr]

theorem C1_witness :
    (nodeIds wfChain).Nodup ∧
    (∀ e ∈ wfChain.edges, e.source_node ∈ nodeIds wfChain ∧ e.target_node ∈ nodeIds wfChain) ∧
    IsDag wfChain ∧
    ∃ l : List Str,
      getTopologicalOrder wfChain = .ok l ∧
      getTopologicalOrder wfChain = getTopologicalOrder wfChain ∧
      l.Perm (nodeIds wfChain) ∧
      (∀ v ∈ nodeIds wfChain, l.countP (fun x => decide (x = v)) = 1) ∧
      (∀ e ∈ wfChain.edges, idxOf e.source_node l < idxOf e.target_node l) ∧
      (∀ i : Fin l.length,
        (l.get i ∈ nodeIds wfChain ∧ l.get i ∉ l.take i.val ∧
          remDeg wfChain.edges (l.take i.val) (l.get i) = 0) ∧
        ∀ v ∈ nodeIds wfChain, v ∉ l.take i.val → remDeg wfChain.edges (l.take i.val) v = 0 →
          strLe (l.get i) v = true) ∧
      getTopologicalOrder wfChain = getTopologicalOrder wfChain :=
  ⟨by decide, by decide,
    ⟨nodeIds wfChain, by decide, fun x => Iff.rfl, by decide⟩,
    C1_topological_order wfChain wfChain (by decide) (by decide)
      ⟨nodeIds wfChain, by decide, fun x => Iff.rfl, by decide⟩
      (List.Perm.refl _) (List.Perm.refl _)⟩

theorem C2_witness :
    (∀ e ∈ skCyclic.workflow.edges,
      e.source_node ∈ nodeIds skCyclic.workflow ∧ e.target_node ∈ nodeIds skCyclic.workflow) ∧
    HasCycle skCyclic.workflow ∧
    (getTopologicalOrder skCyclic.workflow =
        .error (.valueError "Cycle detected in workflow graph".toList) ∧
      buildOutputsMap skCyclic = []) :=
  ⟨by decide,
    ⟨"a".toList, ["b".toList],
      ⟨⟨⟨"a".toList, "b".toList⟩, by decide, rfl, rfl⟩,
        ⟨⟨"b".toList, "a".toList⟩, by decide, rfl, rfl⟩⟩⟩,
    C2_cycle_no_scopes skCyclic (by decide)
      ⟨"a".toList, ["b".toList],
        ⟨⟨⟨"a".toList, "b".toList⟩, by decide, rfl, rfl⟩,
          ⟨⟨"b".toList, "a".toList⟩, by decide, rfl, rfl⟩⟩⟩⟩

theorem splitOnChar_ne_nil (c : Char) : ∀ s : Str, splitOnChar c s ≠ [] := by
  intro s
  cases s with
  | nil => simp [splitOnChar]
  | cons x xs =>
    rw [splitOnChar]
    by_cases hx : x = c
    · simp [hx]
    · rw [if_neg hx]
      cases h : splitOnChar c xs <;> simp

theorem joinUnderscore_splitOnChar : ∀ s : Str, joinUnderscore (splitOnChar '_' s) = s := by
  intro s
  induction s with
  | nil => rfl
  | cons x xs ih =>
    rw [splitOnChar]
    by_cases hx : x = '_'
    · rw [if_pos hx]
      cases h : splitOnChar '_' xs with
      | nil => exact absurd h (splitOnChar_ne_nil '_' xs)
      | cons y ys =>
        rw [h] at ih
        simp only [joinUnderscore, List.nil_append]
        rw [ih, hx]
    · rw [if_neg hx]
      cases h : splitOnChar '_' xs with
      | nil => exact absurd h (splitOnChar_ne_nil '_' xs)
      | cons y ys =>
        rw [h] at ih
        cases ys with
        | nil =>
          simp only [joinUnderscore] at ih ⊢
          rw [ih]
        | cons z zs =>
          simp only [joinUnderscore] at ih ⊢
          rw [← ih]
          simp

/-- C5: `_infer_output_name` substitutes via the fixed verb table on the
first underscore-delimited token and rejoins the remaining tokens unchanged;
it returns the id itself for single-token ids and for unrecognized verbs. -/
theorem C5_infer_output_name (s : Str) :
    (∀ verb rest, splitOnChar '_' s = verb :: rest →
      (rest = [] → inferOutputName s = s) ∧
      (rest ≠ [] → transforms verb = Option.none → inferOutputName s = s) ∧
      (∀ v, rest ≠ [] → transforms verb = some v →
        inferOutputName s = v ++ '_' :: joinUnderscore rest) ∧
      joinUnderscore (verb :: rest) = s) ∧
    inferOutputName "enrich_results".toList = "enriched_results".toList ∧
    inferOutputName "summarize_findings".toList = "summarized_findings".toList := by
  refine ⟨?_, by decide, by decide⟩
  intro verb rest hsplit
  refine ⟨?_, ?_, ?_, ?_⟩
  · intro h0
    simp [inferOutputName, hsplit, h0]
  · intro h0 htr
    have hlen : rest.length ≥ 1 := by
      cases rest with
      | nil => exact absurd rfl h0
      | cons a l => simp
    simp [inferOutputName, hsplit, htr, hlen]
  · intro v h0 htr
    have hlen : rest.length ≥ 1 := by
      cases rest with
      | nil => exact absurd rfl h0
      | cons a l => simp
    simp [inferOutputName, hsplit, htr, hlen]
  · have := joinUnderscore_splitOnChar s
    rw [hsplit] at this
    exact this

theorem C5_witness :
    splitOnChar '_' "process_data_items".toList =
      "process".toList :: ["data".toList, "items".toList] ∧
    transforms "process".toList = some "processed".toList ∧
    inferOutputName "process_data_items".toList =
      "processed".toList ++ '_' :: joinUnderscore ["data".toList, "items".toList] ∧
    inferOutputName "single".toList = "single".toList :=
  ⟨by decide, by decide,
    ((C5_infer_output_name "process_data_items".toList).1 "process".toList
        ["data".toList, "items".toList] (by decide)).2.2.1
      "processed".toList (by decide) (by decide),
    ((C5_infer_output_name "single".toList).1 "single".toList [] (by decide)).1 rfl⟩

theorem outputsLoop_acc (nodes : List Node) :
    ∀ (rem : List Str) (avail : List Str) (acc : List (Str × List Str)),
      outputsLoop nodes rem avail acc = acc ++ scopeList nodes rem avail := by
  intro rem
  induction rem with
  | nil => intro avail acc; simp [outputsLoop, scopeList]
  | cons nid rest ih =>
    intro avail acc
    rw [outputsLoop, scopeList, ih]
    simp

theorem scopeList_length (nodes : List Node) :
    ∀ (rem avail : List Str), (scopeList nodes rem avail).length = rem.length := by
  intro rem
  induction rem with
  | nil => intro avail; rfl
  | cons nid rest ih => intro avail; simp [scopeList, ih]

theorem mem_setAdd (s : List Str) (x y : Str) : y ∈ setAdd s x ↔ y ∈ s ∨ y = x := by
  unfold setAdd
  by_cases hx : x ∈ s
  · rw [if_pos hx]
    constructor
    · exact Or.inl
    · rintro (h | h)
      · exact h
      · exact h ▸ hx
  · rw [if_neg hx]
    simp

theorem mem_setAddMany : ∀ (xs s : List Str) (y : Str),
    y ∈ setAddMany s xs ↔ y ∈ s ∨ y ∈ xs := by
  intro xs
  induction xs with
  | nil => intro s y; simp [setAddMany]
  | cons x rest ih =>
    intro s y
    rw [setAddMany, List.foldl_cons]
    have := ih (setAdd s x) y
    rw [setAddMany] at this
    rw [this, mem_setAdd]
    simp only [List.mem_cons]
    tauto

theorem scopeList_get (nodes : List Node) :
    ∀ (rem : List Str) (avail : List Str) (i : Nat) (hi : i < rem.length),
      ((scopeList nodes rem avail).get ⟨i, by rw [scopeList_length]; exact hi⟩).1 =
        rem.get ⟨i, hi⟩ ∧
      ∀ x, x ∈ ((scopeList nodes rem avail).get ⟨i, by rw [scopeList_length]; exact hi⟩).2 ↔
        (x ∈ avail ∨ ∃ j : Fin rem.length, j.val < i ∧
          x ∈ outputNames (getNode nodes (rem.get j))) := by
  intro rem
  induction rem with
  | nil => intro avail i hi; simp at hi
  | cons nid rest ih =>
    intro avail i hi
    cases i with
    | zero =>
      refine ⟨rfl, fun x => ?_⟩
      simp only [scopeList, List.get]
      constructor
      · exact Or.inl
      · rintro (h | ⟨j, hj, _⟩)
        · exact h
        · omega
    | succ i =>
      have hi' : i < rest.length := by simpa using hi
      obtain ⟨h1, h2⟩ := ih (setAddMany avail (outputNames (getNode nodes nid))) i hi'
      refine ⟨?_, fun x => ?_⟩
      · simpa [scopeList] using h1
      · have hmem : x ∈ ((scopeList nodes (nid :: rest) avail).get
            ⟨i + 1, by rw [scopeList_length]; exact hi⟩).2 ↔
            x ∈ ((scopeList nodes rest (setAddMany avail (outputNames (getNode nodes nid)))).get
              ⟨i, by rw [scopeList_length]; exact hi'⟩).2 := by
          simp [scopeList]
        rw [hmem, h2 x, mem_setAddMany]
        constructor
        · rintro ((h | h) | ⟨j, hj, hx⟩)
          · exact Or.inl h
          · exact Or.inr ⟨⟨0, by simp⟩, by show 0 < i + 1; omega, h⟩
          · refine Or.inr ⟨⟨j.val + 1, by simp⟩,
              by show j.val + 1 < i + 1; omega, ?_⟩
            simpa using hx
        · rintro (h | ⟨j, hj, hx⟩)
          · exact Or.inl (Or.inl h)
          · cases hj' : j.val with
            | zero =>
              refine Or.inl (Or.inr ?_)
              have : (nid :: rest).get j = nid := by
                have : j = (⟨0, by simp⟩ : Fin (nid :: rest).length) := Fin.ext hj'
                rw [this]
                rfl
              rwa [this] at hx
            | succ jv =>
              have hjv : jv < rest.length := by
                have := j.isLt
                simp at this
                omega
              refine Or.inr ⟨⟨jv, hjv⟩, by show jv < i; omega, ?_⟩
              have : (nid :: rest).get j = rest.get ⟨jv, hjv⟩ := by
                have hj2 : j = (⟨jv + 1, by simpa using hjv⟩ : Fin (nid :: rest).length) :=
                  Fin.ext hj'
                rw [hj2]
                rfl
              rwa [this] at hx

/-- C4: the scope recorded for the `i`-th node of the order is exactly the
declared parameter names plus the output names of the nodes strictly earlier
in the order, and scopes grow monotonically along the order. -/
theorem C4_scope_map (sk : Skill) (order : List Str)
    (h : getTopologicalOrder sk.workflow = .ok order) :
    (buildOutputsMap sk).length = order.length ∧
    (∀ i : Fin order.length,
      ∀ hm : i.val < (buildOutputsMap sk).length,
        ((buildOutputsMap sk).get ⟨i.val, hm⟩).1 = order.get i ∧
        ∀ x, x ∈ ((buildOutputsMap sk).get ⟨i.val, hm⟩).2 ↔
          (x ∈ sk.parameters.map (·.name) ∨
            ∃ j : Fin order.length, j.val < i.val ∧
              x ∈ outputNames (getNode sk.workflow.nodes (order.get j)))) ∧
    (∀ i j : Fin (buildOutputsMap sk).length, i.val ≤ j.val →
      ∀ x ∈ ((buildOutputsMap sk).get i).2, x ∈ ((buildOutputsMap sk).get j).2) := by
  have hbo : buildOutputsMap sk =
      scopeList sk.workflow.nodes order
        (setAddMany [] (sk.parameters.map (·.name))) := by
    rw [buildOutputsMap, h]
    show outputsLoop sk.workflow.nodes order
      (setAddMany [] (sk.parameters.map (·.name))) [] = _
    rw [outputsLoop_acc]
    simp
  rw [hbo]
  refine ⟨scopeList_length _ _ _, ?_, ?_⟩
  · intro i hm
    obtain ⟨h1, h2⟩ := scopeList_get sk.workflow.nodes order
      (setAddMany [] (sk.parameters.map (·.name))) i.val i.isLt
    refine ⟨h1, fun x => ?_⟩
    have h3 : x ∈ setAddMany [] (sk.parameters.map (·.name)) ↔
        x ∈ sk.parameters.map (·.name) := by
      rw [mem_setAddMany]
      simp
    exact (h2 x).trans (or_congr h3 Iff.rfl)
  · intro i j hij x hx
    have hsl := scopeList_length sk.workflow.nodes order
      (setAddMany [] (sk.parameters.map (·.name)))
    have hilt := i.isLt
    have hjlt := j.isLt
    have hi : i.val < order.length := by omega
    have hj : j.val < order.length := by omega
    have h1 := (scopeList_get sk.workflow.nodes order
      (setAddMany [] (sk.parameters.map (·.name))) i.val hi).2 x
    have h2 := (scopeList_get sk.workflow.nodes order
      (setAddMany [] (sk.parameters.map (·.name))) j.val hj).2 x
    rcases h1.mp hx with hmem | ⟨k, hk, hxo⟩
    · exact h2.mpr (Or.inl hmem)
    · exact h2.mpr (Or.inr ⟨k, by omega, hxo⟩)

theorem C4_witness :
    getTopologicalOrder skScope.workflow = .ok chainOrder ∧
    ((buildOutputsMap skScope).length = chainOrder.length ∧
    (∀ i : Fin chainOrder.length,
      ∀ hm : i.val < (buildOutputsMap skScope).length,
        ((buildOutputsMap skScope).get ⟨i.val, hm⟩).1 = chainOrder.get i ∧
        ∀ x, x ∈ ((buildOutputsMap skScope).get ⟨i.val, hm⟩).2 ↔
          (x ∈ skScope.parameters.map (·.name) ∨
            ∃ j : Fin chainOrder.length, j.val < i.val ∧
              x ∈ outputNames (getNode skScope.workflow.nodes (chainOrder.get j)))) ∧
    (∀ i j : Fin (buildOutputsMap skScope).length, i.val ≤ j.val →
      ∀ x ∈ ((buildOutputsMap skScope).get i).2, x ∈ ((buildOutputsMap skScope).get j).2)) :=
  ⟨rfl, C4_scope_map skScope chainOrder rfl⟩

/-- C3: contrary to the never-raises contract, a dangling edge endpoint makes
`validate` raise: `_get_topological_order` subscripts
`adj_list[edge.source_node]` with the nonexistent id and the resulting
`KeyError` is caught nowhere (`validate` only catches `ValueError`). -/
theorem C3_validate_raises_keyerror :
    validate skDangling = .error (.keyError "ghost".toList) ∧
    getTopologicalOrder skDangling.workflow = .error (.keyError "ghost".toList) :=
  ⟨rfl, rfl⟩

theorem addEdges_valid (keys : List Str) :
    ∀ (es : List Edge) (adj0 : Str → List Str) (deg0 : Str → Int)
      (out : (Str → List Str) × (Str → Int)),
      addEdges keys es adj0 deg0 = .ok out →
      ∀ e ∈ es, e.source_node ∈ keys ∧ e.target_node ∈ keys := by
  intro es
  induction es with
  | nil => intro _ _ _ _ e he; simp at he
  | cons e es ih =>
    intro adj0 deg0 out hrun e' he'
    rw [addEdges] at hrun
    by_cases hs : e.source_node ∈ keys
    · rw [if_pos hs] at hrun
      by_cases ht : e.target_node ∈ keys
      · rw [if_pos ht] at hrun
        rcases List.mem_cons.mp he' with h | h
        · exact h ▸ ⟨hs, ht⟩
        · exact ih _ _ _ hrun e' h
      · rw [if_neg ht] at hrun
        exact absurd hrun (by simp)
    · rw [if_neg hs] at hrun
      exact absurd hrun (by simp)

theorem getTopologicalOrder_ok_facts (w : Workflow) (l : List Str)
    (h : getTopologicalOrder w = .ok l) :
    l.Nodup ∧
    (∀ e ∈ w.edges, e.source_node ∈ nodeIds w ∧ e.target_node ∈ nodeIds w) := by
  have hval : ∀ e ∈ w.edges, e.source_node ∈ nodeIds w ∧ e.target_node ∈ nodeIds w := by
    cases haddE : addEdges (pyDictKeys (nodeIds w)) w.edges (fun _ => []) (fun _ => 0) with
    | error err =>
      exfalso
      rw [getTopologicalOrder] at h
      simp only [haddE, Except.bind] at h
      exact absurd h (by simp [Bind.bind, Except.bind, haddE])
    | ok out =>
      intro e he
      have := addEdges_valid (pyDictKeys (nodeIds w)) w.edges _ _ out haddE e he
      exact ⟨(pyDictKeys_mem _ _).mp this.1, (pyDictKeys_mem _ _).mp this.2⟩
  obtain ⟨f, hdone, hok, herr⟩ := getTopologicalOrder_run w hval
  by_cases hlen : f.length = w.nodes.length
  · have := hok hlen
    rw [this] at h
    have hfl : f = l := by injection h
    exact ⟨hfl ▸ hdone.nodup, hval⟩
  · have := herr hlen
    rw [this] at h
    exact absurd h (by simp)

/-- `validate`'s result when the topological sort succeeds: no cycle entry,
the variable errors from `varErrs`, and the config errors, preceded by
duplicate-id and dangling-edge entries of the stated shapes. -/
theorem validate_ok_form (sk : Skill) (order : List Str)
    (hord : getTopologicalOrder sk.workflow = .ok order) :
    ∃ e1 e2 : List VErr,
      validate sk = .ok
        ((e1 ++ e2 ++ varErrs sk.workflow.nodes (buildOutputsMap sk) order ++
            validateNodeConfigs sk.workflow.nodes).isEmpty,
          e1 ++ e2 ++ varErrs sk.workflow.nodes (buildOutputsMap sk) order ++
            validateNodeConfigs sk.workflow.nodes) ∧
      (∀ er ∈ e1, ∃ d, er = VErr.duplicateIds d) ∧
      (∀ er ∈ e2, (∃ s, er = VErr.danglingSource s) ∨ (∃ s, er = VErr.danglingTarget s)) := by
  refine ⟨if (List.filter (fun nid => decide ((nodeIds sk.workflow).countP
        (fun x => decide (x = nid)) > 1)) (nodeIds sk.workflow)).isEmpty then []
      else [VErr.duplicateIds (pyDictKeys (List.filter
        (fun nid => decide ((nodeIds sk.workflow).countP (fun x => decide (x = nid)) > 1))
        (nodeIds sk.workflow)))],
    sk.workflow.edges.flatMap (fun e =>
      (if e.source_node ∈ nodeIds sk.workflow then [] else [VErr.danglingSource e.source_node]) ++
      (if e.target_node ∈ nodeIds sk.workflow then [] else [VErr.danglingTarget e.target_node])),
    ?_, ?_, ?_⟩
  · rw [validate]
    simp only [hord, validateVariableReferences, bind, Except.bind, pure, Except.pure]
    simp
  · intro er her
    by_cases hie : (List.filter (fun nid => decide ((nodeIds sk.workflow).countP
        (fun x => decide (x = nid)) > 1)) (nodeIds sk.workflow)).isEmpty
    · rw [if_pos hie] at her
      simp at her
    · rw [if_neg hie] at her
      rcases List.mem_singleton.mp her with h
      exact ⟨_, h⟩
  · intro er her
    obtain ⟨e, -, hmem⟩ := List.mem_flatMap.mp her
    rcases List.mem_append.mp hmem with h | h
    · by_cases hs : e.source_node ∈ nodeIds sk.workflow
      · rw [if_pos hs] at h
        simp at h
      · rw [if_neg hs] at h
        exact Or.inl ⟨_, List.mem_singleton.mp h⟩
    · by_cases ht : e.target_node ∈ nodeIds sk.workflow
      · rw [if_pos ht] at h
        simp at h
      · rw [if_neg ht] at h
        exact Or.inr ⟨_, List.mem_singleton.mp h⟩

/-- `validate`'s result on a graph whose ordering raises the cycle error. -/
theorem validate_cyclic_form (sk : Skill)
    (herr : getTopologicalOrder sk.workflow =
      .error (.valueError "Cycle detected in workflow graph".toList)) :
    ∃ e1 e2 : List VErr,
      validate sk = .ok
        ((e1 ++ e2 ++ [VErr.cyclicWorkflow "Cycle detected in workflow graph".toList] ++
            [VErr.cannotValidateVars "Cycle detected in workflow graph".toList] ++
            validateNodeConfigs sk.workflow.nodes).isEmpty,
          e1 ++ e2 ++ [VErr.cyclicWorkflow "Cycle detected in workflow graph".toList] ++
            [VErr.cannotValidateVars "Cycle detected in workflow graph".toList] ++
            validateNodeConfigs sk.workflow.nodes) ∧
      (∀ er ∈ e1, ∃ d, er = VErr.duplicateIds d) ∧
      (∀ er ∈ e2, (∃ s, er = VErr.danglingSource s) ∨ (∃ s, er = VErr.danglingTarget s)) := by
  refine ⟨if (List.filter (fun nid => decide ((nodeIds sk.workflow).countP
        (fun x => decide (x = nid)) > 1)) (nodeIds sk.workflow)).isEmpty then []
      else [VErr.duplicateIds (pyDictKeys (List.filter
        (fun nid => decide ((nodeIds sk.workflow).countP (fun x => decide (x = nid)) > 1))
        (nodeIds sk.workflow)))],
    sk.workflow.edges.flatMap (fun e =>
      (if e.source_node ∈ nodeIds sk.workflow then [] else [VErr.danglingSource e.source_node]) ++
      (if e.target_node ∈ nodeIds sk.workflow then [] else [VErr.danglingTarget e.target_node])),
    ?_, ?_, ?_⟩
  · rw [validate]
    simp only [herr, validateVariableReferences, bind, Except.bind, pure, Except.pure]
  · intro er her
    by_cases hie : (List.filter (fun nid => decide ((nodeIds sk.workflow).countP
        (fun x => decide (x = nid)) > 1)) (nodeIds sk.workflow)).isEmpty
    · rw [if_pos hie] at her
      simp at her
    · rw [if_neg hie] at her
      rcases List.mem_singleton.mp her with h
      exact ⟨_, h⟩
  · intro er her
    obtain ⟨e, -, hmem⟩ := List.mem_flatMap.mp her
    rcases List.mem_append.mp hmem with h | h
    · by_cases hs : e.source_node ∈ nodeIds sk.workflow
      · rw [if_pos hs] at h
        simp at h
      · rw [if_neg hs] at h
        exact Or.inl ⟨_, List.mem_singleton.mp h⟩
    · by_cases ht : e.target_node ∈ nodeIds sk.workflow
      · rw [if_pos ht] at h
        simp at h
      · rw [if_neg ht] at h
        exact Or.inr ⟨_, List.mem_singleton.mp h⟩

theorem validateNodeConfigs_shape (nodes : List Node) :
    ∀ er ∈ validateNodeConfigs nodes,
      (∃ n, er = VErr.missingFunctionName n) ∨ (∃ n, er = VErr.missingPromptTemplate n) ∨
      (∃ n, er = VErr.missingComponentType n) := by
  intro er her
  obtain ⟨n, -, hmem⟩ := List.mem_flatMap.mp her
  by_cases h1 : n.type = "function_call".toList
  · rw [if_pos h1] at hmem
    by_cases h2 : truthyOptStr n.config.function_name
    · rw [if_pos h2] at hmem; simp at hmem
    · rw [if_neg h2] at hmem
      exact Or.inl ⟨_, List.mem_singleton.mp hmem⟩
  · rw [if_neg h1] at hmem
    by_cases h2 : n.type = "llm_call".toList
    · rw [if_pos h2] at hmem
      by_cases h3 : truthyOptStr n.config.prompt_template
      · rw [if_pos h3] at hmem; simp at hmem
      · rw [if_neg h3] at hmem
        exact Or.inr (Or.inl ⟨_, List.mem_singleton.mp hmem⟩)
    · rw [if_neg h2] at hmem
      by_cases h3 : n.type = "visualizer".toList
      · rw [if_pos h3] at hmem
        by_cases h4 : truthyOptStr n.config.component_type
        · rw [if_pos h4] at hmem; simp at hmem
        · rw [if_neg h4] at hmem
          exact Or.inr (Or.inr ⟨_, List.mem_singleton.mp hmem⟩)
      · rw [if_neg h3] at hmem
        simp at hmem

/-- C7 counterexample: on this cyclic graph the report contains the cycle
entry AND the per-kind required-field (config) errors, so step 5 is not
short-circuited by a cycle. -/
theorem C7_counterexample :
    validate skC7cex = .ok (false,
      [VErr.cyclicWorkflow "Cycle detected in workflow graph".toList,
       VErr.cannotValidateVars "Cycle detected in workflow graph".toList,
       VErr.missingFunctionName "a".toList,
       VErr.missingFunctionName "b".toList]) ∧
    VErr.missingFunctionName "a".toList ∈
      [VErr.cyclicWorkflow "Cycle detected in workflow graph".toList,
       VErr.cannotValidateVars "Cycle detected in workflow graph".toList,
       VErr.missingFunctionName "a".toList,
       VErr.missingFunctionName "b".toList] :=
  ⟨rfl, by simp⟩

/-- C7 (amended): on a well-formed cyclic graph `validate` records the cycle
error and short-circuits the per-variable scope check (a single
cannot-validate entry appears instead, and no `undefinedVariable` error can
appear), but the per-kind required-field checks of step 5 still run and all
their errors appear in the report. -/
theorem C7_cycle_report (sk : Skill)
    (hval : ∀ e ∈ sk.workflow.edges,
      e.source_node ∈ nodeIds sk.workflow ∧ e.target_node ∈ nodeIds sk.workflow)
    (hcyc : HasCycle sk.workflow) :
    ∃ b errs, validate sk = .ok (b, errs) ∧
      VErr.cyclicWorkflow "Cycle detected in workflow graph".toList ∈ errs ∧
      VErr.cannotValidateVars "Cycle detected in workflow graph".toList ∈ errs ∧
      (∀ n v av, VErr.undefinedVariable n v av ∉ errs) ∧
      (∀ c ∈ validateNodeConfigs sk.workflow.nodes, c ∈ errs) := by
  have herr := getTopologicalOrder_cyclic sk.workflow hval hcyc
  obtain ⟨e1, e2, hform, h1, h2⟩ := validate_cyclic_form sk herr
  refine ⟨_, _, hform, by simp, by simp, ?_, by intro c hc; simp [hc]⟩
  intro n v av hmem
  simp only [List.append_assoc, List.mem_append, List.mem_singleton] at hmem
  rcases hmem with hm | hm | hm | hm | hm
  · obtain ⟨d, hd⟩ := h1 _ hm
    exact absurd hd (by simp)
  · rcases h2 _ hm with ⟨s, hs⟩ | ⟨s, hs⟩ <;> exact absurd hs (by simp)
  · exact absurd hm (by simp)
  · exact absurd hm (by simp)
  · rcases validateNodeConfigs_shape sk.workflow.nodes _ hm with ⟨n', h⟩ | ⟨n', h⟩ | ⟨n', h⟩ <;>
      exact absurd h (by simp)

theorem C7_witness :
    (∀ e ∈ skC7cex.workflow.edges,
      e.source_node ∈ nodeIds skC7cex.workflow ∧ e.target_node ∈ nodeIds skC7cex.workflow) ∧
    HasCycle skC7cex.workflow ∧
    ∃ b errs, validate skC7cex = .ok (b, errs) ∧
      VErr.cyclicWorkflow "Cycle detected in workflow graph".toList ∈ errs ∧
      VErr.cannotValidateVars "Cycle detected in workflow graph".toList ∈ errs ∧
      (∀ n v av, VErr.undefinedVariable n v av ∉ errs) ∧
      (∀ c ∈ validateNodeConfigs skC7cex.workflow.nodes, c ∈ errs) :=
  ⟨by decide,
    ⟨"a".toList, ["b".toList],
      ⟨⟨⟨"a".toList, "b".toList⟩, by decide, rfl, rfl⟩,
        ⟨⟨"b".toList, "a".toList⟩, by decide, rfl, rfl⟩⟩⟩,
    C7_cycle_report skC7cex (by decide)
      ⟨"a".toList, ["b".toList],
        ⟨⟨⟨"a".toList, "b".toList⟩, by decide, rfl, rfl⟩,
          ⟨⟨"b".toList, "a".toList⟩, by decide, rfl, rfl⟩⟩⟩⟩

theorem countP_flatMap_sum {α β : Type} (p : β → Bool) (f : α → List β) :
    ∀ l : List α, (l.flatMap f).countP p = (l.map (fun a => (f a).countP p)).sum := by
  intro l
  induction l with
  | nil => simp
  | cons a l ih => simp [List.flatMap_cons, List.countP_append, ih]

theorem sum_map_single {α : Type} [DecidableEq α] (g : α → Nat) :
    ∀ (l : List α), l.Nodup → ∀ a ∈ l, (∀ x ∈ l, x ≠ a → g x = 0) →
      (l.map g).sum = g a := by
  intro l
  induction l with
  | nil => intro _ a ha; simp at ha
  | cons x xs ih =>
    intro hnd a ha h0
    rcases List.nodup_cons.mp hnd with ⟨hx, hxs⟩
    rcases List.mem_cons.mp ha with ha' | ha'
    · subst ha'
      have hz : ∀ y ∈ xs, g y = 0 := fun y hy =>
        h0 y (by simp [hy]) (fun h => hx (h ▸ hy))
      have : (xs.map g).sum = 0 := by
        rw [List.sum_eq_zero]
        intro n hn
        obtain ⟨y, hy, hgy⟩ := List.mem_map.mp hn
        rw [← hgy]
        exact hz y hy
      simp [this]
    · have hxa : x ≠ a := fun h => hx (h ▸ ha')
      have := ih hxs a ha' (fun y hy => h0 y (by simp [hy]))
      simp [this, h0 x (by simp) hxa]

/-- Membership characterization of the variable-error list. -/
theorem varErrs_mem (nodes : List Node) (om : List (Str × List Str)) (order : List Str)
    (er : VErr) :
    er ∈ varErrs nodes om order ↔
      ∃ nid ∈ order, ∃ v,
        v ∈ extractVariables (getNode nodes nid) ∧ v ∉ lookupScope om nid ∧
        er = VErr.undefinedVariable nid v (sortStrs (lookupScope om nid)) := by
  unfold varErrs
  rw [List.mem_flatMap]
  constructor
  · rintro ⟨nid, hnid, hmem⟩
    obtain ⟨v, hv, hev⟩ := List.mem_map.mp hmem
    obtain ⟨hvx, hvs⟩ := List.mem_filter.mp hv
    refine ⟨nid, hnid, v, hvx, by simpa using hvs, hev.symm⟩
  · rintro ⟨nid, hnid, v, hvx, hvs, hev⟩
    refine ⟨nid, hnid, List.mem_map.mpr ⟨v, List.mem_filter.mpr ⟨hvx, by simpa using hvs⟩,
      hev.symm⟩⟩

/-- C6: on an acyclic graph, each `{{name}}` token extracted from a node's
config that is missing from the node's scope yields exactly one
`undefinedVariable` entry in `validate`'s report — naming the node, the
variable, and the sorted list of actually available names — while tokens in
scope yield none. -/
theorem C6_variable_scope_errors (sk : Skill) (order : List Str) (b : Bool) (errs : List VErr)
    (hord : getTopologicalOrder sk.workflow = .ok order)
    (hrun : validate sk = .ok (b, errs)) :
    ∀ nid ∈ order, ∀ v,
      (errs.countP (fun er => decide (er = VErr.undefinedVariable nid v
          (sortStrs (lookupScope (buildOutputsMap sk) nid)))) =
        if v ∈ extractVariables (getNode sk.workflow.nodes nid) ∧
            v ∉ lookupScope (buildOutputsMap sk) nid then 1 else 0) ∧
      (v ∈ lookupScope (buildOutputsMap sk) nid →
        ∀ av, VErr.undefinedVariable nid v av ∉ errs) ∧
      (∀ av, VErr.undefinedVariable nid v av ∈ errs →
        av = sortStrs (lookupScope (buildOutputsMap sk) nid) ∧
        List.Sorted (fun a b => strLe a b = true) av ∧
        (∀ x, x ∈ av ↔ x ∈ lookupScope (buildOutputsMap sk) nid)) := by
  obtain ⟨hnd, -⟩ := getTopologicalOrder_ok_facts sk.workflow order hord
  obtain ⟨e1, e2, hform, h1, h2⟩ := validate_ok_form sk order hord
  rw [hrun] at hform
  have herrs : errs = e1 ++ e2 ++ varErrs sk.workflow.nodes (buildOutputsMap sk) order ++
      validateNodeConfigs sk.workflow.nodes := by
    simp only [Except.ok.injEq, Prod.mk.injEq] at hform
    exact hform.2
  intro nid hnid v
  set om := buildOutputsMap sk with hom
  set scope := lookupScope om nid with hscope
  set target := VErr.undefinedVariable nid v (sortStrs scope) with htarget
  have hmem_er : ∀ av, VErr.undefinedVariable nid v av ∈ errs →
      av = sortStrs scope ∧ v ∈ extractVariables (getNode sk.workflow.nodes nid) ∧
      v ∉ scope := by
    intro av hmem
    rw [herrs] at hmem
    simp only [List.append_assoc, List.mem_append] at hmem
    rcases hmem with hm | hm | hm | hm
    · obtain ⟨d, hd⟩ := h1 _ hm
      exact absurd hd (by simp)
    · rcases h2 _ hm with ⟨s, hs⟩ | ⟨s, hs⟩ <;> exact absurd hs (by simp)
    · obtain ⟨nid', hnid', v', hvx', hvs', hev'⟩ := (varErrs_mem _ _ _ _).mp hm
      have := hev'
      simp only [VErr.undefinedVariable.injEq] at this
      obtain ⟨hn, hv, hav⟩ := this
      subst hn
      subst hv
      exact ⟨hav, hvx', hvs'⟩
    · rcases validateNodeConfigs_shape sk.workflow.nodes _ hm with
        ⟨n', h⟩ | ⟨n', h⟩ | ⟨n', h⟩ <;> exact absurd h (by simp)
  refine ⟨?_, ?_, ?_⟩
  · rw [herrs]
    simp only [List.countP_append]
    have c1 : e1.countP (fun er => decide (er = target)) = 0 := by
      apply List.countP_eq_zero.mpr
      intro er her
      obtain ⟨d, hd⟩ := h1 _ her
      simp [hd, htarget]
    have c2 : e2.countP (fun er => decide (er = target)) = 0 := by
      apply List.countP_eq_zero.mpr
      intro er her
      rcases h2 _ her with ⟨s2, hs⟩ | ⟨s2, hs⟩ <;> simp [hs, htarget]
    have c5 : (validateNodeConfigs sk.workflow.nodes).countP
        (fun er => decide (er = target)) = 0 := by
      apply List.countP_eq_zero.mpr
      intro er her
      rcases validateNodeConfigs_shape sk.workflow.nodes _ her with
        ⟨n', h⟩ | ⟨n', h⟩ | ⟨n', h⟩ <;> simp [h, htarget]
    have c4 : (varErrs sk.workflow.nodes om order).countP
        (fun er => decide (er = target)) =
        if v ∈ extractVariables (getNode sk.workflow.nodes nid) ∧ v ∉ scope
        then 1 else 0 := by
      unfold varErrs
      rw [countP_flatMap_sum]
      have hsingle := sum_map_single
        (fun nid' => (((extractVariables (getNode sk.workflow.nodes nid')).filter
            (fun v' => decide (v' ∉ lookupScope om nid'))).map
          (fun v' => VErr.undefinedVariable nid' v'
            (sortStrs (lookupScope om nid')))).countP (fun er => decide (er = target)))
        order hnd nid hnid ?_
      · rw [hsingle]
        simp only []
        rw [List.countP_map]
        have hpt : ∀ v' ∈ (extractVariables (getNode sk.workflow.nodes nid)).filter
            (fun v' => decide (v' ∉ lookupScope om nid)),
            (((fun er => decide (er = target)) ∘
              (fun v' => VErr.undefinedVariable nid v'
                (sortStrs (lookupScope om nid)))) v' = true ↔
              decide (v' = v) = true) := by
          intro v' _
          simp [htarget, hscope]
        rw [List.countP_congr hpt]
        by_cases hc : v ∈ extractVariables (getNode sk.workflow.nodes nid) ∧ v ∉ scope
        · rw [if_pos hc]
          apply countP_eq_one_of_nodup
          · exact ((pyDictKeys_nodup _).filter _)
          · exact List.mem_filter.mpr ⟨hc.1, by simpa [hscope] using hc.2⟩
        · rw [if_neg hc]
          apply List.countP_eq_zero.mpr
          intro v' hv'
          obtain ⟨hvx', hvs'⟩ := List.mem_filter.mp hv'
          simp only [decide_eq_true_eq]
          intro hvv
          subst hvv
          exact hc ⟨hvx', by simpa [hscope] using hvs'⟩
      · intro nid' _ hne
        apply List.countP_eq_zero.mpr
        intro er her
        obtain ⟨v', hv', hev'⟩ := List.mem_map.mp her
        simp only [decide_eq_true_eq]
        intro he
        rw [← hev'] at he
        simp only [htarget, VErr.undefinedVariable.injEq] at he
        exact hne he.1
    rw [c1, c2, c4, c5]
    omega
  · intro hv av hmem
    exact absurd hv (hmem_er av hmem).2.2
  · intro av hmem
    obtain ⟨hav, -, -⟩ := hmem_er av hmem
    refine ⟨hav, ?_, ?_⟩
    · rw [hav]
      exact sortQueue_sorted scope
    · intro x
      rw [hav]
      exact (sortQueue_perm scope).mem_iff

theorem skVar_validate : validate skVar = .ok (false, [uerr]) := by
  have hext2 : extractVariables (getNode skVar.workflow.nodes "use_data".toList) =
      ["undefined_var".toList] := by
    simp [extractVariables, getNode, searchObj, configDump, skVar, nodeWithVar,
      optStrVal, optDictVal, pyDictKeys]
    decide
  have hext1 : extractVariables (getNode skVar.workflow.nodes "fetch_data".toList) = [] := by
    simp [extractVariables, getNode, searchObj, configDump, skVar, nodeWithVar, mkNode,
      fcConfig, optStrVal, optDictVal, pyDictKeys]
    decide
  have htopo : getTopologicalOrder skVar.workflow =
      .ok ["fetch_data".toList, "use_data".toList] := rfl
  have hvarErrs : varErrs skVar.workflow.nodes (buildOutputsMap skVar)
      ["fetch_data".toList, "use_data".toList] = [uerr] := by
    simp only [varErrs, List.flatMap_cons, List.flatMap_nil]
    rw [hext1, hext2]
    rfl
  have hvv : validateVariableReferences skVar (buildOutputsMap skVar) = .ok [uerr] := by
    rw [validateVariableReferences, htopo]
    show Except.ok (varErrs skVar.workflow.nodes (buildOutputsMap skVar)
      ["fetch_data".toList, "use_data".toList]) = _
    rw [hvarErrs]
  rw [validate]
  simp only [htopo, hvv, bind, Except.bind, pure, Except.pure]
  rfl

theorem C6_witness :
    getTopologicalOrder skVar.workflow = .ok ["fetch_data".toList, "use_data".toList] ∧
    validate skVar = .ok (false, [uerr]) ∧
    ∀ nid ∈ ["fetch_data".toList, "use_data".toList], ∀ v,
      ([uerr].countP (fun er => decide (er = VErr.undefinedVariable nid v
          (sortStrs (lookupScope (buildOutputsMap skVar) nid)))) =
        if v ∈ extractVariables (getNode skVar.workflow.nodes nid) ∧
            v ∉ lookupScope (buildOutputsMap skVar) nid then 1 else 0) ∧
      (v ∈ lookupScope (buildOutputsMap skVar) nid →
        ∀ av, VErr.undefinedVariable nid v av ∉ [uerr]) ∧
      (∀ av, VErr.undefinedVariable nid v av ∈ [uerr] →
        av = sortStrs (lookupScope (buildOutputsMap skVar) nid) ∧
        List.Sorted (fun a b => strLe a b = true) av ∧
        (∀ x, x ∈ av ↔ x ∈ lookupScope (buildOutputsMap skVar) nid)) :=
  ⟨rfl, skVar_validate,
    C6_variable_scope_errors skVar ["fetch_data".toList, "use_data".toList] false [uerr]
      rfl skVar_validate⟩

/-! ### Lemmas about the scanners -/

theorem noBrace_of_ne (c1 c2 : Char) (cs : Str) (h : ¬(c1 = '{' ∧ c2 = '{')) :
    ∀ (rest : Str), c1 = '{' → c2 :: cs = '{' :: rest → False := by
  intro rest h1 h2
  exact h ⟨h1, (List.cons.injEq .. ▸ h2).1⟩

theorem noBrace_single (c : Char) :
    ∀ (rest : Str), c = '{' → ([] : Str) = '{' :: rest → False := by
  intro rest _ h2
  exact List.noConfusion h2

theorem noBrace_of_ne1 (c1 c2 : Char) (cs : Str) (h : ¬(c1 = '{' ∧ c2 = '{')) :
    ∀ (rest : Str), c1 :: c2 :: cs = '{' :: '{' :: rest → False := by
  intro rest h2
  rw [List.cons.injEq, List.cons.injEq] at h2
  exact h ⟨h2.1, h2.2.1⟩

theorem findTokensGo_cons_ne (fuel : Nat) (c1 c2 : Char) (cs : Str)
    (h : ¬(c1 = '{' ∧ c2 = '{')) :
    findTokensGo (fuel + 1) (c1 :: c2 :: cs) = findTokensGo fuel (c2 :: cs) :=
  findTokensGo.eq_3 fuel c1 (c2 :: cs) (noBrace_of_ne c1 c2 cs h)

theorem findTokensGo_single (fuel : Nat) (c : Char) :
    findTokensGo (fuel + 1) [c] = findTokensGo fuel [] :=
  findTokensGo.eq_3 fuel c [] (noBrace_single c)

theorem resolveSubStrGo_cons_ne (state : PyState) (fuel : Nat) (c1 c2 : Char) (cs : Str)
    (h : ¬(c1 = '{' ∧ c2 = '{')) :
    resolveSubStrGo state (fuel + 1) (c1 :: c2 :: cs) =
      (resolveSubStrGo state fuel (c2 :: cs)).map (fun t => c1 :: t) :=
  resolveSubStrGo.eq_3 state fuel c1 (c2 :: cs) (noBrace_of_ne c1 c2 cs h)

theorem resolveSubStrGo_single (state : PyState) (fuel : Nat) (c : Char) :
    resolveSubStrGo state (fuel + 1) [c] =
      (resolveSubStrGo state fuel []).map (fun t => c :: t) :=
  resolveSubStrGo.eq_3 state fuel c [] (noBrace_single c)

theorem resolveTemplateGo_cons_ne (state : PyState) (fuel : Nat) (c1 c2 : Char) (cs : Str)
    (h : ¬(c1 = '{' ∧ c2 = '{')) :
    resolveTemplateGo state (fuel + 1) (c1 :: c2 :: cs) =
      (resolveTemplateGo state fuel (c2 :: cs)).map (fun t => c1 :: t) :=
  resolveTemplateGo.eq_3 state fuel c1 (c2 :: cs) (noBrace_of_ne c1 c2 cs h)

theorem resolveTemplateGo_single (state : PyState) (fuel : Nat) (c : Char) :
    resolveTemplateGo state (fuel + 1) [c] =
      (resolveTemplateGo state fuel []).map (fun t => c :: t) :=
  resolveTemplateGo.eq_3 state fuel c [] (noBrace_single c)

theorem findTokensGo_nil (fuel : Nat) : findTokensGo fuel [] = [] := by
  cases fuel <;> rfl

theorem resolveSubStrGo_nil (state : PyState) (fuel : Nat) :
    resolveSubStrGo state fuel [] = .ok [] := by
  cases fuel <;> rfl

theorem resolveTemplateGo_nil (state : PyState) (fuel : Nat) :
    resolveTemplateGo state fuel [] = .ok [] := by
  cases fuel <;> rfl

theorem findTokensGo_brace_close (fuel : Nat) (rest r : Str)
    (hdw : rest.dropWhile isWordChar = '}' :: '}' :: r) :
    findTokensGo (fuel + 1) ('{' :: '{' :: rest) =
      if rest.takeWhile isWordChar = [] then findTokensGo fuel ('{' :: rest)
      else rest.takeWhile isWordChar :: findTokensGo fuel r := by
  rw [findTokensGo.eq_2, hdw]
  rfl

theorem findTokensGo_brace_noclose (fuel : Nat) (rest : Str)
    (h : ∀ r, rest.dropWhile isWordChar ≠ '}' :: '}' :: r) :
    findTokensGo (fuel + 1) ('{' :: '{' :: rest) = findTokensGo fuel ('{' :: rest) := by
  rw [findTokensGo.eq_2]
  split
  · rename_i r heq
    exact absurd heq (h r)
  · rfl

theorem resolveSubStrGo_brace_close (state : PyState) (fuel : Nat) (rest r : Str)
    (hdw : rest.dropWhile isWordChar = '}' :: '}' :: r) :
    resolveSubStrGo state (fuel + 1) ('{' :: '{' :: rest) =
      if rest.takeWhile isWordChar = [] then
        (resolveSubStrGo state fuel ('{' :: rest)).map (fun t => '{' :: t)
      else
        match pyGet state (rest.takeWhile isWordChar) with
        | .none => .error (.unbound (rest.takeWhile isWordChar) (state.map (·.1)))
        | v => (resolveSubStrGo state fuel r).map (fun t => pyStr v ++ t) := by
  rw [resolveSubStrGo.eq_2, hdw]
  rfl

theorem resolveSubStrGo_brace_noclose (state : PyState) (fuel : Nat) (rest : Str)
    (h : ∀ r, rest.dropWhile isWordChar ≠ '}' :: '}' :: r) :
    resolveSubStrGo state (fuel + 1) ('{' :: '{' :: rest) =
      (resolveSubStrGo state fuel ('{' :: rest)).map (fun t => '{' :: t) := by
  rw [resolveSubStrGo.eq_2]
  split
  · rename_i r heq
    exact absurd heq (h r)
  · rfl

theorem resolveTemplateGo_brace_close (state : PyState) (fuel : Nat) (rest r : Str)
    (hdw : rest.dropWhile isWordChar = '}' :: '}' :: r) :
    resolveTemplateGo state (fuel + 1) ('{' :: '{' :: rest) =
      if rest.takeWhile isWordChar = [] then
        (resolveTemplateGo state fuel ('{' :: rest)).map (fun t => '{' :: t)
      else
        match pyGet state (rest.takeWhile isWordChar) with
        | .none => .error (.unbound (rest.takeWhile isWordChar) (state.map (·.1)))
        | v => (resolveTemplateGo state fuel r).map (fun t => safeStr v ++ t) := by
  rw [resolveTemplateGo.eq_2, hdw]
  rfl

theorem resolveTemplateGo_brace_noclose (state : PyState) (fuel : Nat) (rest : Str)
    (h : ∀ r, rest.dropWhile isWordChar ≠ '}' :: '}' :: r) :
    resolveTemplateGo state (fuel + 1) ('{' :: '{' :: rest) =
      (resolveTemplateGo state fuel ('{' :: rest)).map (fun t => '{' :: t) := by
  rw [resolveTemplateGo.eq_2]
  split
  · rename_i r heq
    exact absurd heq (h r)
  · rfl

/-- Where `re.findall` finds no token, the `re.sub` of
`_resolve_param_variable` rewrites nothing. -/
theorem noTok_subGo_id (state : PyState) :
    ∀ (fuel : Nat) (s : Str), s.length ≤ fuel → findTokensGo fuel s = [] →
      resolveSubStrGo state fuel s = .ok s := by
  intro fuel
  induction fuel with
  | zero =>
    intro s hlen _
    rw [List.length_eq_zero.mp (Nat.le_zero.mp hlen)]
    rfl
  | succ fuel ih =>
    intro s hlen hft
    match s with
    | [] => rfl
    | [c] =>
      rw [resolveSubStrGo_single, resolveSubStrGo_nil]
      rfl
    | c1 :: c2 :: rest =>
      by_cases h12 : c1 = '{' ∧ c2 = '{'
      · obtain ⟨rfl, rfl⟩ := h12
        have hlt : ('{' :: rest).length ≤ fuel := by
          simp only [List.length_cons] at hlen ⊢
          omega
        by_cases hcl : ∃ r, rest.dropWhile isWordChar = '}' :: '}' :: r
        · obtain ⟨r, hdw⟩ := hcl
          rw [findTokensGo_brace_close fuel rest r hdw] at hft
          rw [resolveSubStrGo_brace_close state fuel rest r hdw]
          by_cases htw : rest.takeWhile isWordChar = []
          · rw [if_pos htw] at hft
            rw [if_pos htw, ih _ hlt hft]
            rfl
          · rw [if_neg htw] at hft
            exact absurd hft (List.cons_ne_nil _ _)
        · push_neg at hcl
          rw [findTokensGo_brace_noclose fuel rest hcl] at hft
          rw [resolveSubStrGo_brace_noclose state fuel rest hcl, ih _ hlt hft]
          rfl
      · rw [resolveSubStrGo_cons_ne state fuel c1 c2 rest h12]
        rw [findTokensGo_cons_ne fuel c1 c2 rest h12] at hft
        rw [ih (c2 :: rest) (by simp only [List.length_cons] at hlen ⊢; omega) hft]
        rfl

/-- `re.sub` leaves a token-free string unchanged. -/
theorem noTok_sub_id (state : PyState) (s : Str) (h : findTokens s = []) :
    resolveSubStr state s = .ok s :=
  noTok_subGo_id state s.length s le_rfl h

/-! ### Whole-token and element-resolution lemmas -/

theorem word_append_braces (w : Str) (hw : ∀ c ∈ w, isWordChar c = true) :
    (w ++ ['}', '}']).takeWhile isWordChar = w ∧
      (w ++ ['}', '}']).dropWhile isWordChar = ['}', '}'] := by
  induction w with
  | nil => exact ⟨rfl, rfl⟩
  | cons c cs ih =>
    have hc : isWordChar c = true := hw c (List.mem_cons_self c cs)
    have := ih (fun x hx => hw x (List.mem_cons_of_mem c hx))
    simp only [List.cons_append, List.takeWhile_cons, List.dropWhile_cons, hc, if_true]
    exact ⟨by rw [this.1], by rw [this.2]⟩

theorem wholeToken_tokStr (w : Str) (hne : w ≠ []) (hw : ∀ c ∈ w, isWordChar c = true) :
    wholeToken (tokStr w) = some w := by
  have h := word_append_braces w hw
  rw [tokStr, wholeToken.eq_1, h.1, h.2]
  rw [if_neg hne, if_pos rfl]

theorem wholeToken_some_shape (s w : Str) (hw : wholeToken s = some w) :
    ∃ rest, s = '{' :: '{' :: rest ∧ rest.takeWhile isWordChar = w ∧
      rest.takeWhile isWordChar ≠ [] ∧ rest.dropWhile isWordChar = ['}', '}'] := by
  match s with
  | [] => exact absurd hw (by simp [wholeToken])
  | [c] => exact absurd hw (by simp [wholeToken])
  | c1 :: c2 :: rest =>
    by_cases h12 : c1 = '{' ∧ c2 = '{'
    · obtain ⟨rfl, rfl⟩ := h12
      rw [wholeToken.eq_1] at hw
      by_cases htw : rest.takeWhile isWordChar = []
      · rw [if_pos htw] at hw
        exact absurd hw (by simp)
      · rw [if_neg htw] at hw
        by_cases hdw : rest.dropWhile isWordChar = ['}', '}']
        · rw [if_pos hdw] at hw
          exact ⟨rest, rfl, Option.some.inj hw, htw, hdw⟩
        · rw [if_neg hdw] at hw
          exact absurd hw (by simp)
    · rw [wholeToken.eq_2 _ (noBrace_of_ne1 c1 c2 rest h12)] at hw
      exact absurd hw (by simp)

theorem hasDoubleBrace_of_wholeToken (s w : Str) (hw : wholeToken s = some w) :
    hasDoubleBrace s = true := by
  obtain ⟨rest, rfl, -, -, -⟩ := wholeToken_some_shape s w hw
  simp [hasDoubleBrace]

theorem wholeToken_none_of_noTok (s : Str) (h : findTokens s = []) :
    wholeToken s = Option.none := by
  cases hwt : wholeToken s with
  | none => rfl
  | some w =>
    obtain ⟨rest, rfl, -, htw, hdw⟩ := wholeToken_some_shape s w hwt
    rw [findTokens, List.length_cons, List.length_cons,
      findTokensGo_brace_close (rest.length + 1) rest [] hdw, if_neg htw] at h
    exact absurd h (List.cons_ne_nil _ _)

theorem resolveParamVariable_whole (s w : Str) (state : PyState)
    (hw : wholeToken s = some w) :
    resolveParamVariable s state =
      match stateGet state w with
      | Option.none => .error (.unbound w (state.map (·.1)))
      | some v => .ok v := by
  rw [resolveParamVariable, hw]

theorem resolveParamVariable_bound (s w : Str) (state : PyState) (v : PyVal)
    (hw : wholeToken s = some w) (hv : stateGet state w = some v) :
    resolveParamVariable s state = .ok v := by
  rw [resolveParamVariable_whole s w state hw, hv]

theorem resolveParamVariable_unbound (s w : Str) (state : PyState)
    (hw : wholeToken s = some w) (hv : stateGet state w = Option.none) :
    resolveParamVariable s state = .error (.unbound w (state.map (·.1))) := by
  rw [resolveParamVariable_whole s w state hw, hv]

theorem resolveParamVariable_noTok (s : Str) (state : PyState)
    (h : findTokens s = []) :
    resolveParamVariable s state = .ok (.str s) := by
  rw [resolveParamVariable, wholeToken_none_of_noTok s h,
    resolveSubStr, noTok_subGo_id state s.length s le_rfl h]
  rfl

theorem resolveElems_cons_bound (state : PyState) (s w : Str) (v : PyVal)
    (tail : List PyVal) (hw : wholeToken s = some w) (hv : stateGet state w = some v) :
    resolveElems state (.str s :: tail) =
      (resolveElems state tail).map (fun rt => v :: rt) := by
  have hdb := hasDoubleBrace_of_wholeToken s w hw
  have hr := resolveParamVariable_bound s w state v hw hv
  simp only [resolveElems, hdb, if_true, hr, bind, Except.bind, pure, Except.pure]
  cases resolveElems state tail <;> rfl

theorem resolveElems_cons_nonstr (state : PyState) (x : PyVal) (tail : List PyVal)
    (hx : ∀ s, x ≠ .str s) :
    resolveElems state (x :: tail) =
      (resolveElems state tail).map (fun rt => x :: rt) := by
  cases x with
  | str s => exact absurd rfl (hx s)
  | none =>
    simp only [resolveElems, bind, Except.bind, pure, Except.pure]
    cases resolveElems state tail <;> rfl
  | bool b =>
    simp only [resolveElems, bind, Except.bind, pure, Except.pure]
    cases resolveElems state tail <;> rfl
  | int n =>
    simp only [resolveElems, bind, Except.bind, pure, Except.pure]
    cases resolveElems state tail <;> rfl
  | list xs =>
    simp only [resolveElems, bind, Except.bind, pure, Except.pure]
    cases resolveElems state tail <;> rfl
  | dict kvs =>
    simp only [resolveElems, bind, Except.bind, pure, Except.pure]
    cases resolveElems state tail <;> rfl

theorem resolveElems_cons_noTok (state : PyState) (s : Str) (tail : List PyVal)
    (h : findTokens s = []) :
    resolveElems state (.str s :: tail) =
      (resolveElems state tail).map (fun rt => .str s :: rt) := by
  by_cases hdb : hasDoubleBrace s = true
  · have hr := resolveParamVariable_noTok s state h
    simp only [resolveElems, hdb, if_true, hr, bind, Except.bind, pure, Except.pure]
    cases resolveElems state tail <;> rfl
  · simp only [resolveElems, hdb, if_false, Bool.false_eq_true, bind, Except.bind,
      pure, Except.pure]
    cases resolveElems state tail <;> rfl

theorem resolveParams_cons_list (state : PyState) (key : Str) (xs : List PyVal)
    (rest : List (Str × PyVal)) :
    resolveParams ((key, .list xs) :: rest) state =
      Except.bind (resolveElems state xs)
        (fun rxs => (resolveParams rest state).map (fun rr => (key, .list rxs) :: rr)) := by
  simp only [resolveParams, bind, Except.bind, pure, Except.pure]
  cases hm : resolveElems state xs with
  | error e => rfl
  | ok l =>
    cases hr : resolveParams rest state with
    | error e => rfl
    | ok rr => rfl

/-- C8: in structured-mode resolution, a parameter that is exactly one
`\x7b\x7bname\x7d\x7d` token with `name` bound in state resolves to the stored value
itself, shape preserved; it fails with an unbound-variable error naming the
variable and the currently bound names exactly when `name` has no value in
state; for a sequence parameter the comprehension resolves each whole-token
element independently and passes non-token elements (non-strings, and
strings without a complete token) through unchanged. -/
theorem C8_structured_resolution :
    (∀ (state : PyState) (s w : Str) (v : PyVal),
        wholeToken s = some w → stateGet state w = some v →
        resolveParamVariable s state = .ok v)
    ∧ (∀ (state : PyState) (s w : Str),
        wholeToken s = some w → stateGet state w = Option.none →
        resolveParamVariable s state = .error (.unbound w (state.map (·.1))))
    ∧ (∀ (state : PyState) (key : Str) (xs : List PyVal) (rest : List (Str × PyVal)),
        resolveParams ((key, .list xs) :: rest) state =
          Except.bind (resolveElems state xs)
            (fun rxs => (resolveParams rest state).map (fun rr => (key, .list rxs) :: rr)))
    ∧ (∀ (state : PyState) (s w : Str) (v : PyVal) (tail : List PyVal),
        wholeToken s = some w → stateGet state w = some v →
        resolveElems state (.str s :: tail) =
          (resolveElems state tail).map (fun rt => v :: rt))
    ∧ (∀ (state : PyState) (x : PyVal) (tail : List PyVal), (∀ s, x ≠ .str s) →
        resolveElems state (x :: tail) =
          (resolveElems state tail).map (fun rt => x :: rt))
    ∧ (∀ (state : PyState) (s : Str) (tail : List PyVal), findTokens s = [] →
        resolveElems state (.str s :: tail) =
          (resolveElems state tail).map (fun rt => .str s :: rt)) :=
  ⟨fun state s w v hw hv => resolveParamVariable_bound s w state v hw hv,
   fun state s w hw hv => resolveParamVariable_unbound s w state hw hv,
   fun state key xs rest => resolveParams_cons_list state key xs rest,
   fun state s w v tail hw hv => resolveElems_cons_bound state s w v tail hw hv,
   fun state x tail hx => resolveElems_cons_nonstr state x tail hx,
   fun state s tail h => resolveElems_cons_noTok state s tail h⟩

/-- C8 exercised on `st8`: a bound whole token resolves to the stored list,
an unbound one errors with the available keys, and a mixed sequence resolves
elementwise. -/
theorem C8_witness :
    resolveParamVariable (tokStr ("xs".toList)) st8 = .ok (.list [.int 1, .int 2])
    ∧ resolveParamVariable (tokStr ("zz".toList)) st8 =
        .error (.unbound ("zz".toList) [("xs".toList)])
    ∧ resolveElems st8 [.str (tokStr ("xs".toList)), .int 7, .str ("plain".toList)] =
        .ok [.list [.int 1, .int 2], .int 7, .str ("plain".toList)]
    ∧ resolveParams [(("p".toList), .list [.str (tokStr ("xs".toList))])] st8 =
        .ok [(("p".toList), .list [.list [.int 1, .int 2]])] := by
  have hw : wholeToken (tokStr ("xs".toList)) = some ("xs".toList) := rfl
  have hv : stateGet st8 ("xs".toList) = some (.list [.int 1, .int 2]) := rfl
  have hw2 : wholeToken (tokStr ("zz".toList)) = some ("zz".toList) := rfl
  have hv2 : stateGet st8 ("zz".toList) = Option.none := rfl
  refine ⟨C8_structured_resolution.1 st8 _ _ _ hw hv,
    C8_structured_resolution.2.1 st8 _ _ hw2 hv2, ?_, ?_⟩
  · rw [C8_structured_resolution.2.2.2.1 st8 _ _ _ _ hw hv]
    rfl
  · rw [C8_structured_resolution.2.2.1 st8 ("p".toList) _ _,
      C8_structured_resolution.2.2.2.1 st8 _ _ _ _ hw hv]
    rfl

theorem findTokens_tokStr (w : Str) (hne : w ≠ []) (hw : ∀ c ∈ w, isWordChar c = true) :
    findTokens (tokStr w) = [w] := by
  have h := word_append_braces w hw
  have hlen : (tokStr w).length = w.length + 3 + 1 := by
    simp [tokStr]
  rw [findTokens, hlen]
  show findTokensGo (w.length + 3 + 1) ('{' :: '{' :: (w ++ ['}', '}'])) = [w]
  rw [findTokensGo_brace_close (w.length + 3) _ [] h.2, h.1, if_neg hne,
    findTokensGo_nil]

theorem searchObj_dict_cons (k : Str) (v : PyVal) (kvs : List (Str × PyVal)) :
    searchObj (.dict ((k, v) :: kvs)) = searchObj v ++ searchObj (.dict kvs) := by
  simp [searchObj]

theorem resolveParams_cons_passthrough (state : PyState) (key : Str) (v : PyVal)
    (rest : List (Str × PyVal)) (hs : ∀ s, v ≠ .str s) (hl : ∀ xs, v ≠ .list xs) :
    resolveParams ((key, v) :: rest) state =
      (resolveParams rest state).map (fun rr => (key, v) :: rr) := by
  cases v with
  | str s => exact absurd rfl (hs s)
  | list xs => exact absurd rfl (hl xs)
  | none =>
    simp only [resolveParams, bind, Except.bind, pure, Except.pure]
    cases resolveParams rest state <;> rfl
  | bool b =>
    simp only [resolveParams, bind, Except.bind, pure, Except.pure]
    cases resolveParams rest state <;> rfl
  | int n =>
    simp only [resolveParams, bind, Except.bind, pure, Except.pure]
    cases resolveParams rest state <;> rfl
  | dict kvs =>
    simp only [resolveParams, bind, Except.bind, pure, Except.pure]
    cases resolveParams rest state <;> rfl

/-- C10: run-time structured resolution inspects only string and list
values — a nested mapping (or any other non-string, non-list value) in the
params dict passes through unchanged for every state, so a `\x7b\x7bname\x7d\x7d`
token inside a nested mapping is never resolved — while the validator's
recursive search does extract such a token from inside a nested mapping. -/
theorem C10_nested_mapping_unresolved :
    (∀ (state : PyState) (key : Str) (d : List (Str × PyVal))
        (rest : List (Str × PyVal)),
        resolveParams ((key, .dict d) :: rest) state =
          (resolveParams rest state).map (fun rr => (key, .dict d) :: rr))
    ∧ (∀ (state : PyState) (key : Str) (v : PyVal) (rest : List (Str × PyVal)),
        (∀ s, v ≠ .str s) → (∀ xs, v ≠ .list xs) →
        resolveParams ((key, v) :: rest) state =
          (resolveParams rest state).map (fun rr => (key, v) :: rr))
    ∧ (∀ (k w : Str) (kvs : List (Str × PyVal)),
        w ≠ [] → (∀ c ∈ w, isWordChar c = true) →
        searchObj (.dict ((k, .str (tokStr w)) :: kvs)) = w :: searchObj (.dict kvs)) :=
  ⟨fun state key d rest =>
    resolveParams_cons_passthrough state key (.dict d) rest
      (fun _ h => PyVal.noConfusion h) (fun _ h => PyVal.noConfusion h),
   fun state key v rest hs hl => resolveParams_cons_passthrough state key v rest hs hl,
   fun k w kvs hne hw => by
    rw [searchObj_dict_cons]
    have hstr : searchObj (.str (tokStr w)) = findTokens (tokStr w) := by
      simp [searchObj]
    rw [hstr, findTokens_tokStr w hne hw]
    rfl⟩

/-- C10 exercised concretely: with `xs` bound in state, a params entry whose
value is a nested mapping holding the token for `xs` comes back unchanged
from `_resolve_params`, while `_search_dict_for_variables` extracts `xs`
from the same nested mapping. -/
theorem C10_witness :
    resolveParams
        [(("cfg".toList), .dict [("inner".toList, .str (tokStr ("xs".toList)))])] st8 =
      .ok [(("cfg".toList), .dict [("inner".toList, .str (tokStr ("xs".toList)))])]
    ∧ searchObj (.dict [("inner".toList, .str (tokStr ("xs".toList)))]) = [("xs".toList)] := by
  constructor
  · rw [C10_nested_mapping_unresolved.1 st8 ("cfg".toList)
      [("inner".toList, .str (tokStr ("xs".toList)))] []]
    rfl
  · rw [C10_nested_mapping_unresolved.2.2 ("inner".toList) ("xs".toList) []
      (by decide) (by decide)]
    simp [searchObj]

theorem takeWhile_all_append (p : Char → Bool) (l rest : Str)
    (hl : ∀ c ∈ l, p c = true) (hr : ∀ c, rest.head? = some c → p c = false) :
    (l ++ rest).takeWhile p = l ∧ (l ++ rest).dropWhile p = rest := by
  induction l with
  | nil =>
    cases rest with
    | nil => exact ⟨rfl, rfl⟩
    | cons c t =>
      have hc := hr c rfl
      simp only [List.nil_append, List.takeWhile_cons, List.dropWhile_cons, hc]
      exact ⟨rfl, rfl⟩
  | cons c cs ih =>
    have hc : p c = true := hl c (List.mem_cons_self c cs)
    have := ih (fun x hx => hl x (List.mem_cons_of_mem c hx))
    simp only [List.cons_append, List.takeWhile_cons, List.dropWhile_cons, hc, if_true]
    exact ⟨by rw [this.1], by rw [this.2]⟩

theorem skipWs_cons (c : Char) (t : Str) (h : wsChar c = false) :
    dropWs (c :: t) = c :: t := by
  simp [dropWs, List.dropWhile_cons, h]

theorem skipWs_ws_append (pre t : Str) (h : ∀ c ∈ pre, wsChar c = true) :
    dropWs (pre ++ t) = dropWs t := by
  induction pre with
  | nil => rfl
  | cons c cs ih =>
    have hc : wsChar c = true := h c (List.mem_cons_self c cs)
    simp only [List.cons_append, dropWs, List.dropWhile_cons, hc, if_true]
    exact ih (fun x hx => h x (List.mem_cons_of_mem c hx))

theorem escapeChain_append (a b : Str) :
    escapeChain (a ++ b) = escapeChain a ++ escapeChain b := by
  simp [escapeChain, replChar, List.flatMap_append]

theorem escapeChain_char (c : Char) (hc : cleanChar c = true) :
    escapeChain [c] = jsonEscChar c := by
  by_cases h1 : c = '\\'
  · subst h1; decide
  by_cases h2 : c = '"'
  · subst h2; decide
  by_cases h3 : c = '\n'
  · subst h3; decide
  by_cases h4 : c = '\r'
  · subst h4; decide
  by_cases h5 : c = '\t'
  · subst h5; decide
  have h32 : 0x20 ≤ c.toNat := by
    simp only [cleanChar, Bool.or_eq_true, decide_eq_true_eq] at hc
    rcases hc with ((hc | hc) | hc) | hc
    · exact hc
    all_goals exact absurd hc (by assumption)
  have e1 : escapeChain [c] = [c] := by
    simp [escapeChain, replChar, h1, h2, h3, h4, h5]
  have e2 : jsonEscChar c = [c] := by
    rw [jsonEscChar, if_neg h2, if_neg h1, if_neg h3, if_neg h4, if_neg h5,
      if_neg (by omega), if_neg (by omega), if_neg (by omega)]
  rw [e1, e2]

theorem escapeChain_eq_jsonEscape (s : Str) (h : cleanStr s = true) :
    escapeChain s = jsonEscape s := by
  induction s with
  | nil => rfl
  | cons c t ih =>
    simp only [cleanStr, List.all_cons, Bool.and_eq_true] at h
    have : escapeChain (c :: t) = escapeChain [c] ++ escapeChain t :=
      escapeChain_append [c] t
    rw [this, escapeChain_char c h.1, ih h.2]
    simp [jsonEscape]

theorem strBody_esc_step (d e : Char) (u : Str) (hd : unescC d = some e) :
    scanJStr ('\\' :: d :: u) = (scanJStr u).map (fun p => (e :: p.1, p.2)) := by
  rw [scanJStr.eq_3, hd]

theorem jsonEscChar_eq_self (c : Char) (h32 : 0x20 ≤ c.toNat)
    (hq : c ≠ '"') (hb : c ≠ '\\') : jsonEscChar c = [c] := by
  rw [jsonEscChar, if_neg hq, if_neg hb,
    if_neg (fun hh => absurd (hh ▸ h32) (by decide)),
    if_neg (fun hh => absurd (hh ▸ h32) (by decide)),
    if_neg (fun hh => absurd (hh ▸ h32) (by decide)),
    if_neg (by omega), if_neg (by omega), if_neg (by omega)]

/-- The JSON string-body parser inverts `jsonEscape` on clean strings. -/
theorem strBody_rt (s : Str) (rest : Str) (h : cleanStr s = true) :
    scanJStr (jsonEscape s ++ '"' :: rest) = some (s, rest) := by
  induction s with
  | nil => exact scanJStr.eq_2 rest
  | cons c t ih =>
    simp only [cleanStr, List.all_cons, Bool.and_eq_true] at h
    have iht := ih h.2
    have hj : jsonEscape (c :: t) = jsonEscChar c ++ jsonEscape t := by simp [jsonEscape]
    rw [hj, List.append_assoc]
    by_cases hq : c = '"'
    · subst hq
      rw [show jsonEscChar '"' = ['\\', '"'] from rfl]
      rw [show (['\\', '"'] : Str) ++ (jsonEscape t ++ '"' :: rest) =
        '\\' :: '"' :: (jsonEscape t ++ '"' :: rest) from rfl]
      rw [strBody_esc_step '"' '"' _ rfl, iht]
      rfl
    by_cases hb : c = '\\'
    · subst hb
      rw [show jsonEscChar '\\' = ['\\', '\\'] from rfl]
      rw [show (['\\', '\\'] : Str) ++ (jsonEscape t ++ '"' :: rest) =
        '\\' :: '\\' :: (jsonEscape t ++ '"' :: rest) from rfl]
      rw [strBody_esc_step '\\' '\\' _ rfl, iht]
      rfl
    by_cases hn : c = '\n'
    · subst hn
      rw [show jsonEscChar '\n' = ['\\', 'n'] from rfl]
      rw [show (['\\', 'n'] : Str) ++ (jsonEscape t ++ '"' :: rest) =
        '\\' :: 'n' :: (jsonEscape t ++ '"' :: rest) from rfl]
      rw [strBody_esc_step 'n' '\n' _ rfl, iht]
      rfl
    by_cases hr : c = '\r'
    · subst hr
      rw [show jsonEscChar '\r' = ['\\', 'r'] from rfl]
      rw [show (['\\', 'r'] : Str) ++ (jsonEscape t ++ '"' :: rest) =
        '\\' :: 'r' :: (jsonEscape t ++ '"' :: rest) from rfl]
      rw [strBody_esc_step 'r' '\r' _ rfl, iht]
      rfl
    by_cases htb : c = '\t'
    · subst htb
      rw [show jsonEscChar '\t' = ['\\', 't'] from rfl]
      rw [show (['\\', 't'] : Str) ++ (jsonEscape t ++ '"' :: rest) =
        '\\' :: 't' :: (jsonEscape t ++ '"' :: rest) from rfl]
      rw [strBody_esc_step 't' '\t' _ rfl, iht]
      rfl
    · have h32 : 0x20 ≤ c.toNat := by
        have hc := h.1
        simp only [cleanChar, Bool.or_eq_true, decide_eq_true_eq] at hc
        rcases hc with ((hc | hc) | hc) | hc
        · exact hc
        all_goals exact absurd hc (by assumption)
      rw [jsonEscChar_eq_self c h32 hq hb]
      rw [show ([c] : Str) ++ (jsonEscape t ++ '"' :: rest) =
        c :: (jsonEscape t ++ '"' :: rest) from rfl]
      rw [scanJStr.eq_4 c _ (fun hh => hq hh)
        (fun _ _ hh _ => hb hh), if_neg (by omega), iht]
      rfl

/-! ### Decimal rendering round-trips through the numeric token parser -/

theorem digit_char_isDigit (d : Nat) (hd : d < 10) :
    (Char.ofNat (48 + d)).isDigit = true ∧ (Char.ofNat (48 + d)).toNat = 48 + d := by
  interval_cases d <;> exact ⟨by decide, by decide⟩

theorem natStrGo_stable : ∀ (n : Nat), ∀ (fuel : Nat), n < fuel →
    natStrGo fuel n = natStr n := by
  intro n
  induction n using Nat.strong_induction_on with
  | _ n ih =>
    intro fuel hf
    match fuel with
    | f + 1 =>
      by_cases h10 : n < 10
      · rw [natStrGo, if_pos h10, natStr, natStrGo, if_pos h10]
      · have hdiv : n / 10 < n := Nat.div_lt_self (by omega) (by omega)
        rw [natStrGo, if_neg h10, natStr, natStrGo, if_neg h10,
          ih (n / 10) hdiv f (by omega), ih (n / 10) hdiv n (by omega)]

theorem natStr_unfold_big (n : Nat) (h10 : ¬n < 10) :
    natStr n = natStr (n / 10) ++ [Char.ofNat (48 + n % 10)] := by
  have hdiv : n / 10 < n := Nat.div_lt_self (by omega) (by omega)
  rw [natStr, natStrGo, if_neg h10, natStrGo_stable (n / 10) n (by omega)]
  rfl

theorem natStr_digits : ∀ (n : Nat), ∀ c ∈ natStr n, c.isDigit = true := by
  intro n
  induction n using Nat.strong_induction_on with
  | _ n ih =>
    intro c hc
    by_cases h10 : n < 10
    · rw [natStr, natStrGo, if_pos h10] at hc
      rcases List.mem_singleton.mp hc with rfl
      exact (digit_char_isDigit n h10).1
    · rw [natStr_unfold_big n h10] at hc
      rcases List.mem_append.mp hc with hc | hc
      · exact ih (n / 10) (Nat.div_lt_self (by omega) (by omega)) c hc
      · rcases List.mem_singleton.mp hc with rfl
        exact (digit_char_isDigit (n % 10) (Nat.mod_lt n (by omega))).1

theorem natStr_cons (n : Nat) :
    ∃ d t, natStr n = d :: t ∧ d.isDigit = true := by
  have hne : natStr n ≠ [] := by
    by_cases h10 : n < 10
    · rw [natStr, natStrGo, if_pos h10]
      exact List.cons_ne_nil _ _
    · rw [natStr_unfold_big n h10]
      simp
  cases hd : natStr n with
  | nil => exact absurd hd hne
  | cons d t =>
    exact ⟨d, t, rfl, natStr_digits n d (hd ▸ List.mem_cons_self d t)⟩

theorem digitsToNat_append_one (l : Str) (c : Char) :
    decNum (l ++ [c]) = decNum l * 10 + (c.toNat - 48) := by
  simp [decNum, List.foldl_append]

theorem natStr_decode : ∀ (n : Nat), decNum (natStr n) = n := by
  intro n
  induction n using Nat.strong_induction_on with
  | _ n ih =>
    by_cases h10 : n < 10
    · rw [natStr, natStrGo, if_pos h10]
      have := (digit_char_isDigit n h10).2
      simp [decNum, this]
    · rw [natStr_unfold_big n h10, digitsToNat_append_one,
        ih (n / 10) (Nat.div_lt_self (by omega) (by omega)),
        (digit_char_isDigit (n % 10) (Nat.mod_lt n (by omega))).2]
      omega

theorem isDigit_toNat (c : Char) (h : c.isDigit = true) :
    48 ≤ c.toNat ∧ c.toNat ≤ 57 := by
  simp only [Char.isDigit, Bool.and_eq_true, decide_eq_true_eq] at h
  obtain ⟨h1, h2⟩ := h
  exact ⟨h1, h2⟩

theorem parseNatTok_rt (n : Nat) (rest : Str)
    (hrest : ∀ c, rest.head? = some c → c.isDigit = false) :
    natTok (natStr n ++ rest) = some (n, rest) := by
  have h := takeWhile_all_append Char.isDigit (natStr n) rest (natStr_digits n) hrest
  obtain ⟨d, t, hd, -⟩ := natStr_cons n
  rw [natTok, h.1, h.2, if_neg (hd ▸ List.cons_ne_nil d t), natStr_decode]

theorem parseIntTok_rt (m : Int) (rest : Str)
    (hrest : ∀ c, rest.head? = some c → c.isDigit = false) :
    intTok (intStr m ++ rest) = some (m, rest) := by
  cases m with
  | ofNat n =>
    obtain ⟨d, t, hd, hdig⟩ := natStr_cons n
    have hne : d ≠ '-' := by
      intro hh
      have := (isDigit_toNat d hdig).1
      rw [hh] at this
      exact absurd this (by decide)
    rw [show intStr (Int.ofNat n) = natStr n from rfl, hd]
    rw [intTok.eq_2 (d :: t ++ rest)
      (fun _ hh => hne (List.cons.injEq .. ▸ hh).1)]
    rw [show (d :: t ++ rest) = natStr n ++ rest from hd ▸ rfl]
    rw [parseNatTok_rt n rest hrest]
    rfl
  | negSucc n =>
    rw [show intStr (Int.negSucc n) = '-' :: natStr (n + 1) from rfl]
    rw [show ('-' :: natStr (n + 1)) ++ rest = '-' :: (natStr (n + 1) ++ rest) from rfl]
    rw [intTok, parseNatTok_rt (n + 1) rest hrest]
    simp [Int.negSucc_eq]

theorem hexDigitChar_ge (h : Nat) (hh : h < 16) : 0x20 ≤ (hexChar h).toNat := by
  interval_cases h <;> decide

theorem mem_all_ge (l : Str) (hl : l.all (fun c => decide (0x20 ≤ c.toNat)) = true)
    (x : Char) (hx : x ∈ l) : 0x20 ≤ x.toNat := by
  rw [List.all_eq_true] at hl
  simpa using hl x hx

theorem jsonEscChar_ge (c x : Char) (hx : x ∈ jsonEscChar c) : 0x20 ≤ x.toNat := by
  rw [jsonEscChar] at hx
  split at hx
  · exact mem_all_ge _ (by decide) x hx
  split at hx
  · exact mem_all_ge _ (by decide) x hx
  split at hx
  · exact mem_all_ge _ (by decide) x hx
  split at hx
  · exact mem_all_ge _ (by decide) x hx
  split at hx
  · exact mem_all_ge _ (by decide) x hx
  split at hx
  · exact mem_all_ge _ (by decide) x hx
  split at hx
  · exact mem_all_ge _ (by decide) x hx
  split at hx
  · rename_i hlt
    simp only [List.mem_cons, List.not_mem_nil, or_false] at hx
    rcases hx with rfl | rfl | rfl | rfl | rfl | rfl
    · decide
    · decide
    · decide
    · decide
    · exact hexDigitChar_ge _ (by omega)
    · exact hexDigitChar_ge _ (Nat.mod_lt _ (by omega))
  · rename_i hge
    rcases List.mem_singleton.mp hx with rfl
    omega

theorem jsonEscape_ge (s : Str) (x : Char) (hx : x ∈ jsonEscape s) : 0x20 ≤ x.toNat := by
  rw [jsonEscape] at hx
  obtain ⟨c, -, hc⟩ := List.mem_flatMap.mp hx
  exact jsonEscChar_ge c x hc

theorem intStr_ge (m : Int) (c : Char) (hc : c ∈ intStr m) : 0x20 ≤ c.toNat := by
  have hnat : ∀ n, ∀ x ∈ natStr n, 0x20 ≤ x.toNat := by
    intro n x hx
    have := (isDigit_toNat x (natStr_digits n x hx)).1
    omega
  cases m with
  | ofNat n => exact hnat n c hc
  | negSucc n =>
    rcases List.mem_cons.mp hc with rfl | hc
    · decide
    · exact hnat (n + 1) c hc

theorem jsonStr_ge : ∀ (v : PyVal), ∀ c ∈ jsonStr v, 0x20 ≤ c.toNat := by
  apply jsonStr.induct
    (motive_2 := fun kvs => ∀ c ∈ jsonDictTail kvs, 0x20 ≤ c.toNat)
    (motive_3 := fun xs => ∀ c ∈ jsonListTail xs, 0x20 ≤ c.toNat)
  · intro c hc
    rw [show jsonStr PyVal.none = ['n', 'u', 'l', 'l'] from rfl] at hc
    exact mem_all_ge _ (by decide) c hc
  · intro c hc
    rw [show jsonStr (.bool true) = ['t', 'r', 'u', 'e'] from rfl] at hc
    exact mem_all_ge _ (by decide) c hc
  · intro c hc
    rw [show jsonStr (.bool false) = ['f', 'a', 'l', 's', 'e'] from rfl] at hc
    exact mem_all_ge _ (by decide) c hc
  · intro n c hc
    exact intStr_ge n c hc
  · intro s c hc
    rw [show jsonStr (.str s) = '"' :: (jsonEscape s ++ ['"']) from rfl] at hc
    rcases List.mem_cons.mp hc with rfl | hc
    · decide
    rcases List.mem_append.mp hc with hc | hc
    · exact jsonEscape_ge s c hc
    · rcases List.mem_singleton.mp hc with rfl
      decide
  · intro c hc
    rw [show jsonStr (.list []) = ['[', ']'] from rfl] at hc
    exact mem_all_ge _ (by decide) c hc
  · intro x xs ihx ihxs c hc
    rw [show jsonStr (.list (x :: xs)) = '[' :: (jsonStr x ++ jsonListTail xs) ++ [']']
      from rfl] at hc
    rcases List.mem_append.mp hc with hc | hc
    · rcases List.mem_cons.mp hc with rfl | hc
      · decide
      rcases List.mem_append.mp hc with hc | hc
      · exact ihx c hc
      · exact ihxs c hc
    · rcases List.mem_singleton.mp hc with rfl
      decide
  · intro c hc
    rw [show jsonStr (.dict []) = ['\x7b', '\x7d'] from rfl] at hc
    exact mem_all_ge _ (by decide) c hc
  · intro k v kvs ihv ihkvs c hc
    rw [show jsonStr (.dict ((k, v) :: kvs)) =
      '\x7b' :: ('"' :: (jsonEscape k ++ ['"', ':', ' ']) ++ (jsonStr v ++ jsonDictTail kvs))
        ++ ['\x7d'] from rfl] at hc
    rcases List.mem_append.mp hc with hc | hc
    · rcases List.mem_cons.mp hc with rfl | hc
      · decide
      rcases List.mem_append.mp hc with hc | hc
      · rcases List.mem_cons.mp hc with rfl | hc
        · decide
        rcases List.mem_append.mp hc with hc | hc
        · exact jsonEscape_ge k c hc
        · rcases List.mem_cons.mp hc with rfl | hc
          · decide
          rcases List.mem_cons.mp hc with rfl | hc
          · decide
          rcases List.mem_singleton.mp hc with rfl
          decide
      · rcases List.mem_append.mp hc with hc | hc
        · exact ihv c hc
        · exact ihkvs c hc
    · rcases List.mem_singleton.mp hc with rfl
      decide
  · intro c hc
    exact absurd hc (List.not_mem_nil c)
  · intro x xs ihx ihxs c hc
    rw [show jsonListTail (x :: xs) = ',' :: ' ' :: (jsonStr x ++ jsonListTail xs)
      from rfl] at hc
    rcases List.mem_cons.mp hc with rfl | hc
    · decide
    rcases List.mem_cons.mp hc with rfl | hc
    · decide
    rcases List.mem_append.mp hc with hc | hc
    · exact ihx c hc
    · exact ihxs c hc
  · intro c hc
    exact absurd hc (List.not_mem_nil c)
  · intro k v kvs ihv ihkvs c hc
    rw [show jsonDictTail ((k, v) :: kvs) =
      ',' :: ' ' :: ('"' :: (jsonEscape k ++ ['"', ':', ' ']) ++ (jsonStr v ++ jsonDictTail kvs))
      from rfl] at hc
    rcases List.mem_cons.mp hc with rfl | hc
    · decide
    rcases List.mem_cons.mp hc with rfl | hc
    · decide
    rcases List.mem_cons.mp hc with rfl | hc
    · decide
    rcases List.mem_append.mp hc with hc | hc
    · rcases List.mem_append.mp hc with hc | hc
      · exact jsonEscape_ge k c hc
      · rcases List.mem_cons.mp hc with rfl | hc
        · decide
        rcases List.mem_cons.mp hc with rfl | hc
        · decide
        rcases List.mem_singleton.mp hc with rfl
        decide
    · rcases List.mem_append.mp hc with hc | hc
      · exact ihv c hc
      · exact ihkvs c hc

theorem cleanStr_jsonStr (v : PyVal) : cleanStr (jsonStr v) = true := by
  rw [cleanStr, List.all_eq_true]
  intro c hc
  have := jsonStr_ge v c hc
  simp only [cleanChar, Bool.or_eq_true, decide_eq_true_eq]
  exact Or.inl (Or.inl (Or.inl this))

theorem intStr_head (m : Int) :
    ∃ d t, intStr m = d :: t ∧ (d.isDigit = true ∨ d = '-') := by
  cases m with
  | ofNat n =>
    obtain ⟨d, t, hd, hdig⟩ := natStr_cons n
    exact ⟨d, t, hd, Or.inl hdig⟩
  | negSucc n => exact ⟨'-', natStr (n + 1), rfl, Or.inr rfl⟩

theorem head_no_kw (d : Char) (h : d.isDigit = true ∨ d = '-') :
    d ≠ 'n' ∧ d ≠ 't' ∧ d ≠ 'f' ∧ d ≠ '"' ∧ d ≠ '[' ∧ d ≠ '\x7b' := by
  rcases h with h | rfl
  · have := isDigit_toNat d h
    refine ⟨?_, ?_, ?_, ?_, ?_, ?_⟩ <;> (rintro rfl; revert this; decide)
  · exact ⟨by decide, by decide, by decide, by decide, by decide, by decide⟩

theorem char_range_facts (d : Char) (h1 : 45 ≤ d.toNat) (h2 : d.toNat ≤ 57) :
    wsChar d = false ∧ d ≠ ']' ∧ d ≠ '\x7d' := by
  refine ⟨?_, ?_, ?_⟩
  · cases hw : wsChar d with
    | false => rfl
    | true =>
      simp only [wsChar, Bool.or_eq_true, decide_eq_true_eq] at hw
      rcases hw with ((rfl | rfl) | rfl) | rfl <;> (revert h1 h2; decide)
  · rintro rfl
    revert h1 h2
    decide
  · rintro rfl
    revert h1 h2
    decide

theorem jsonStr_head (v : PyVal) :
    ∃ c t, jsonStr v = c :: t ∧ wsChar c = false ∧ c ≠ ']' ∧ c ≠ '\x7d' := by
  cases v with
  | none => exact ⟨'n', _, rfl, by decide, by decide, by decide⟩
  | bool b =>
    cases b
    · exact ⟨'f', _, rfl, by decide, by decide, by decide⟩
    · exact ⟨'t', _, rfl, by decide, by decide, by decide⟩
  | int m =>
    obtain ⟨d, t, hd, hdig⟩ := intStr_head m
    have hr : 45 ≤ d.toNat ∧ d.toNat ≤ 57 := by
      rcases hdig with hdig | rfl
      · have := isDigit_toNat d hdig
        omega
      · exact ⟨by decide, by decide⟩
    obtain ⟨hw, hb, hbr⟩ := char_range_facts d hr.1 hr.2
    exact ⟨d, t, hd, hw, hb, hbr⟩
  | str s => exact ⟨'"', _, rfl, by decide, by decide, by decide⟩
  | list xs =>
    cases xs with
    | nil => exact ⟨'[', _, rfl, by decide, by decide, by decide⟩
    | cons x xs => exact ⟨'[', _, rfl, by decide, by decide, by decide⟩
  | dict kvs =>
    cases kvs with
    | nil => exact ⟨'\x7b', _, rfl, by decide, by decide, by decide⟩
    | cons kv kvs =>
      obtain ⟨k, v⟩ := kv
      exact ⟨'\x7b', _, rfl, by decide, by decide, by decide⟩

theorem skipWs_jsonStr (v : PyVal) (pre rest : Str) (hpre : ∀ c ∈ pre, wsChar c = true) :
    dropWs (pre ++ (jsonStr v ++ rest)) = jsonStr v ++ rest := by
  rw [skipWs_ws_append pre _ hpre]
  obtain ⟨c, t, hct, hws, -, -⟩ := jsonStr_head v
  rw [hct, List.cons_append, skipWs_cons _ _ hws, ← List.cons_append, ← hct]

theorem parseElems_step (fuel : Nat) (s : Str) (v : PyVal) (r : Str)
    (h : loadVal fuel s = some (v, r)) :
    loadArr (fuel + 1) s =
      match dropWs r with
      | ',' :: r2 => (loadArr fuel r2).map (fun p => (v :: p.1, p.2))
      | ']' :: r2 => some ([v], r2)
      | _ => Option.none := by
  rw [loadArr.eq_2]
  simp only [h]

theorem parseMembers_step (fuel : Nat) (s : Str) (r r1 r2 : Str) (k : Str)
    (v : PyVal) (r3 : Str)
    (hs : dropWs s = '"' :: r) (hb : scanJStr r = some (k, r1))
    (h1 : dropWs r1 = ':' :: r2) (hv : loadVal fuel r2 = some (v, r3)) :
    loadObj (fuel + 1) s =
      match dropWs r3 with
      | ',' :: r4 => (loadObj fuel r4).map (fun p => ((k, v) :: p.1, p.2))
      | '\x7d' :: r4 => some ([(k, v)], r4)
      | _ => Option.none := by
  rw [loadObj.eq_2]
  simp only [hs, hb, h1, hv]

/-- The parser inverts `json.dumps` on clean values: with enough fuel,
`loadVal` consumes exactly the emitted text (after any leading whitespace)
and returns the original value, provided the remaining input does not start
with a digit.  The two companion statements handle the element and member
loops. -/
theorem parse_rt : ∀ fuel : Nat,
    (∀ (v : PyVal) (pre rest : Str), (∀ c ∈ pre, wsChar c = true) → cleanVal v = true →
      (jsonStr v).length ≤ fuel → (∀ c, rest.head? = some c → c.isDigit = false) →
      loadVal fuel (pre ++ (jsonStr v ++ rest)) = some (v, rest))
    ∧ (∀ (x : PyVal) (xs : List PyVal) (pre rest : Str), (∀ c ∈ pre, wsChar c = true) →
      cleanVal x = true → cleanValL xs = true →
      (jsonStr x).length + (jsonListTail xs).length + 1 ≤ fuel →
      (∀ c, rest.head? = some c → c.isDigit = false) →
      loadArr fuel (pre ++ (jsonStr x ++ (jsonListTail xs ++ (']' :: rest)))) =
        some (x :: xs, rest))
    ∧ (∀ (k : Str) (v : PyVal) (kvs : List (Str × PyVal)) (pre rest : Str),
      (∀ c ∈ pre, wsChar c = true) → cleanStr k = true → cleanVal v = true →
      cleanValD kvs = true →
      (jsonStr v).length + (jsonDictTail kvs).length + 2 ≤ fuel →
      (∀ c, rest.head? = some c → c.isDigit = false) →
      loadObj fuel
        (pre ++ ('"' :: (jsonEscape k ++ ('"' :: ':' :: ' ' ::
          (jsonStr v ++ (jsonDictTail kvs ++ ('\x7d' :: rest))))))) =
        some ((k, v) :: kvs, rest)) := by
  intro fuel
  induction fuel with
  | zero =>
    refine ⟨?_, ?_, ?_⟩
    · intro v pre rest hpre hcl hlen hrest
      obtain ⟨c, t, hct, -, -, -⟩ := jsonStr_head v
      rw [hct] at hlen
      exact absurd hlen (by simp)
    · intro x xs pre rest hpre hclx hclxs hlen hrest
      omega
    · intro k v kvs pre rest hpre hclk hclv hclkvs hlen hrest
      omega
  | succ fuel ih =>
    obtain ⟨ihA, ihB, ihC⟩ := ih
    have hwsp : ∀ c ∈ ([' '] : Str), wsChar c = true := by
      intro c hc
      rcases List.mem_singleton.mp hc with rfl
      decide
    refine ⟨?_, ?_, ?_⟩
    · -- loadVal
      intro v pre rest hpre hcl hlen hrest
      rw [loadVal.eq_2, skipWs_jsonStr v pre rest hpre]
      cases v with
      | none =>
        rw [show jsonStr PyVal.none = ['n', 'u', 'l', 'l'] from rfl]
        rfl
      | bool b =>
        cases b
        · rw [show jsonStr (.bool false) = ['f', 'a', 'l', 's', 'e'] from rfl]
          rfl
        · rw [show jsonStr (.bool true) = ['t', 'r', 'u', 'e'] from rfl]
          rfl
      | str s =>
        rw [show jsonStr (.str s) = '"' :: (jsonEscape s ++ ['"']) from rfl]
        simp only [List.cons_append, List.append_assoc, List.singleton_append,
          List.nil_append]
        rw [show cleanVal (.str s) = cleanStr s from rfl] at hcl
        rw [strBody_rt s rest hcl]
        rfl
      | int m =>
        rw [show jsonStr (.int m) = intStr m from rfl] at *
        obtain ⟨d, t, hd, hdig⟩ := intStr_head m
        obtain ⟨hn, ht, hf, hq, hl, hb⟩ := head_no_kw d hdig
        have hkw : ∀ (c2 : Char) (l : Str), intStr m ++ rest = c2 :: l →
            (c2 = 'n' ∨ c2 = 't' ∨ c2 = 'f' ∨ c2 = '"' ∨ c2 = '[' ∨ c2 = '\x7b') →
            False := by
          intro c2 l heq hcs
          rw [hd, List.cons_append] at heq
          injection heq with h1 h2
          subst h1
          rcases hcs with rfl | rfl | rfl | rfl | rfl | rfl
          · exact hn rfl
          · exact ht rfl
          · exact hf rfl
          · exact hq rfl
          · exact hl rfl
          · exact hb rfl
        split
        all_goals try (rename_i heq; exact absurd heq (fun heq => hkw _ _ heq (by decide)))
        all_goals try (rw [parseIntTok_rt m rest hrest]; rfl)
      | list xs =>
        cases xs with
        | nil =>
          rw [show jsonStr (.list []) = ['[', ']'] from rfl]
          rw [show (['[', ']'] : Str) ++ rest = '[' :: ']' :: rest from rfl]
          have : dropWs (']' :: rest) = ']' :: rest := skipWs_cons _ _ (by decide)
          simp only [this]
        | cons x xs =>
          rw [show jsonStr (.list (x :: xs)) =
            '[' :: (jsonStr x ++ jsonListTail xs) ++ [']'] from rfl]
          simp only [List.cons_append, List.append_assoc, List.singleton_append,
            List.nil_append]
          -- goal: match on '[' :: (jsonStr x ++ (jsonListTail xs ++ ']' :: rest))
          have hcl' : cleanVal x = true ∧ cleanValL xs = true := by
            rw [show cleanVal (.list (x :: xs)) = (cleanVal x && cleanValL xs)
              from rfl, Bool.and_eq_true] at hcl
            exact hcl
          have hlen' : (jsonStr x).length + (jsonListTail xs).length + 1 ≤ fuel := by
            rw [show jsonStr (.list (x :: xs)) =
              '[' :: (jsonStr x ++ jsonListTail xs) ++ [']'] from rfl] at hlen
            simp only [List.length_append, List.length_cons, List.length_singleton]
              at hlen
            omega
          have hskipx := skipWs_jsonStr x [] (jsonListTail xs ++ (']' :: rest))
            (by intro c hc; exact absurd hc (List.not_mem_nil c))
          rw [List.nil_append] at hskipx
          split
          · rename_i heq
            rw [hskipx] at heq
            obtain ⟨c, t, hct, -, hnb, -⟩ := jsonStr_head x
            rw [hct, List.cons_append] at heq
            exact absurd (List.cons.injEq .. ▸ heq).1 hnb
          · have hB := ihB x xs [] rest
              (by intro c hc; exact absurd hc (List.not_mem_nil c))
              hcl'.1 hcl'.2 hlen' hrest
            rw [List.nil_append] at hB
            rw [hB]
            rfl
      | dict kvs =>
        cases kvs with
        | nil =>
          rw [show jsonStr (.dict []) = ['\x7b', '\x7d'] from rfl]
          rw [show (['\x7b', '\x7d'] : Str) ++ rest = '\x7b' :: '\x7d' :: rest from rfl]
          have : dropWs ('\x7d' :: rest) = '\x7d' :: rest := skipWs_cons _ _ (by decide)
          simp only [this]
        | cons kv kvs =>
          obtain ⟨k, v⟩ := kv
          rw [show jsonStr (.dict ((k, v) :: kvs)) =
            '\x7b' :: ('"' :: (jsonEscape k ++ ['"', ':', ' ']) ++
              (jsonStr v ++ jsonDictTail kvs)) ++ ['\x7d'] from rfl]
          simp only [List.cons_append, List.append_assoc, List.singleton_append,
            List.nil_append]
          have hcl' : cleanStr k = true ∧ cleanVal v = true ∧ cleanValD kvs = true := by
            rw [show cleanVal (.dict ((k, v) :: kvs)) =
              (decide (((k, v) :: kvs).map (fun p => p.1)).Nodup &&
                cleanValD ((k, v) :: kvs)) from rfl, Bool.and_eq_true] at hcl
            have h2 := hcl.2
            rw [show cleanValD ((k, v) :: kvs) =
              (cleanStr k && cleanVal v && cleanValD kvs) from rfl,
              Bool.and_eq_true, Bool.and_eq_true] at h2
            exact ⟨h2.1.1, h2.1.2, h2.2⟩
          have hlen' : (jsonStr v).length + (jsonDictTail kvs).length + 2 ≤ fuel := by
            rw [show jsonStr (.dict ((k, v) :: kvs)) =
              '\x7b' :: ('"' :: (jsonEscape k ++ ['"', ':', ' ']) ++
                (jsonStr v ++ jsonDictTail kvs)) ++ ['\x7d'] from rfl] at hlen
            simp only [List.length_append, List.length_cons, List.length_singleton]
              at hlen
            omega
          split
          · rename_i heq
            rw [skipWs_cons _ _ (by decide)] at heq
            exact absurd (List.cons.injEq .. ▸ heq).1 (by decide)
          · have hC := ihC k v kvs [] rest
              (by intro c hc; exact absurd hc (List.not_mem_nil c))
              hcl'.1 hcl'.2.1 hcl'.2.2 hlen' hrest
            rw [List.nil_append] at hC
            rw [hC]
            rfl
    · -- loadArr
      intro x xs pre rest hpre hclx hclxs hlen hrest
      have hrest' : ∀ c, (jsonListTail xs ++ (']' :: rest)).head? = some c →
          c.isDigit = false := by
        cases xs with
        | nil =>
          intro c hc
          rw [show jsonListTail ([] : List PyVal) = [] from rfl, List.nil_append] at hc
          rcases Option.some.inj hc with rfl
          decide
        | cons y ys =>
          intro c hc
          rw [show jsonListTail (y :: ys) = ',' :: ' ' :: (jsonStr y ++ jsonListTail ys)
            from rfl, List.cons_append] at hc
          rcases Option.some.inj hc with rfl
          decide
      have hA := ihA x pre (jsonListTail xs ++ (']' :: rest)) hpre hclx
        (by omega) hrest'
      rw [parseElems_step fuel _ x _ hA]
      cases xs with
      | nil =>
        rw [show jsonListTail ([] : List PyVal) = [] from rfl, List.nil_append,
          skipWs_cons _ _ (by decide)]
        rfl
      | cons y ys =>
        rw [show jsonListTail (y :: ys) = ',' :: ' ' :: (jsonStr y ++ jsonListTail ys)
          from rfl, List.cons_append, List.cons_append, skipWs_cons _ _ (by decide)]
        have hcl' : cleanVal y = true ∧ cleanValL ys = true := by
          rw [show cleanValL (y :: ys) = (cleanVal y && cleanValL ys) from rfl,
            Bool.and_eq_true] at hclxs
          exact hclxs
        have hlen' : (jsonStr y).length + (jsonListTail ys).length + 1 ≤ fuel := by
          rw [show jsonListTail (y :: ys) = ',' :: ' ' :: (jsonStr y ++ jsonListTail ys)
            from rfl] at hlen
          simp only [List.length_append, List.length_cons] at hlen
          omega
        have hB := ihB y ys [' '] rest hwsp hcl'.1 hcl'.2 hlen' hrest
        rw [show ([' '] : Str) ++ (jsonStr y ++ (jsonListTail ys ++ (']' :: rest))) =
          ' ' :: ((jsonStr y ++ jsonListTail ys) ++ (']' :: rest)) by
            simp [List.append_assoc]] at hB
        simp only [List.append_assoc] at hB ⊢
        simp only [hB]
        rfl
    · -- loadObj
      intro k v kvs pre rest hpre hclk hclv hclkvs hlen hrest
      have hrest' : ∀ c, (jsonDictTail kvs ++ ('\x7d' :: rest)).head? = some c →
          c.isDigit = false := by
        cases kvs with
        | nil =>
          intro c hc
          rw [show jsonDictTail ([] : List (Str × PyVal)) = [] from rfl,
            List.nil_append] at hc
          rcases Option.some.inj hc with rfl
          decide
        | cons kv2 kvs2 =>
          obtain ⟨k2, v2⟩ := kv2
          intro c hc
          rw [show jsonDictTail ((k2, v2) :: kvs2) =
            ',' :: ' ' :: ('"' :: (jsonEscape k2 ++ ['"', ':', ' ']) ++
              (jsonStr v2 ++ jsonDictTail kvs2)) from rfl, List.cons_append] at hc
          rcases Option.some.inj hc with rfl
          decide
      have hA := ihA v [' '] (jsonDictTail kvs ++ ('\x7d' :: rest)) hwsp hclv
        (by omega) hrest'
      rw [show ([' '] : Str) ++ (jsonStr v ++ (jsonDictTail kvs ++ ('\x7d' :: rest))) =
        ' ' :: (jsonStr v ++ (jsonDictTail kvs ++ ('\x7d' :: rest))) by simp] at hA
      have hs0 : dropWs (pre ++ ('"' :: (jsonEscape k ++ ('"' :: ':' :: ' ' ::
          (jsonStr v ++ (jsonDictTail kvs ++ ('\x7d' :: rest))))))) =
          '"' :: (jsonEscape k ++ ('"' :: ':' :: ' ' ::
            (jsonStr v ++ (jsonDictTail kvs ++ ('\x7d' :: rest))))) := by
        rw [skipWs_ws_append pre _ hpre, skipWs_cons _ _ (by decide)]
      have hb0 : scanJStr (jsonEscape k ++ ('"' :: ':' :: ' ' ::
          (jsonStr v ++ (jsonDictTail kvs ++ ('\x7d' :: rest))))) =
          some (k, ':' :: ' ' :: (jsonStr v ++ (jsonDictTail kvs ++ ('\x7d' :: rest)))) :=
        strBody_rt k _ hclk
      have h10 : dropWs (':' :: ' ' :: (jsonStr v ++ (jsonDictTail kvs ++
          ('\x7d' :: rest)))) = ':' :: (' ' :: (jsonStr v ++ (jsonDictTail kvs ++
          ('\x7d' :: rest)))) := skipWs_cons _ _ (by decide)
      rw [parseMembers_step fuel _ _ _ _ k v _ hs0 hb0 h10 hA]
      cases kvs with
      | nil =>
        rw [show jsonDictTail ([] : List (Str × PyVal)) = [] from rfl, List.nil_append,
          skipWs_cons _ _ (by decide)]
        rfl
      | cons kv2 kvs2 =>
        obtain ⟨k2, v2⟩ := kv2
        rw [show jsonDictTail ((k2, v2) :: kvs2) =
          ',' :: ' ' :: ('"' :: (jsonEscape k2 ++ ['"', ':', ' ']) ++
            (jsonStr v2 ++ jsonDictTail kvs2)) from rfl, List.cons_append,
          List.cons_append, skipWs_cons _ _ (by decide)]
        have hcl' : cleanStr k2 = true ∧ cleanVal v2 = true ∧ cleanValD kvs2 = true := by
          rw [show cleanValD ((k2, v2) :: kvs2) =
            (cleanStr k2 && cleanVal v2 && cleanValD kvs2) from rfl,
            Bool.and_eq_true, Bool.and_eq_true] at hclkvs
          exact ⟨hclkvs.1.1, hclkvs.1.2, hclkvs.2⟩
        have hlen' : (jsonStr v2).length + (jsonDictTail kvs2).length + 2 ≤ fuel := by
          rw [show jsonDictTail ((k2, v2) :: kvs2) =
            ',' :: ' ' :: ('"' :: (jsonEscape k2 ++ ['"', ':', ' ']) ++
              (jsonStr v2 ++ jsonDictTail kvs2)) from rfl] at hlen
          simp only [List.length_append, List.length_cons] at hlen
          omega
        have hC := ihC k2 v2 kvs2 [' '] rest hwsp hcl'.1 hcl'.2.1 hcl'.2.2 hlen' hrest
        rw [show ([' '] : Str) ++ ('"' :: (jsonEscape k2 ++ ('"' :: ':' :: ' ' ::
            (jsonStr v2 ++ (jsonDictTail kvs2 ++ ('\x7d' :: rest)))))) =
          ' ' :: ('"' :: (jsonEscape k2 ++ ('"' :: ':' :: ' ' ::
            (jsonStr v2 ++ (jsonDictTail kvs2 ++ ('\x7d' :: rest)))))) by simp] at hC
        simp only [List.append_assoc, List.cons_append, List.singleton_append,
          List.nil_append] at hC ⊢
        simp only [hC]
        rfl

/-- `json.loads` inverts `json.dumps` on clean values. -/
theorem jsonParse_jsonStr (v : PyVal) (hcl : cleanVal v = true) :
    jsonParse (jsonStr v) = some v := by
  have hA := (parse_rt ((jsonStr v).length + 1)).1 v [] []
    (by intro c hc; exact absurd hc (List.not_mem_nil c)) hcl (by omega)
    (by intro c hc; exact absurd hc (by simp))
  rw [List.nil_append, List.append_nil] at hA
  rw [jsonParse, hA]
  rfl

/-- Parsing a quoted slot yields back the string content. -/
theorem jsonParse_quoted (content : Str) (hc : cleanStr content = true) :
    jsonParse ('"' :: (jsonEscape content ++ ['"'])) = some (.str content) := by
  have hb : scanJStr (jsonEscape content ++ '"' :: ([] : Str)) =
      some (content, []) := strBody_rt content [] hc
  rw [jsonParse, loadVal.eq_2, skipWs_cons _ _ (by decide)]
  simp only [hb]
  rfl

theorem cleanStr_resolveValueStr (v : PyVal) (hcl : cleanVal v = true) :
    cleanStr (resolveValueStr v) = true := by
  cases v with
  | none => decide
  | bool b => exact cleanStr_jsonStr (.bool b)
  | int n => exact cleanStr_jsonStr (.int n)
  | str s => exact hcl
  | list xs => exact cleanStr_jsonStr (.list xs)
  | dict kvs => exact cleanStr_jsonStr (.dict kvs)

/-- `_resolve_template` on the quoted one-token template `"\x7b\x7bw\x7d\x7d"`:
the slot is replaced by the escaped serialized value. -/
theorem resolveTemplate_quoted (state : PyState) (w : Str) (v : PyVal)
    (hv : stateGet state w = some v) (hnn : v ≠ .none)
    (hne : w ≠ []) (hw : ∀ c ∈ w, isWordChar c = true) :
    resolveTemplate ('"' :: (tokStr w ++ ['"'])) state =
      .ok ('"' :: (safeStr v ++ ['"'])) := by
  have hword := takeWhile_all_append isWordChar w ['\x7d', '\x7d', '"'] hw
    (by intro c hc; rcases Option.some.inj hc with rfl; decide)
  have hlen : ('"' :: (tokStr w ++ ['"'])).length = w.length + 6 := by
    simp [tokStr]
  rw [resolveTemplate, hlen]
  have e1 : resolveTemplateGo state (w.length + 6) ('"' :: (tokStr w ++ ['"'])) =
      (resolveTemplateGo state (w.length + 5)
        ('{' :: '{' :: (w ++ ['\x7d', '\x7d', '"']))).map (fun t => '"' :: t) := by
    have := resolveTemplateGo_cons_ne state (w.length + 5) '"' '{'
      ('{' :: (w ++ ['\x7d', '\x7d', '"'])) (by intro hh; exact absurd hh.1 (by decide))
    rw [show ('"' :: (tokStr w ++ ['"'])) =
      '"' :: '{' :: '{' :: (w ++ ['\x7d', '\x7d', '"']) by simp [tokStr]]
    exact this
  rw [e1]
  have e2 : resolveTemplateGo state (w.length + 5)
      ('{' :: '{' :: (w ++ ['\x7d', '\x7d', '"'])) =
      (resolveTemplateGo state (w.length + 4) ['"']).map (fun t => safeStr v ++ t) := by
    have hdw : (w ++ ['\x7d', '\x7d', '"']).dropWhile isWordChar =
        '\x7d' :: '\x7d' :: ['"'] := hword.2
    have := resolveTemplateGo_brace_close state (w.length + 4) (w ++ ['\x7d', '\x7d', '"'])
      ['"'] hdw
    rw [this, hword.1, if_neg hne]
    have hpy : pyGet state w = v := by
      rw [pyGet, hv]
      rfl
    rw [hpy]
    cases v with
    | none => exact absurd rfl hnn
    | bool b => rfl
    | int n => rfl
    | str s2 => rfl
    | list xs => rfl
    | dict kvs => rfl
  rw [e2]
  have e3 : resolveTemplateGo state (w.length + 4) ['"'] = .ok ['"'] := by
    have h1 : resolveTemplateGo state (w.length + 4) ['"'] =
        (resolveTemplateGo state (w.length + 3) []).map (fun t => '"' :: t) :=
      resolveTemplateGo_single state (w.length + 3) '"'
    rw [h1, resolveTemplateGo_nil]
    rfl
  rw [e3]
  rfl

/-- C9 (corrected): the five-replace escape is exactly JSON string-content
escaping on clean serialized text, so resolving the quoted one-token
template yields the serialized value escaped into a valid JSON string whose
re-parse returns that serialized text, and re-decoding the serialized text
of a clean value returns the value itself.  (The correction: this holds
only for clean values — a control character below U+0020 other than
newline, carriage return and tab survives the escape raw and makes the
resolved template invalid JSON, see the counterexample.) -/
theorem C9_string_safe_roundtrip :
    (∀ (state : PyState) (w : Str) (v : PyVal),
      stateGet state w = some v → v ≠ .none → w ≠ [] →
      (∀ c ∈ w, isWordChar c = true) → cleanVal v = true →
      resolveTemplate ('"' :: (tokStr w ++ ['"'])) state =
        .ok ('"' :: (safeStr v ++ ['"']))
      ∧ jsonParse ('"' :: (safeStr v ++ ['"'])) = some (.str (resolveValueStr v)))
    ∧ (∀ v : PyVal, cleanVal v = true → jsonParse (jsonStr v) = some v)
    ∧ (∀ xs : List PyVal, cleanValL xs = true →
        jsonParse (resolveValueStr (.list xs)) = some (.list xs)) := by
  refine ⟨?_, jsonParse_jsonStr, ?_⟩
  · intro state w v hv hnn hne hw hcl
    have hesc : safeStr v = jsonEscape (resolveValueStr v) := by
      rw [safeStr, escapeChain_eq_jsonEscape _ (cleanStr_resolveValueStr v hcl)]
    refine ⟨resolveTemplate_quoted state w v hv hnn hne hw, ?_⟩
    rw [hesc]
    exact jsonParse_quoted (resolveValueStr v) (cleanStr_resolveValueStr v hcl)
  · intro xs hcl
    exact jsonParse_jsonStr (.list xs) hcl

/-- C9 counterexample: the escape step replaces only backslash, quote,
newline, carriage return and tab, so a stored string holding a backspace
resolves into the quoted template as a raw control character, and the
strict parse of the resolved document fails — serialize → escape → embed
does not always yield syntactically valid text. -/
theorem C9_counterexample :
    stateGet st9 ("v".toList) = some (.str [Char.ofNat 8])
    ∧ resolveTemplate ('"' :: (tokStr ("v".toList) ++ ['"'])) st9 =
        .ok ('"' :: Char.ofNat 8 :: ['"'])
    ∧ jsonParse ('"' :: Char.ofNat 8 :: ['"']) = Option.none := by
  exact ⟨rfl, rfl, rfl⟩

/-- C9 exercised on `st8`: the bound list `[1, 2]` resolves in the quoted
template to its escaped JSON text, the template re-parses to that text as a
string, and decoding the serialized text returns the original list. -/
theorem C9_witness :
    resolveTemplate ('"' :: (tokStr ("xs".toList) ++ ['"'])) st8 =
      .ok ('"' :: (safeStr (.list [.int 1, .int 2]) ++ ['"']))
    ∧ jsonParse ('"' :: (safeStr (.list [.int 1, .int 2]) ++ ['"'])) =
        some (.str (resolveValueStr (.list [.int 1, .int 2])))
    ∧ jsonParse (resolveValueStr (.list [.int 1, .int 2])) =
        some (.list [.int 1, .int 2]) := by
  have h := (C9_string_safe_roundtrip.1 st8 ("xs".toList) (.list [.int 1, .int 2])
    rfl (fun hh => PyVal.noConfusion hh) (by decide) (by decide) (by decide))
  exact ⟨h.1, h.2, C9_string_safe_roundtrip.2.2 [.int 1, .int 2] (by decide)⟩

end LGT
